import Mathlib

/-!
# POCSAG layer-2 decoder (multimon-ng, `pocsag.c`): embedding and verification

Machine words are natural numbers; every operation that can leave the
32-bit range in C is reduced modulo `2 ^ 32` explicitly.  C arrays are lists
read with `rd` and written with `wr`.  Of the output only the lines printed
by `pocsag_printmessage` are modelled; the word log and the debug log are
files written on the side and have no effect on the decoder.
-/

namespace Pocsag

/-! ## Constants of `pocsag.c` -/

def POCSAG_SYNC : Nat := 0x7cd215d8
def POCSAG_IDLE : Nat := 0x7a89c197
def POCSAG_IDLEOP : Nat := 0x7a89c196
def POCSAG_MESSAGE_DETECTION : Nat := 0x80000000
def BCH_POLY : Nat := 0o3551
def BCH_N : Nat := 31
def BCH_K : Nat := 21
def ONE : Nat := 0xffffffff

def ASCII_NUL : Nat := 0x00
def ASCII_ETX : Nat := 0x03
def ASCII_EOT : Nat := 0x04
def ASCII_ETB : Nat := 0x17
def ASCII_EM : Nat := 0x19

/-- Truncation of a value to `uint32_t`. -/
def u32 (x : Nat) : Nat := x % 2 ^ 32

/-- Truncation of a value to `unsigned char`. -/
def u8 (x : Nat) : Nat := x % 256

/-- Read of `a[i]` in a C array. -/
def rd (a : List Nat) (i : Nat) : Nat := a.getD i 0

/-- Store `a[i] = v` in a C array. -/
def wr (a : List Nat) (i : Nat) (v : Nat) : List Nat := a.set i v

/-! ## BCH(31,21) syndrome -/

/-- `even_parity`: XOR of the 32 bits of `data`. -/
def even_parity (data : Nat) : Nat :=
  let temp := data ^^^ (data >>> 16)
  let temp := temp ^^^ (temp >>> 8)
  let temp := temp ^^^ (temp >>> 4)
  let temp := temp ^^^ (temp >>> 2)
  let temp := temp ^^^ (temp >>> 1)
  temp &&& 1

/-- The `for(; n > 0; mask >>= 1, coeff >>= 1, n--)` loop of
`pocsag_syndrome`; the first argument is the loop counter `n`. -/
def syndrome_loop : Nat → Nat → Nat → Nat → Nat
  | 0, shreg, _, _ => shreg
  | n + 1, shreg, mask, coeff =>
    syndrome_loop n (if shreg &&& mask ≠ 0 then shreg ^^^ coeff else shreg)
      (mask >>> 1) (coeff >>> 1)

/-- `pocsag_syndrome`: remainder of the 31 code bits modulo the generator in
bits 0..9, overall parity in bit 10. -/
def pocsag_syndrome (data : Nat) : Nat :=
  let shreg := data >>> 1
  let shreg := syndrome_loop BCH_K shreg (1 <<< (BCH_N - 1)) (BCH_POLY <<< (BCH_K - 1))
  if even_parity data ≠ 0 then shreg ||| (1 <<< (BCH_N - BCH_K)) else shreg

/-! ## Bit-sliced syndrome -/

/-- Loop of `transpose_n` over `j`, counting up from `32 - fuel`. -/
def transpose_n_loop (n : Nat) (matrix : List Nat) : Nat → Nat → Nat → Nat
  | 0, _, out => out
  | fuel + 1, j, out =>
    transpose_n_loop n matrix fuel (j + 1)
      (if rd matrix j &&& u32 (1 <<< n) ≠ 0 then out ||| u32 (1 <<< j) else out)

/-- `transpose_n`: the word held in lane `n` of the 32 columns. -/
def transpose_n (n : Nat) (matrix : List Nat) : Nat :=
  transpose_n_loop n matrix 32 0 0

/-- `transpose_clone`: 32 columns whose every lane holds `src`. -/
def transpose_clone (src : Nat) : List Nat :=
  (List.range 32).map fun i => if src &&& u32 (1 <<< i) ≠ 0 then ONE else 0

/-- The statement `slices[a] ^= slices[b]`. -/
def xor_into (slices : List Nat) (a b : Nat) : List Nat :=
  wr slices a (rd slices a ^^^ rd slices b)

/-- First loop of `bitslice_syndrome` (`i` from 1 to 31): accumulate the
parity mask and shift the columns down by one. -/
def bitslice_shift : Nat → Nat → List Nat → Nat → List Nat × Nat
  | 0, _, slices, paritymask => (slices, paritymask)
  | fuel + 1, i, slices, paritymask =>
    bitslice_shift fuel (i + 1) (wr slices (i - 1) (rd slices i)) (paritymask ^^^ rd slices i)

/-- Body of the division loop of `bitslice_syndrome` for one `n`. -/
def bitslice_step (slices : List Nat) (n : Nat) : List Nat :=
  let bit := (BCH_N - 1) - n
  let slices := xor_into slices (20 - n) bit
  let slices := xor_into slices (23 - n) bit
  let slices := xor_into slices (25 - n) bit
  let slices := xor_into slices (26 - n) bit
  let slices := xor_into slices (28 - n) bit
  let slices := xor_into slices (29 - n) bit
  let slices := xor_into slices (30 - n) bit
  let slices := xor_into slices (31 - n) bit
  slices

/-- `bitslice_syndrome`: the syndromes of the 32 lanes at once. -/
def bitslice_syndrome (slices : List Nat) : List Nat :=
  let r := bitslice_shift 31 1 slices (rd slices 0)
  let slices := wr r.1 31 0
  let paritymask := r.2
  let slices := (List.range BCH_K).foldl bitslice_step slices
  wr slices (BCH_N - BCH_K) (rd slices (BCH_N - BCH_K) ||| paritymask)

/-! ## Receiver state -/

/-- The `states` enumeration. -/
inductive states where
  | NO_SYNC
  | SYNC
  | LOSING_SYNC
  | LOST_SYNC
  | ADDRESS
  | MESSAGE
  | END_OF_MESSAGE
  deriving DecidableEq

/-- Process-wide settings: the four configuration globals of `pocsag.c`, the
translation table `trtab` as left by `pocsag_init_charset`, and the two facts
fixed by the declaration of `struct l2_state_pocsag` in `multimon.h`:
`sizeof(buffer)` and the bit width of the statistics counters. -/
structure Config where
  pocsag_invert_input : Int
  pocsag_error_correction : Int
  pocsag_show_partial_decodes : Int
  pocsag_prune_empty : Int
  trtab : List String
  buffer_size : Nat
  counter_bits : Nat
  deriving DecidableEq

/-- The fields of `struct l2_state_pocsag` used by `pocsag.c`. -/
structure l2_state_pocsag where
  rx_data : Nat
  rx_bit : Nat
  state : states
  address : Int
  function : Int
  buffer : List Nat
  numnibbles : Nat
  pocsag_total_error_count : Nat
  pocsag_corrected_error_count : Nat
  pocsag_corrected_1bit_error_count : Nat
  pocsag_corrected_2bit_error_count : Nat
  pocsag_uncorrected_error_count : Nat
  pocsag_total_bits_received : Nat
  pocsag_bits_processed_while_synced : Nat
  pocsag_bits_processed_while_not_synced : Nat
  deriving DecidableEq

/-- The statement `counter++` on a statistics counter. -/
def incr (cfg : Config) (c : Nat) : Nat := (c + 1) % 2 ^ cfg.counter_bits

/-! ## Brute-force repair -/

/-- The statements `res = 0; for (i...) res |= xpose[i]; res = ~res;`. -/
def zero_lanes (xpose : List Nat) : Nat :=
  u32 ((List.range 32).foldl (fun res i => res ||| rd xpose i) 0) ^^^ ONE

/-- The statements `n = 0; while (res) { ++n; res >>= 1; } --n;` with `fuel`
bounding the number of iterations; `none` when the bound is hit. -/
def top_bit : Nat → Nat → Nat → Option Nat
  | 0, _, _ => none
  | fuel + 1, res, n => if res ≠ 0 then top_bit fuel (res >>> 1) (n + 1) else some (n - 1)

/-- State of the two-bit search between two passes of the inner loop body:
either the function has already jumped to `returnfree` with the corrected
word, or the loops go on with these columns and this lane counter. -/
inductive Search where
  | found (data : Nat)
  | going (xpose : List Nat) (n : Nat)
  deriving DecidableEq

/-- The statements `bitslice_syndrome(xpose); res = ...; if (res) { n = ...; }`
shared by the three searches: the highest lane whose syndrome is zero. -/
def find_lane (xpose : List Nat) : Option Nat :=
  let res := zero_lanes (bitslice_syndrome xpose)
  if res ≠ 0 then top_bit 33 res 0 else none

/-- The block `memcpy(in, xpose); bitslice_syndrome(xpose); res = ...;
if (res) { ... *data = transpose_n(n, in); goto returnfree; }`:
the corrected word when some lane has syndrome zero. -/
def check_batch (xpose : List Nat) : Option Nat :=
  let inp := xpose
  (find_lane xpose).map fun n => transpose_n n inp

/-- Body of the inner loop `for (b2 = b1; b2 < 32; ++b2)`. -/
def pair_body (data : Nat) (b1 : Nat) (st : Search) (b2 : Nat) : Search :=
  match st with
  | Search.found d => Search.found d
  | Search.going xpose n =>
    let xpose := wr xpose b1 (rd xpose b1 ^^^ u32 (1 <<< n))
    let xpose := wr xpose b2 (rd xpose b2 ^^^ u32 (1 <<< n))
    if n + 1 = 32 then
      match check_batch xpose with
      | some d => Search.found d
      | none => Search.going (transpose_clone data) 0
    else Search.going xpose (n + 1)

/-- The inner loop over `b2` for one `b1`. -/
def inner_loop (data : Nat) (st : Search) (b1 : Nat) : Search :=
  (List.range' b1 (32 - b1)).foldl (pair_body data b1) st

/-- The two nested loops of the two-bit search. -/
def pair_loops (data : Nat) : Search :=
  (List.range 32).foldl (inner_loop data) (Search.going (transpose_clone data) 0)

/-- The whole two-bit search: the nested loops followed by the block
`if (n > 0) { ... }` that checks the last, partly filled batch. -/
def two_bit_search (data : Nat) : Option Nat :=
  match pair_loops data with
  | Search.found d => some d
  | Search.going xpose n => if n > 0 then check_batch xpose else none

/-- The columns of the single-bit search: lane `i` holds `data` with bit `i`
flipped (`transpose_clone` followed by `xpose[i] ^= (1<<i)` for all `i`). -/
def single_flips (data : Nat) : List Nat :=
  (List.range 32).foldl (fun xpose i => wr xpose i (rd xpose i ^^^ u32 (1 <<< i)))
    (transpose_clone data)

/-- `pocsag_brute_repair`: returns the `int` result, the updated receiver
state and the updated `*data`. -/
def pocsag_brute_repair (cfg : Config) (rx : l2_state_pocsag) (data : Nat) :
    Nat × l2_state_pocsag × Nat :=
  if pocsag_syndrome data ≠ 0 then
    let rx := { rx with pocsag_total_error_count := incr cfg rx.pocsag_total_error_count }
    if cfg.pocsag_error_correction = 0 then
      (1, { rx with pocsag_uncorrected_error_count := incr cfg rx.pocsag_uncorrected_error_count },
        data)
    else
      match find_lane (single_flips data) with
      | some n =>
        (0, { rx with
                pocsag_corrected_error_count := incr cfg rx.pocsag_corrected_error_count
                pocsag_corrected_1bit_error_count :=
                  incr cfg rx.pocsag_corrected_1bit_error_count },
          data ^^^ u32 (1 <<< n))
      | none =>
        if cfg.pocsag_error_correction = 1 then
          (1, { rx with
                  pocsag_uncorrected_error_count := incr cfg rx.pocsag_uncorrected_error_count },
            data)
        else
          match two_bit_search data with
          | some d =>
            (0, { rx with
                    pocsag_corrected_error_count := incr cfg rx.pocsag_corrected_error_count
                    pocsag_corrected_2bit_error_count :=
                      incr cfg rx.pocsag_corrected_2bit_error_count },
              d)
          | none =>
            (1, { rx with
                    pocsag_uncorrected_error_count :=
                      incr cfg rx.pocsag_uncorrected_error_count },
              data)
  else (0, rx, data)

/-! ## Character set -/

/-- The initial contents of `trtab` (ISO 646 US / IRV). -/
def trtab_US : List String :=
  ["<NUL>", "<SOH>", "<STX>", "<ETX>", "<EOT>", "<ENQ>", "<ACK>", "\\g",
   "<BS>", "\\t", "\\n", "<VT>", "<FF>", "\\r", "<SO>", "<SI>",
   "<DLE>", "<DC1>", "<DC2>", "<DC3>", "<DC4>", "<NAK>", "<SYN>", "<ETB>",
   "<CAN>", "<EM>", "<SUB>", "<ESC>", "<FS>", "<GS>", "<RS>", "<US>",
   " ", "!", "\"", "#", "$", "%", "&", "'", "(", ")", "*", "+", ",", "-", ".", "/",
   "0", "1", "2", "3", "4", "5", "6", "7", "8", "9", ":", ";", "<", "=", ">", "?",
   "@", "A", "B", "C", "D", "E", "F", "G", "H", "I", "J", "K", "L", "M", "N", "O",
   "P", "Q", "R", "S", "T", "U", "V", "W", "X", "Y", "Z", "[", "\\", "]", "^", "_",
   "`", "a", "b", "c", "d", "e", "f", "g", "h", "i", "j", "k", "l", "m", "n", "o",
   "p", "q", "r", "s", "t", "u", "v", "w", "x", "y", "z", "\x7b", "|", "\x7d", "~", "<DEL>"]

/-- `translate_alpha`: the table entry for `chr & 0x7f`.  Every entry of the
table is a string literal, so the result is never `NULL` and the branch
`else if (buffree > 0)` of `prepare_msg_alpha` is never taken. -/
def translate_alpha (trtab : List String) (chr : Nat) : String :=
  trtab.getD (chr &&& 0x7f) ""

/-! ## Payload formatters

The formatters read `rx->buffer` and `rx->numnibbles` and fill a `char`
buffer of `size` bytes; the model returns the characters before the
terminating NUL. -/

/-- Read of an `unsigned char` array element. -/
def byte_at (buffer : List Nat) (i : Nat) : Nat := u8 (rd buffer i)

/-- The nibble number `i` of the buffer, high nibble of each byte first. -/
def nibble_at (buffer : List Nat) (i : Nat) : Nat :=
  if i % 2 = 0 then (byte_at buffer (i / 2) >>> 4) &&& 0xf else byte_at buffer (i / 2) &&& 0xf

def conv_table : List Char := "084 2.6]195-3U7[".toList

/-- The loop `for (; len > 0; bp++, len -= 2)` of `prepare_msg_numeric`, by
recursion on `len`. -/
def numeric_loop (buffer : List Nat) : Nat → Nat → List Char
  | 0, _ => []
  | 1, bp => [conv_table.getD ((byte_at buffer bp >>> 4) &&& 0xf) ' ']
  | len + 2, bp =>
    conv_table.getD ((byte_at buffer bp >>> 4) &&& 0xf) ' ' ::
      conv_table.getD (byte_at buffer bp &&& 0xf) ' ' :: numeric_loop buffer len (bp + 1)

/-- `prepare_msg_numeric`. -/
def prepare_msg_numeric (buffer : List Nat) (numnibbles : Nat) (size : Nat) : List Char :=
  let len := if numnibbles ≥ size then size - 1 else numnibbles
  numeric_loop buffer len 0

/-- The two characters printed by `sprintf(bp, "%02x", b)` for a byte `b`. -/
def hex2 (b : Nat) : List Char :=
  ["0123456789abcdef".toList.getD (b / 16) '0', "0123456789abcdef".toList.getD (b % 16) '0']

/-- One pass of the loop body of `prepare_msg_binary` at index `i` with
`size` bytes left; returns the characters appended and the new `size`. -/
def binary_body (buffer : List Nat) (i size : Nat) : List Char × Nat :=
  let sep : List Char := if i > 0 then [','] else []
  let size := if i > 0 then u32 (size + 2 ^ 32 - 1) else size
  (sep ++ hex2 (byte_at buffer (i / 2)), u32 (size + 2 ^ 32 - 2))

/-- The loop `for (i = 0; i < numnibbles && size; i += 2)` of
`prepare_msg_binary`, by recursion on `numnibbles - i`.  (The counter `i` is
a `uint32_t`; it does not wrap because `numnibbles` is at most twice the
buffer size.) -/
def binary_loop (buffer : List Nat) : Nat → Nat → Nat → List Char
  | 0, _, _ => []
  | 1, i, size =>
    if size ≠ 0 then (binary_body buffer i size).1 else []
  | rest + 2, i, size =>
    if size ≠ 0 then
      (binary_body buffer i size).1 ++ binary_loop buffer rest (i + 2) (binary_body buffer i size).2
    else []

/-- `prepare_msg_binary`. -/
def prepare_msg_binary (buffer : List Nat) (numnibbles : Nat) (size : Nat) : List Char :=
  binary_loop buffer numnibbles 0 size

/-- Local variables of the extraction loop of `prepare_msg_alpha`;
`workbuf` holds the `wbcur` characters stored so far. -/
structure AlphaState where
  data : Nat
  datalen : Nat
  bp : Nat
  len : Nat
  workbuf : List Nat
  deriving DecidableEq

/-- The inner loop `while (datalen < 7 && len > 0)`; `none` when `fuel`
passes do not finish it. -/
def alpha_fill (buffer : List Nat) : Nat → AlphaState → Option AlphaState
  | 0, _ => none
  | fuel + 1, st =>
    if st.datalen < 7 ∧ st.len > 0 then
      if st.len = 1 then
        alpha_fill buffer fuel
          { st with
              data := u32 (st.data <<< 4) ||| ((byte_at buffer st.bp >>> 4) &&& 0xf)
              datalen := st.datalen + 4
              len := 0 }
      else
        alpha_fill buffer fuel
          { st with
              data := u32 (st.data <<< 8) ||| byte_at buffer st.bp
              bp := st.bp + 1
              datalen := st.datalen + 8
              len := st.len - 2 }
    else some st

/-- The three bit-swapping statements that reverse the eight bits of
`curchr`. -/
def reverse8 (c : Nat) : Nat :=
  let c := u8 (((c &&& 0xf0) >>> 4) ||| ((c &&& 0x0f) <<< 4))
  let c := u8 (((c &&& 0xcc) >>> 2) ||| ((c &&& 0x33) <<< 2))
  let c := u8 (((c &&& 0xaa) >>> 1) ||| ((c &&& 0x55) <<< 1))
  c

/-- The outer loop `while (len > 0)` of `prepare_msg_alpha` (`wblen` is
`sizeof(workbuf)`); `none` when `fuel` passes do not finish it. -/
def alpha_extract (buffer : List Nat) (wblen : Nat) : Nat → AlphaState → Option AlphaState
  | 0, _ => none
  | fuel + 1, st =>
    if st.len > 0 then
      match alpha_fill buffer (st.len + 1) st with
      | none => none
      | some st =>
        if st.datalen < 7 then alpha_extract buffer wblen fuel st
        else
          let datalen := st.datalen - 7
          let curchr := u8 (((st.data >>> datalen) &&& 0x7f) <<< 1)
          let curchr := reverse8 curchr
          alpha_extract buffer wblen fuel
            { st with
                datalen := datalen
                workbuf := if st.workbuf.length < wblen - 1 then st.workbuf ++ [curchr]
                           else st.workbuf }
    else some st

/-- The loop that strips termination characters from the end of `workbuf`,
by recursion on `wbcur`. -/
def strip_terminators (workbuf : List Nat) : Nat → Nat
  | 0 => 0
  | wbcur + 1 =>
    if rd workbuf wbcur = ASCII_NUL ∨ rd workbuf wbcur = ASCII_ETX ∨
        rd workbuf wbcur = ASCII_EOT ∨ rd workbuf wbcur = ASCII_ETB ∨
        rd workbuf wbcur = ASCII_EM then
      strip_terminators workbuf wbcur
    else wbcur + 1

/-- The final loop of `prepare_msg_alpha` over `workbuf[0 .. wbcur-1]`,
given as the list of these characters: each translated string is copied when
its `strlen` fits into the `buffree` bytes left. -/
def alpha_translate (trtab : List String) : List Nat → Nat → List Char
  | [], _ => []
  | c :: cs, buffree =>
    let tstr := translate_alpha trtab c
    let tlen := tstr.utf8ByteSize
    if buffree ≥ tlen then tstr.toList ++ alpha_translate trtab cs (buffree - tlen)
    else alpha_translate trtab cs buffree

/-- The raw characters collected by the extraction loop of
`prepare_msg_alpha` before terminators are stripped. -/
def alpha_chars (buffer : List Nat) (numnibbles : Nat) : Option (List Nat) :=
  (alpha_extract buffer 8192 (8 * numnibbles + 1)
    { data := 0, datalen := 0, bp := 0, len := numnibbles, workbuf := [] }).map
    fun st => st.workbuf

/-- `prepare_msg_alpha`; `none` only if the extraction loop did not finish
within its bound. -/
def prepare_msg_alpha (trtab : List String) (buffer : List Nat) (numnibbles : Nat)
    (size : Nat) : Option (List Char) :=
  (alpha_chars buffer numnibbles).map fun workbuf =>
    alpha_translate trtab (workbuf.take (strip_terminators workbuf workbuf.length)) (size - 1)

/-! ## Message output -/

/-- The three payload renderings. -/
inductive Rendering where
  | Numeric
  | Binary
  | Alpha
  deriving DecidableEq

/-- One line printed by `pocsag_printmessage`: the header fields, the
renderings in the order printed, and whether `<LOST SYNC>` is appended.
`header_known` is false when the header is printed with dashes. -/
structure Emission where
  address : Int
  function : Int
  header_known : Bool
  parts : List (Rendering × List Char)
  lost_sync : Bool
  deriving DecidableEq

/-- The `switch (func)` of `pocsag_printmessage`, with `char string[1024]`;
cases 1 and 2 have no `break` and run on into case 3. -/
def render_payload (cfg : Config) (s : l2_state_pocsag) : List (Rendering × List Char) :=
  let alpha := ((prepare_msg_alpha cfg.trtab s.buffer s.numnibbles 1024).getD [])
  if s.function = 0 then
    [(Rendering.Numeric, prepare_msg_numeric s.buffer s.numnibbles 1024)]
  else if s.function = 1 ∨ s.function = 2 then
    [(Rendering.Binary, prepare_msg_binary s.buffer s.numnibbles 1024),
     (Rendering.Alpha, alpha)]
  else if s.function = 3 then
    [(Rendering.Alpha, alpha)]
  else
    [(Rendering.Binary, prepare_msg_binary s.buffer s.numnibbles 1024)]

/-- `pocsag_printmessage`: the lines printed (none or one). -/
def pocsag_printmessage (cfg : Config) (s : l2_state_pocsag) (sync : Bool) : List Emission :=
  if cfg.pocsag_show_partial_decodes = 0 ∧ (s.address = -2 ∨ s.function = -2 ∨ sync = false) then
    []
  else if cfg.pocsag_prune_empty ≠ 0 ∧ s.numnibbles = 0 then []
  else if s.address ≠ -1 ∨ s.function ≠ -1 then
    if s.numnibbles = 0 then
      [{ address := s.address, function := s.function, header_known := true, parts := [],
         lost_sync := !sync }]
    else
      [{ address := s.address, function := s.function,
         header_known := decide (s.address ≠ -2 ∨ s.function ≠ -2),
         parts := render_payload cfg s, lost_sync := !sync }]
  else []

/-! ## Receiver -/

/-- `pocsag_init`: `memset` to zero (state 0 is `NO_SYNC`), then address and
function unset. -/
def pocsag_init (cfg : Config) : l2_state_pocsag :=
  { rx_data := 0, rx_bit := 0, state := states.NO_SYNC, address := -1, function := -1,
    buffer := List.replicate cfg.buffer_size 0, numnibbles := 0,
    pocsag_total_error_count := 0, pocsag_corrected_error_count := 0,
    pocsag_corrected_1bit_error_count := 0, pocsag_corrected_2bit_error_count := 0,
    pocsag_uncorrected_error_count := 0, pocsag_total_bits_received := 0,
    pocsag_bits_processed_while_synced := 0, pocsag_bits_processed_while_not_synced := 0 }

def is_sync (rx_data : Nat) : Bool := rx_data = POCSAG_SYNC

def is_idle (rx_data : Nat) : Bool := rx_data = POCSAG_IDLE ∨ rx_data = POCSAG_IDLEOP

def pocsag_getAddress (word : Nat) (frameno : Nat) : Nat :=
  ((word >>> 10) &&& 0x1ffff8) ||| (frameno &&& 7)

def pocsag_getFunction (word : Nat) : Nat := (word >>> 11) &&& 3

/-- `handleNextWord` of `tools/pocsag_decode.c`; the same statements store a
message word in `do_one_bit` (the branch "Message is not too long"). -/
def handleNextWord (buffer : List Nat) (numnibbles : Nat) (word : Nat) : List Nat × Nat :=
  let bp := numnibbles >>> 1
  let data := word >>> 11
  if numnibbles &&& 1 ≠ 0 then
    let buffer := wr buffer bp (u8 ((byte_at buffer bp &&& 0xf0) ||| ((data >>> 16) &&& 0xf)))
    let buffer := wr buffer (bp + 1) (u8 (data >>> 8))
    let buffer := wr buffer (bp + 2) (u8 data)
    (buffer, numnibbles + 5)
  else
    let buffer := wr buffer bp (u8 (data >>> 12))
    let buffer := wr buffer (bp + 1) (u8 (data >>> 4))
    let buffer := wr buffer (bp + 2) (u8 (data <<< 4))
    (buffer, numnibbles + 5)

/-- The value `sizeof(buffer)*2 - 5` in `size_t` arithmetic. -/
def nibble_limit (cfg : Config) : Nat := (cfg.buffer_size * 2 + 2 ^ 64 - 5) % 2 ^ 64

/-- A receiver together with what surrounds it in the process: the `static`
variable `received_words` of `do_one_bit` and the lines printed so far.
(Only the output of `pocsag_printmessage` is recorded; the word log, the
debug log and the "Message too long" warning are not.) -/
structure Receiver where
  s : l2_state_pocsag
  received_words : Nat
  out : List Emission
  deriving DecidableEq

/-- The part of `do_one_bit` that handles a completed word: everything
between `frame = received_words / 2` and the end-of-batch test.  Returns the
new state and the lines printed. -/
def process_word (cfg : Config) (s : l2_state_pocsag) (frame : Nat) (rx_data : Nat) :
    l2_state_pocsag × List Emission :=
  if is_idle rx_data then
    if s.numnibbles > 0 then
      ({ s with numnibbles := 0, address := -1, function := -1 },
        pocsag_printmessage cfg s true)
    else (s, [])
  else
    let r := pocsag_brute_repair cfg s rx_data
    let s := r.2.1
    let rx_data := r.2.2
    if rx_data &&& POCSAG_MESSAGE_DETECTION = 0 then
      let p : l2_state_pocsag × List Emission :=
        if s.numnibbles > 0 then
          ({ s with numnibbles := 0 }, pocsag_printmessage cfg s true)
        else (s, [])
      ({ p.1 with
            address := pocsag_getAddress rx_data frame
            function := pocsag_getFunction rx_data
            state := states.MESSAGE },
        p.2)
    else
      let s := { s with state := states.MESSAGE }
      if s.numnibbles > nibble_limit cfg then
        ({ s with numnibbles := 0, address := -1, function := -1 },
          pocsag_printmessage cfg s true)
      else
        let w := handleNextWord s.buffer s.numnibbles rx_data
        ({ s with buffer := w.1, numnibbles := w.2 }, [])

/-- `do_one_bit`. -/
def do_one_bit (cfg : Config) (r : Receiver) (rx_data : Nat) : Receiver :=
  let s := { r.s with pocsag_total_bits_received := incr cfg r.s.pocsag_total_bits_received }
  if s.state = states.NO_SYNC then
    let s := { s with
      pocsag_bits_processed_while_not_synced :=
        incr cfg s.pocsag_bits_processed_while_not_synced }
    if is_sync rx_data then
      { r with s := { s with state := states.SYNC, rx_bit := 0 }, received_words := 0 }
    else { r with s := s }
  else if is_sync rx_data then
    { r with s := { s with rx_bit := 0 }, received_words := 0 }
  else
    let s := { s with
      pocsag_bits_processed_while_synced := incr cfg s.pocsag_bits_processed_while_synced }
    let s := { s with rx_bit := (s.rx_bit + 1) % 32 }
    if s.rx_bit ≠ 0 then { r with s := s }
    else
      let frame := r.received_words / 2
      let received_words := r.received_words + 1
      let p := process_word cfg s frame rx_data
      if received_words = 16 then
        { s := { p.1 with state := states.NO_SYNC }, received_words := 0, out := r.out ++ p.2 }
      else { s := p.1, received_words := received_words, out := r.out ++ p.2 }

/-- `pocsag_rxbit`. -/
def pocsag_rxbit (cfg : Config) (r : Receiver) (bit : Int) : Receiver :=
  let rx_data := u32 (r.s.rx_data <<< 1) ||| (if bit = 0 then 1 else 0)
  let r := { r with s := { r.s with rx_data := rx_data } }
  if cfg.pocsag_invert_input ≠ 0 then do_one_bit cfg r (rx_data ^^^ ONE)
  else do_one_bit cfg r rx_data

/-- A receiver right after `pocsag_init` in a fresh process. -/
def fresh (cfg : Config) : Receiver :=
  { s := pocsag_init cfg, received_words := 0, out := [] }

/-- Feeding a sequence of bits through `pocsag_rxbit`. -/
def feed (cfg : Config) (r : Receiver) (bits : List Int) : Receiver :=
  bits.foldl (pocsag_rxbit cfg) r

/-- States reachable from a freshly initialised receiver. -/
def Reachable (cfg : Config) (r : Receiver) : Prop := ∃ bits, r = feed cfg (fresh cfg) bits

/-- The configuration with which the decoder starts: the initial values of
the four globals and the US table. -/
def default_config (buffer_size counter_bits : Nat) : Config :=
  { pocsag_invert_input := 0, pocsag_error_correction := 2, pocsag_show_partial_decodes := 0,
    pocsag_prune_empty := 0, trtab := trtab_US, buffer_size := buffer_size,
    counter_bits := counter_bits }

/-- The bits to present, most significant first, so that the receiver's
window (without `invert_input`) comes to hold `word`: the window takes the
complement of each input bit. -/
def bits_of_word (word : Nat) : List Int :=
  (List.range 32).map fun i => if word.testBit (31 - i) then 0 else 1

/-! ## Specification-side views used in the proofs -/

/-- One iteration of the division loop of `pocsag_syndrome`, as a function of
the iteration index `n` (counted from 0). -/
def div_step (sh n : Nat) : Nat :=
  if sh.testBit (30 - n) then sh ^^^ ((BCH_POLY <<< 20) >>> n) else sh

/-- The shift register after `k` iterations of the division loop. -/
def rem_after : Nat → Nat → Nat
  | 0, sh => sh
  | k + 1, sh => div_step (rem_after k sh) k

/-- Overall parity of a word as a boolean. -/
def parity_bit (x : Nat) : Bool := (even_parity x).testBit 0

/-- XOR of bits `0 .. n-1` of `x`. -/
def xor_bits (x : Nat) : Nat → Bool
  | 0 => false
  | n + 1 => xor (xor_bits x n) (x.testBit n)

/-- XOR of bit `k` of the columns `0 .. n-1`. -/
def col_xor (s : List Nat) (k : Nat) : Nat → Bool
  | 0 => false
  | n + 1 => xor (col_xor s k n) ((rd s n).testBit k)

/-- The word `d` with bits `b1` and `b2` flipped (unchanged when `b1 = b2`). -/
def cand (d b1 b2 : Nat) : Nat := d ^^^ 2 ^ b1 ^^^ 2 ^ b2

/-- Invariant of the two-bit search after the pairs in `P` have been
processed: a result is a candidate with syndrome zero; otherwise lanes
`0 .. n-1` hold candidates, the other lanes hold `data`, and every processed
pair either has a non-zero syndrome or sits in one of the lanes. -/
def SearchInv (data : Nat) (P : Nat → Nat → Prop) : Search → Prop
  | Search.found d =>
    ∃ b1 b2, b1 < 32 ∧ b2 < 32 ∧ d = cand data b1 b2 ∧ pocsag_syndrome d = 0
  | Search.going xp n =>
    xp.length = 32 ∧ n < 32 ∧
    (∀ k, n ≤ k → k < 32 → transpose_n k xp = data) ∧
    (∀ k, k < n → ∃ b1 b2, b1 < 32 ∧ b2 < 32 ∧ transpose_n k xp = cand data b1 b2) ∧
    (∀ a b, P a b → pocsag_syndrome (cand data a b) ≠ 0 ∨
      ∃ k, k < n ∧ transpose_n k xp = cand data a b)

/-- Receiver state after a word that could not be corrected. -/
def rx_failed (cfg : Config) (rx : l2_state_pocsag) : l2_state_pocsag :=
  { rx with
      pocsag_total_error_count := incr cfg rx.pocsag_total_error_count
      pocsag_uncorrected_error_count := incr cfg rx.pocsag_uncorrected_error_count }

/-- Receiver state after a single-bit correction. -/
def rx_fixed1 (cfg : Config) (rx : l2_state_pocsag) : l2_state_pocsag :=
  { rx with
      pocsag_total_error_count := incr cfg rx.pocsag_total_error_count
      pocsag_corrected_error_count := incr cfg rx.pocsag_corrected_error_count
      pocsag_corrected_1bit_error_count := incr cfg rx.pocsag_corrected_1bit_error_count }

/-- Receiver state after a two-bit correction. -/
def rx_fixed2 (cfg : Config) (rx : l2_state_pocsag) : l2_state_pocsag :=
  { rx with
      pocsag_total_error_count := incr cfg rx.pocsag_total_error_count
      pocsag_corrected_error_count := incr cfg rx.pocsag_corrected_error_count
      pocsag_corrected_2bit_error_count := incr cfg rx.pocsag_corrected_2bit_error_count }

/-- Syndrome of the word whose only set bit is bit `i`. -/
def unit_syndrome (i : Nat) : Nat := pocsag_syndrome (2 ^ i)

/-- All pairs `(i, j)` with `i < j < 32`. -/
def bit_pairs : List (Nat × Nat) :=
  ((List.range 32).product (List.range 32)).filter fun p => decide (p.1 < p.2)

/-- Syndrome of the word with exactly the two bits of the pair set. -/
def pair_syndrome (p : Nat × Nat) : Nat := unit_syndrome p.1 ^^^ unit_syndrome p.2

/-- Bit-set test that the values of a list are pairwise distinct and
distinct from the positions set in `seen`. -/
def distinct_from : List Nat → Nat → Bool
  | [], _ => true
  | v :: vs, seen => !seen.testBit v && distinct_from vs (seen ||| 2 ^ v)

/-- Number of bit positions below 32 in which two words differ. -/
def hamming32 (a b : Nat) : Nat :=
  ((List.range 32).filter fun i => a.testBit i != b.testBit i).length

/-- Comma-separated two-digit hexadecimal rendering of a list of bytes. -/
def hex_csv : List Nat → List Char
  | [] => []
  | [b] => hex2 b
  | b :: bs => hex2 b ++ ',' :: hex_csv bs

/-- The address codeword with address field `0x12340` and function 2. -/
def scenario_address_word : Nat := 0x048d1120

/-- The message codeword carrying the nibbles D,E,A,D,B. -/
def scenario_message_word : Nat := 0xef56de9d

/-- The test configuration: defaults, a 512-byte nibble buffer and 32-bit
counters. -/
def test_config : Config := default_config 512 32

/-- The bit stream that presents SYNC, six IDLE words, the address codeword
as word 6 of the batch (frame 3), the given message word and IDLE. -/
def scenario (message_word : Nat) : List Int :=
  bits_of_word POCSAG_SYNC ++ bits_of_word POCSAG_IDLE ++ bits_of_word POCSAG_IDLE ++
  bits_of_word POCSAG_IDLE ++ bits_of_word POCSAG_IDLE ++ bits_of_word POCSAG_IDLE ++
  bits_of_word POCSAG_IDLE ++ bits_of_word scenario_address_word ++
  bits_of_word message_word ++ bits_of_word POCSAG_IDLE

/-- The line printed in the scenario. -/
def scenario_emission : Emission :=
  { address := 0x12343, function := 2, header_known := true,
    parts := [(Rendering.Binary, "de,ad,b0".toList), (Rendering.Alpha, "\x7bj".toList)],
    lost_sync := false }

/-- The bit stream that presents SYNC, fifteen IDLE words and the first 31
bits of the address codeword. -/
def last_word_stream : List Int :=
  bits_of_word POCSAG_SYNC ++
  (List.replicate 15 (bits_of_word POCSAG_IDLE)).flatten ++
  (bits_of_word scenario_address_word).take 31

/-- The receiver after `last_word_stream`: fifteen words of the batch are
done and one more bit completes the sixteenth. -/
def last_word_state : Receiver := feed test_config (fresh test_config) last_word_stream

/-- The receiver after SYNC and the first 31 bits of the address codeword. -/
def first_word_state : Receiver :=
  feed test_config (fresh test_config)
    (bits_of_word POCSAG_SYNC ++ (bits_of_word scenario_address_word).take 31)

/-- Character `k` of the buffer read as a big-endian stream of 7-bit groups,
each group bit-reversed. -/
def stream_char (buffer : List Nat) (k : Nat) : Nat :=
  (List.range 7).foldl
    (fun acc b =>
      acc + (if (byte_at buffer ((7 * k + b) / 8)).testBit (7 - (7 * k + b) % 8) then 2 ^ b else 0))
    0

/-- Fourteen nibbles holding the eight characters "ABCDEFGH". -/
def alpha_sample : List Nat := [0x82, 0x87, 0x09, 0x1a, 0x2c, 0x78, 0x89]

/-- The receiver state with which `do_one_bit` enters the handling of a
completed word: the bit is counted and `rx_bit` has wrapped to 0. -/
def word_start (cfg : Config) (s : l2_state_pocsag) : l2_state_pocsag :=
  { s with
      pocsag_total_bits_received := incr cfg s.pocsag_total_bits_received
      pocsag_bits_processed_while_synced := incr cfg s.pocsag_bits_processed_while_synced
      rx_bit := (s.rx_bit + 1) % 32 }

/-- The window update of `pocsag_rxbit`: `rx_data <<= 1; rx_data |= !bit`. -/
def shift_in (w : Nat) (bit : Int) : Nat :=
  u32 (w <<< 1) ||| (if bit = 0 then 1 else 0)

/-- The value `pocsag_rxbit` passes to `do_one_bit` for the window `w`. -/
def handed (cfg : Config) (w : Nat) : Nat :=
  if cfg.pocsag_invert_input ≠ 0 then w ^^^ ONE else w

/-- The window after a run of `pocsag_rxbit` calls. -/
def window_after (w : Nat) (bits : List Int) : Nat := bits.foldl shift_in w

/-- The values handed to `do_one_bit` during a run of `pocsag_rxbit` calls that
starts with the window `w`, one per call. -/
def seen (cfg : Config) : Nat → List Int → List Nat
  | _, [] => []
  | w, b :: bs => handed cfg (shift_in w b) :: seen cfg (shift_in w b) bs

/-- The 32 input bits that make `do_one_bit` see `word`, most significant bit
first, for the polarity selected by the configuration. -/
def present (cfg : Config) (word : Nat) : List Int :=
  (List.range 32).map fun i =>
    if word.testBit (31 - i) = decide (cfg.pocsag_invert_input ≠ 0) then 1 else 0

/-- The word `do_one_bit` classifies after `pocsag_brute_repair` has worked on
the completed word `v`; the repaired word does not depend on the receiver
state. -/
def repaired (cfg : Config) (v : Nat) : Nat :=
  (pocsag_brute_repair cfg (pocsag_init cfg) v).2.2

/-- The receiver with the window replaced: `pocsag_rxbit` stores the shifted
window before it calls `do_one_bit`. -/
def with_window (r : Receiver) (w : Nat) : Receiver :=
  { r with s := { r.s with rx_data := w } }

/-- The receiver one bit before the end of the scenario: SYNC, six IDLE
words, the address codeword and the message codeword are done, and one more
bit completes the closing IDLE word. -/
def idle_pending_state : Receiver :=
  feed test_config (fresh test_config) ((scenario scenario_message_word).take 319)

/-- The pending messages of two receivers agree, and so do their places in
the batch. -/
def same_pending (a b : Receiver) : Prop :=
  a.s.state = b.s.state ∧ a.received_words = b.received_words ∧ a.out = b.out ∧
  a.s.address = b.s.address ∧ a.s.function = b.s.function ∧ a.s.buffer = b.s.buffer ∧
  a.s.numnibbles = b.s.numnibbles

/-- The test configuration with `invert_input` switched on. -/
def inverted_config : Config := { test_config with pocsag_invert_input := 1 }

/-- Sixteen words with MSB 1: the first is the sync word shifted left by one
bit with a 1 appended, the others are the all-ones codeword. Behind the sync
word, whose last bit is 0, the window holds the sync word again one bit
before the first word is complete. -/
def shifted_sync_words : List Nat := 0xF9A42BB1 :: List.replicate 15 0xFFFFFFFF

/-- Sixteen words with MSB 1: the address codeword with its MSB flipped, a
message codeword, the flipped address codeword again, and thirteen message
codewords. -/
def flipped_address_words : List Nat :=
  [scenario_address_word ^^^ 0x80000000, scenario_message_word,
   scenario_address_word ^^^ 0x80000000] ++ List.replicate 13 scenario_message_word

/-- The bit stream that presents SYNC and then the given words, for a
receiver without `invert_input`. -/
def batch_stream (ws : List Nat) : List Int :=
  bits_of_word POCSAG_SYNC ++ (ws.map bits_of_word).flatten

/-- The defaults with a 256-byte nibble buffer, the bound of the data model,
and 32-bit counters. -/
def config_256 : Config := default_config 256 32

/-- The bit stream that presents SYNC followed by `n` copies of the message
codeword `scenario_message_word`. -/
def message_batch (n : Nat) : List Int :=
  batch_stream (List.replicate n scenario_message_word)

/-- A batch cut short after seven message codewords by the next sync word,
five full batches of sixteen message codewords, and the first fifteen message
codewords of a last batch: 102 message codewords in all. -/
def overflow_stream : List Int :=
  message_batch 7 ++ message_batch 16 ++ message_batch 16 ++ message_batch 16 ++
  message_batch 16 ++ message_batch 16 ++ message_batch 15

/-- The receiver with a 256-byte buffer after `overflow_stream` and the first
31 bits of one more message codeword. -/
def overflow_pending_state : Receiver :=
  feed config_256 (fresh config_256)
    (overflow_stream ++ (bits_of_word scenario_message_word).take 31)

/-! ## Two receivers in one process -/

/-- Two receivers driven by one process. Each has its own `demod_state` and
its own output; `static int received_words` of `do_one_bit` is a single
variable, used by every call whichever receiver it is made for. -/
structure Pair where
  first : l2_state_pocsag
  second : l2_state_pocsag
  received_words : Nat
  out_first : List Emission
  out_second : List Emission

/-- A call `pocsag_rxbit(first, bit)`. -/
def rxbit_first (cfg : Config) (p : Pair) (bit : Int) : Pair :=
  let r := pocsag_rxbit cfg
    { s := p.first, received_words := p.received_words, out := p.out_first } bit
  { p with first := r.s, received_words := r.received_words, out_first := r.out }

/-- A call `pocsag_rxbit(second, bit)`. -/
def rxbit_second (cfg : Config) (p : Pair) (bit : Int) : Pair :=
  let r := pocsag_rxbit cfg
    { s := p.second, received_words := p.received_words, out := p.out_second } bit
  { p with second := r.s, received_words := r.received_words, out_second := r.out }

/-- Two freshly initialised receivers at program start. -/
def fresh_pair (cfg : Config) : Pair :=
  { first := pocsag_init cfg, second := pocsag_init cfg, received_words := 0,
    out_first := [], out_second := [] }

/-- A sequence of calls; `true` marks a call for the second receiver. -/
def run_pair (cfg : Config) (p : Pair) (calls : List (Bool × Int)) : Pair :=
  calls.foldl (fun p c => if c.1 then rxbit_second cfg p c.2 else rxbit_first cfg p c.2) p

/-- An interleaving: the first receiver is given the sync word of the
scenario, then the second receiver is given SYNC and two IDLE words, then the
first receiver is given the rest of the scenario. -/
def interleaved_calls : List (Bool × Int) :=
  ((scenario scenario_message_word).take 32).map (fun b => (false, b)) ++
  (bits_of_word POCSAG_SYNC ++ bits_of_word POCSAG_IDLE ++ bits_of_word POCSAG_IDLE).map
    (fun b => (true, b)) ++
  ((scenario scenario_message_word).drop 32).map (fun b => (false, b))

/-! ## Character set selection -/

/-- The three compile-time flavours of `pocsag_init_charset`: `CHARSET_UTF8`,
`CHARSET_LATIN1`, or neither. -/
inductive Charset_build where
  | UTF8
  | LATIN1
  | ASCII
  deriving DecidableEq

/-- A run of assignments `trtab[i] = s`. -/
def set_entries (trtab : List String) (entries : List (Nat × String)) : List String :=
  entries.foldl (fun t e => t.set e.1 e.2) trtab

/-- `pocsag_init_charset`: the value returned and the global `trtab`
afterwards. In the unknown-name branch the statement `charset = "US"` assigns
to the parameter only. Under `CHARSET_LATIN1` the C strings are the single
bytes `\304` and so on; they are given here as the characters these bytes
denote in Latin-1. -/
def pocsag_init_charset (build : Charset_build) (trtab : List String) (charset : String) :
    Bool × List String :=
  if charset = "DE" then
    match build with
    | Charset_build.UTF8 =>
      (true, set_entries trtab [(0x5b, "Ä"), (0x5c, "Ö"), (0x5d, "Ü"),
        (0x7b, "ä"), (0x7c, "ö"), (0x7d, "ü"), (0x7e, "ß")])
    | Charset_build.LATIN1 =>
      (true, set_entries trtab [(0x5b, "Ä"), (0x5c, "Ö"), (0x5d, "Ü"),
        (0x7b, "ä"), (0x7c, "ö"), (0x7d, "ü"), (0x7e, "ß")])
    | Charset_build.ASCII =>
      (true, set_entries trtab [(0x5b, "AE"), (0x5c, "OE"), (0x5d, "UE"),
        (0x7b, "ae"), (0x7c, "oe"), (0x7d, "ue"), (0x7e, "ss")])
  else if charset = "SE" then
    match build with
    | Charset_build.UTF8 =>
      (true, set_entries trtab [(0x5b, "Ä"), (0x5c, "Ö"), (0x5d, "Å"),
        (0x7b, "ä"), (0x7c, "ö"), (0x7d, "å")])
    | Charset_build.LATIN1 =>
      (true, set_entries trtab [(0x5b, "Ä"), (0x5c, "Ö"), (0x5d, "Å"),
        (0x7b, "ä"), (0x7c, "ö"), (0x7d, "å")])
    | Charset_build.ASCII =>
      (true, set_entries trtab [(0x5b, "AE"), (0x5c, "OE"), (0x5d, "AO"),
        (0x7b, "ae"), (0x7c, "oe"), (0x7d, "ao")])
  else if charset = "FR" then
    (true, set_entries trtab [(0x24, "£"), (0x40, "à"), (0x5b, "°"), (0x5c, "ç"),
      (0x5d, "§"), (0x5e, "^"), (0x5f, "_"), (0x60, "µ"),
      (0x7b, "é"), (0x7c, "ù"), (0x7d, "è"), (0x7e, "¨")])
  else if charset = "SI" then
    (true, set_entries trtab [(0x40, "Ž"), (0x5b, "Š"), (0x5d, "Ć"), (0x5e, "Č"),
      (0x60, "ž"), (0x7b, "š"), (0x7d, "ć"), (0x7e, "č")])
  else if charset = "US" then
    (true, trtab)
  else
    (false, trtab)

/-! ## CRC and parity checks -/

/-- The loop `for (int i=0; i<21; i++)` of `check_crc`; the first argument is
the number of passes left. -/
def crc_loop : Nat → Nat → Nat → Nat → Nat
  | 0, msg, _, _ => msg
  | n + 1, msg, mask, denominator =>
    crc_loop n (if msg &&& mask ≠ 0 then msg ^^^ denominator else msg)
      (mask >>> 1) (denominator >>> 1)

/-- `check_crc` of `pocsag.c`. -/
def check_crc (pocsag_word : Nat) : Nat :=
  if pocsag_word = POCSAG_IDLE then 1
  else
    let generator := 0x0769
    let crc_bits := 10
    let denominator := u32 (generator <<< 20)
    let msg := (pocsag_word &&& 0xfffff800) >>> (11 - crc_bits)
    let mask := u32 (1 <<< 30)
    let msg := crc_loop 21 msg mask denominator
    if (pocsag_word >>> 1) &&& 0x3FF = msg &&& 0x3FF then 1 else 0

/-- `check_parity` of `pocsag.c`; `tools/pocsag_crc.c` has the same
function. -/
def check_parity (pocsag_word : Nat) : Nat :=
  let p := pocsag_word ^^^ (pocsag_word >>> 16)
  let p := p ^^^ (p >>> 8)
  let p := p ^^^ (p >>> 4)
  let p := p &&& 0x0f
  ((0x6996 >>> p) &&& 1) ^^^ 1

/-- `check_crc` of `tools/pocsag_crc.c`: the same division without the test
for the idle word. -/
def pocsag_crc.check_crc (pocsag_word : Nat) : Nat :=
  let generator := 0x0769
  let crc_bits := 10
  let denominator := u32 (generator <<< 20)
  let msg := (pocsag_word &&& 0xfffff800) >>> (11 - crc_bits)
  let mask := u32 (1 <<< 30)
  let msg := crc_loop 21 msg mask denominator
  if (pocsag_word >>> 1) &&& 0x3FF = msg &&& 0x3FF then 1 else 0

/-! ## Further specification-side views -/

/-- The value whose bit `j`, for `j < n`, is bit `k` of column `j`. -/
def lane_bits (columns : List Nat) (k : Nat) : Nat → Nat
  | 0 => 0
  | n + 1 => lane_bits columns k n + (if (rd columns n).testBit k then 2 ^ n else 0)

/-- The 32-bit value read from lane `k` of 32 columns: bit `j` of the value
is bit `k` of column `j`. -/
def lane_value (columns : List Nat) (k : Nat) : Nat := lane_bits columns k 32

/-- The configuration with the two output options replaced. -/
def with_flags (cfg : Config) (decodes prune : Int) : Config :=
  { cfg with pocsag_show_partial_decodes := decodes, pocsag_prune_empty := prune }

/-- The table after `DE` has been selected from the initial table. -/
def trtab_DE (build : Charset_build) : List String :=
  (pocsag_init_charset build trtab_US "DE").2

/-- The header of a pending message is either unset (-1, -1) or holds the
non-negative address and function of an address word. -/
def header_paired (s : l2_state_pocsag) : Prop :=
  (s.address = -1 ∧ s.function = -1) ∨ (0 ≤ s.address ∧ 0 ≤ s.function)

/-- A line printed for a message received in sync: address and function are
set and printed, a payload is rendered, and `<LOST SYNC>` is not appended. -/
def in_sync_line (e : Emission) : Prop :=
  0 ≤ e.address ∧ 0 ≤ e.function ∧ e.header_known = true ∧ e.parts ≠ [] ∧
  e.lost_sync = false

/-! ## Theorems -/

set_option maxRecDepth 4000

theorem rd_wr (a : List Nat) (i j v : Nat) :
    rd (wr a i v) j = if i = j ∧ i < a.length then v else rd a j := by
  unfold rd wr
  simp only [List.getD_eq_getElem?_getD, List.getElem?_set]
  by_cases h : i = j
  · subst h
    by_cases h2 : i < a.length
    · simp [h2]
    · simp [h2, List.getElem?_eq_none (Nat.le_of_not_lt h2)]
  · simp [h]

theorem length_wr (a : List Nat) (i v : Nat) : (wr a i v).length = a.length := by
  simp [wr]

theorem u32_one_shl (k : Nat) (hk : k < 32) : u32 (1 <<< k) = 2 ^ k := by
  unfold u32
  rw [Nat.one_shiftLeft]
  exact Nat.mod_eq_of_lt (Nat.pow_lt_pow_right (by decide) hk)

theorem and_two_pow_ne_zero (x i : Nat) : (x &&& 2 ^ i ≠ 0) ↔ x.testBit i = true := by
  rw [Nat.and_two_pow]
  cases h : x.testBit i <;> simp [Nat.pos_iff_ne_zero]

theorem testBit_of_lt {x m i : Nat} (hx : x < 2 ^ m) (hi : m ≤ i) : x.testBit i = false :=
  Nat.testBit_lt_two_pow (Nat.lt_of_lt_of_le hx (Nat.pow_le_pow_right (by decide) hi))



theorem mask_shift (k : Nat) (hk : k ≤ 30) : (1 <<< 30) >>> k = 2 ^ (30 - k) := by
  rw [Nat.one_shiftLeft, Nat.shiftRight_eq_div_pow, Nat.pow_div hk (by decide)]

theorem syndrome_loop_eq (m : Nat) : ∀ k sh, k + m ≤ 31 →
    syndrome_loop m (rem_after k sh) ((1 <<< 30) >>> k) ((BCH_POLY <<< 20) >>> k)
      = rem_after (k + m) sh := by
  induction m with
  | zero => intro k sh _; rfl
  | succ m ih =>
    intro k sh h
    have hk : k ≤ 30 := by omega
    unfold syndrome_loop
    rw [← Nat.shiftRight_add, ← Nat.shiftRight_add]
    have hstep : (if rem_after k sh &&& (1 <<< 30) >>> k ≠ 0
        then rem_after k sh ^^^ (BCH_POLY <<< 20) >>> k else rem_after k sh)
        = rem_after (k + 1) sh := by
      rw [mask_shift k hk]
      show _ = div_step (rem_after k sh) k
      unfold div_step
      by_cases hb : (rem_after k sh).testBit (30 - k) = true
      · rw [if_pos ((and_two_pow_ne_zero _ _).2 hb), if_pos hb]
      · rw [if_neg (fun h => hb ((and_two_pow_ne_zero _ _).1 h)), if_neg hb]
    rw [hstep, ih (k + 1) sh (by omega)]
    congr 1
    omega

theorem and_one_ne_zero (t : Nat) : (t &&& 1 ≠ 0) ↔ (t &&& 1).testBit 0 = true := by
  rw [Nat.and_one_is_mod, Nat.testBit_zero]
  have := Nat.mod_two_eq_zero_or_one t
  rcases this with h | h <;> simp [h]

theorem syndrome_eq (x : Nat) :
    pocsag_syndrome x =
      if parity_bit x then rem_after 21 (x >>> 1) ||| 2 ^ 10 else rem_after 21 (x >>> 1) := by
  have h := syndrome_loop_eq 21 0 (x >>> 1) (by decide)
  rw [show rem_after 0 (x >>> 1) = x >>> 1 from rfl, Nat.shiftRight_zero, Nat.shiftRight_zero,
    Nat.zero_add] at h
  have hp : (even_parity x ≠ 0) ↔ parity_bit x = true := and_one_ne_zero _
  have e : pocsag_syndrome x =
      if even_parity x ≠ 0 then
        syndrome_loop 21 (x >>> 1) (1 <<< 30) (BCH_POLY <<< 20) ||| 2 ^ 10
      else syndrome_loop 21 (x >>> 1) (1 <<< 30) (BCH_POLY <<< 20) := rfl
  rw [e, h]
  by_cases hq : parity_bit x = true
  · rw [if_pos (hp.2 hq), if_pos hq]
  · rw [if_neg (fun h => hq (hp.1 h)), if_neg hq]


theorem div_step_xor (a b n : Nat) : div_step (a ^^^ b) n = div_step a n ^^^ div_step b n := by
  unfold div_step
  rw [Nat.testBit_xor]
  generalize (BCH_POLY <<< 20) >>> n = c
  apply Nat.eq_of_testBit_eq
  intro i
  cases ha : a.testBit (30 - n) <;> cases hb : b.testBit (30 - n) <;>
    simp only [Bool.xor_false, Bool.xor_true, Bool.not_true, Bool.not_false, Bool.false_eq_true,
      if_true, if_false, Nat.testBit_xor] <;>
    cases a.testBit i <;> cases b.testBit i <;> cases c.testBit i <;> rfl

theorem rem_after_xor (k a b : Nat) : rem_after k (a ^^^ b) = rem_after k a ^^^ rem_after k b := by
  induction k with
  | zero => rfl
  | succ k ih => simp only [rem_after, ih, div_step_xor]

theorem div_step_lt (sh n : Nat) (h : sh < 2 ^ (31 - n)) (hn : n ≤ 20) :
    div_step sh n < 2 ^ (30 - n) := by
  apply Nat.lt_pow_two_of_testBit
  intro i hi
  have hc30 : (BCH_POLY <<< 20).testBit 30 = true := by decide
  have hclt : BCH_POLY <<< 20 < 2 ^ 31 := by decide
  unfold div_step
  by_cases hb : sh.testBit (30 - n) = true
  · rw [if_pos hb, Nat.testBit_xor, Nat.testBit_shiftRight]
    by_cases he : i = 30 - n
    · subst he
      rw [hb, show n + (30 - n) = 30 by omega, hc30]; rfl
    · rw [testBit_of_lt h (by omega), testBit_of_lt hclt (by omega)]; rfl
  · rw [if_neg hb]
    by_cases he : i = 30 - n
    · subst he; simpa using hb
    · exact testBit_of_lt h (by omega)

theorem rem_after_lt (sh : Nat) (h : sh < 2 ^ 31) (k : Nat) (hk : k ≤ 21) :
    rem_after k sh < 2 ^ (31 - k) := by
  induction k with
  | zero => exact h
  | succ k ih =>
    have := div_step_lt (rem_after k sh) k (ih (by omega)) (by omega)
    rw [show 31 - (k + 1) = 30 - k by omega]
    exact this

theorem shiftRight_xor (a b k : Nat) : (a ^^^ b) >>> k = a >>> k ^^^ b >>> k := by
  apply Nat.eq_of_testBit_eq
  intro i
  simp [Nat.testBit_xor, Nat.testBit_shiftRight]

theorem xor_bits_xor (a b : Nat) (n : Nat) :
    xor_bits (a ^^^ b) n = xor (xor_bits a n) (xor_bits b n) := by
  induction n with
  | zero => rfl
  | succ n ih =>
    simp only [xor_bits, ih, Nat.testBit_xor]
    cases xor_bits a n <;> cases xor_bits b n <;> cases a.testBit n <;> cases b.testBit n <;> rfl

theorem xor_bits_add (t m k : Nat) :
    xor_bits t (m + k) = xor (xor_bits t m) (xor_bits (t >>> m) k) := by
  induction k with
  | zero => simp [xor_bits]
  | succ k ih =>
    rw [← Nat.add_assoc]
    simp only [xor_bits, ih, Nat.testBit_shiftRight, Bool.xor_assoc]

theorem xor_bits_fold (t m : Nat) : xor_bits (t ^^^ (t >>> m)) m = xor_bits t (m + m) := by
  rw [xor_bits_xor, xor_bits_add]

theorem parity_bit_eq (x : Nat) : parity_bit x = xor_bits x 32 := by
  have h16 := xor_bits_fold x 16
  have h8 := xor_bits_fold (x ^^^ (x >>> 16)) 8
  have h4 := xor_bits_fold (x ^^^ (x >>> 16) ^^^ ((x ^^^ (x >>> 16)) >>> 8)) 4
  have h2 := xor_bits_fold (x ^^^ (x >>> 16) ^^^ ((x ^^^ (x >>> 16)) >>> 8) ^^^
    ((x ^^^ (x >>> 16) ^^^ ((x ^^^ (x >>> 16)) >>> 8)) >>> 4)) 2
  have h1 := xor_bits_fold (x ^^^ (x >>> 16) ^^^ ((x ^^^ (x >>> 16)) >>> 8) ^^^
    ((x ^^^ (x >>> 16) ^^^ ((x ^^^ (x >>> 16)) >>> 8)) >>> 4) ^^^
    ((x ^^^ (x >>> 16) ^^^ ((x ^^^ (x >>> 16)) >>> 8) ^^^
    ((x ^^^ (x >>> 16) ^^^ ((x ^^^ (x >>> 16)) >>> 8)) >>> 4)) >>> 2)) 1
  rw [← h16, ← h8, ← h4, ← h2, ← h1]
  unfold parity_bit even_parity
  simp only [xor_bits, Bool.false_xor, Nat.testBit_and, Nat.testBit_one_zero, Bool.and_true]

theorem parity_bit_xor (a b : Nat) : parity_bit (a ^^^ b) = xor (parity_bit a) (parity_bit b) := by
  simp only [parity_bit_eq, xor_bits_xor]

theorem shr1_lt (x : Nat) (hx : x < 2 ^ 32) : x >>> 1 < 2 ^ 31 := by
  rw [Nat.shiftRight_eq_div_pow]
  omega

theorem rem_lt (x : Nat) (hx : x < 2 ^ 32) : rem_after 21 (x >>> 1) < 2 ^ 10 :=
  rem_after_lt (x >>> 1) (shr1_lt x hx) 21 (Nat.le_refl 21)

theorem syndrome_testBit (x : Nat) (j : Nat) :
    (pocsag_syndrome x).testBit j =
      ((rem_after 21 (x >>> 1)).testBit j || (parity_bit x && decide (j = 10))) := by
  rw [syndrome_eq]
  cases parity_bit x
  · simp
  · simp only [if_true, Nat.testBit_or, Bool.true_and, Nat.testBit_two_pow]
    congr 1
    simp [eq_comm]

theorem syndrome_lt (x : Nat) (hx : x < 2 ^ 32) : pocsag_syndrome x < 2 ^ 11 := by
  apply Nat.lt_pow_two_of_testBit
  intro i hi
  rw [syndrome_testBit, testBit_of_lt (rem_lt x hx) (by omega)]
  have : ¬ i = 10 := by omega
  simp [this]

theorem syndrome_xor (x y : Nat) (hx : x < 2 ^ 32) (hy : y < 2 ^ 32) :
    pocsag_syndrome (x ^^^ y) = pocsag_syndrome x ^^^ pocsag_syndrome y := by
  apply Nat.eq_of_testBit_eq
  intro j
  rw [Nat.testBit_xor, syndrome_testBit, syndrome_testBit, syndrome_testBit, shiftRight_xor,
    rem_after_xor, parity_bit_xor, Nat.testBit_xor]
  by_cases h : j = 10
  · subst h
    rw [testBit_of_lt (rem_lt x hx) (Nat.le_refl 10), testBit_of_lt (rem_lt y hy) (Nat.le_refl 10)]
    simp
  · simp [h]

theorem xor_lt_32 (x y : Nat) (hx : x < 2 ^ 32) (hy : y < 2 ^ 32) : x ^^^ y < 2 ^ 32 :=
  Nat.xor_lt_two_pow hx hy

theorem syndrome_zero_xor (c e : Nat) (hc : c < 2 ^ 32) (he : e < 2 ^ 32)
    (h : pocsag_syndrome c = 0) : pocsag_syndrome (c ^^^ e) = pocsag_syndrome e := by
  rw [syndrome_xor c e hc he, h, Nat.zero_xor]

theorem transpose_n_loop_testBit (n : Nat) (hn : n < 32) (m : List Nat) :
    ∀ fuel j out i, j + fuel ≤ 32 →
      (transpose_n_loop n m fuel j out).testBit i =
        (out.testBit i || (decide (j ≤ i ∧ i < j + fuel) && (rd m i).testBit n)) := by
  intro fuel
  induction fuel with
  | zero =>
    intro j out i _
    have : ¬ (j ≤ i ∧ i < j + 0) := by omega
    simp [transpose_n_loop, this]
  | succ f ih =>
    intro j out i h
    unfold transpose_n_loop
    rw [ih (j + 1) _ i (by omega), u32_one_shl n hn, u32_one_shl j (by omega)]
    by_cases hb : (rd m j).testBit n = true
    · rw [if_pos ((and_two_pow_ne_zero _ _).2 hb), Nat.testBit_or, Nat.testBit_two_pow]
      by_cases hij : j = i
      · subst hij
        have : (j ≤ j ∧ j < j + (f + 1)) := by omega
        simp [hb, this]
      · have e : (j + 1 ≤ i ∧ i < j + 1 + f) ↔ (j ≤ i ∧ i < j + (f + 1)) := by omega
        simp [hij, e]
    · rw [if_neg (fun h => hb ((and_two_pow_ne_zero _ _).1 h))]
      by_cases hij : j = i
      · subst hij
        have : ¬ (j + 1 ≤ j ∧ j < j + 1 + f) := by omega
        simp [hb, this]
      · have e : (j + 1 ≤ i ∧ i < j + 1 + f) ↔ (j ≤ i ∧ i < j + (f + 1)) := by omega
        simp [e]

theorem transpose_n_testBit (n : Nat) (hn : n < 32) (m : List Nat) (i : Nat) :
    (transpose_n n m).testBit i = (decide (i < 32) && (rd m i).testBit n) := by
  unfold transpose_n
  rw [transpose_n_loop_testBit n hn m 32 0 0 i (by decide)]
  simp

theorem transpose_n_lt (n : Nat) (hn : n < 32) (m : List Nat) : transpose_n n m < 2 ^ 32 := by
  apply Nat.lt_pow_two_of_testBit
  intro i hi
  rw [transpose_n_testBit n hn]
  have : ¬ i < 32 := by omega
  simp [this]

theorem xor_bits_lane (s : List Nat) (k : Nat) (hk : k < 32) (n : Nat) (hn : n ≤ 32) :
    xor_bits (transpose_n k s) n = col_xor s k n := by
  induction n with
  | zero => rfl
  | succ n ih =>
    have : n < 32 := by omega
    simp only [xor_bits, col_xor, ih (by omega), transpose_n_testBit k hk, this, decide_True,
      Bool.true_and]

theorem bitslice_shift_length : ∀ fuel i s p, (bitslice_shift fuel i s p).1.length = s.length := by
  intro fuel
  induction fuel with
  | zero => intro i s p; rfl
  | succ f ih =>
    intro i s p
    unfold bitslice_shift
    rw [ih, length_wr]

theorem bitslice_shift_snd (s0 : List Nat) (k : Nat) :
    ∀ fuel i s p, 1 ≤ i → (∀ t, i ≤ t → rd s t = rd s0 t) → p.testBit k = col_xor s0 k i →
      (bitslice_shift fuel i s p).2.testBit k = col_xor s0 k (i + fuel) := by
  intro fuel
  induction fuel with
  | zero => intro i s p _ _ hp; exact hp
  | succ f ih =>
    intro i s p hi hs hp
    unfold bitslice_shift
    rw [ih (i + 1) _ _ (by omega), show i + 1 + f = i + (f + 1) by omega]
    · intro t ht
      rw [rd_wr, if_neg (by omega)]
      exact hs t (by omega)
    · rw [Nat.testBit_xor, hp, hs i (Nat.le_refl i)]
      rfl

theorem bitslice_shift_fst (s0 : List Nat) :
    ∀ fuel i s p, 1 ≤ i → i + fuel ≤ s.length + 1 → (∀ t, i ≤ t → rd s t = rd s0 t) →
      ∀ j, rd (bitslice_shift fuel i s p).1 j =
        if i - 1 ≤ j ∧ j < i - 1 + fuel then rd s0 (j + 1) else rd s j := by
  intro fuel
  induction fuel with
  | zero =>
    intro i s p _ _ _ j
    rw [if_neg (by omega)]
    rfl
  | succ f ih =>
    intro i s p hi hlen hs j
    unfold bitslice_shift
    rw [ih (i + 1) _ _ (by omega) (by rw [length_wr]; omega)]
    · rw [rd_wr]
      by_cases h1 : i + 1 - 1 ≤ j ∧ j < i + 1 - 1 + f
      · rw [if_pos h1, if_pos (by omega)]
      · rw [if_neg h1]
        by_cases h2 : i - 1 = j
        · rw [if_pos ⟨h2, by omega⟩, if_pos (by omega), ← h2, show i - 1 + 1 = i by omega]
          exact hs i (Nat.le_refl i)
        · rw [if_neg (by omega), if_neg (by omega)]
    · intro t ht
      rw [rd_wr, if_neg (by omega)]
      exact hs t (by omega)

theorem xor_into_rd (s : List Nat) (a b j : Nat) (ha : a < s.length) :
    rd (xor_into s a b) j = if j = a then rd s a ^^^ rd s b else rd s j := by
  unfold xor_into
  rw [rd_wr]
  by_cases h : a = j
  · rw [if_pos ⟨h, ha⟩, if_pos h.symm]
  · rw [if_neg (fun hh => h hh.1), if_neg (fun hh => h hh.symm)]

theorem xor_into_length (s : List Nat) (a b : Nat) : (xor_into s a b).length = s.length := by
  unfold xor_into
  rw [length_wr]

theorem bitslice_step_length (s : List Nat) (n : Nat) : (bitslice_step s n).length = s.length := by
  unfold bitslice_step
  simp only [xor_into_length]

theorem xor_into_acc (s0 s : List Nat) (a b : Nat) (P : Nat → Prop) [DecidablePred P]
    (h : ∀ j, rd s j = if P j then rd s0 j ^^^ rd s0 b else rd s0 j)
    (hlen : a < s.length) (hPb : ¬ P b) (hPa : ¬ P a) :
    ∀ j, rd (xor_into s a b) j = if P j ∨ j = a then rd s0 j ^^^ rd s0 b else rd s0 j := by
  intro j
  rw [xor_into_rd _ _ _ _ hlen]
  by_cases hj : j = a
  · subst hj
    rw [if_pos rfl, if_pos (Or.inr rfl), h j, if_neg hPa, h b, if_neg hPb]
  · rw [if_neg hj, h j]
    by_cases hp : P j
    · rw [if_pos hp, if_pos (Or.inl hp)]
    · rw [if_neg hp, if_neg (by tauto)]

theorem bitslice_step_rd (s : List Nat) (n j : Nat) (hs : s.length = 32) (hn : n ≤ 20) :
    rd (bitslice_step s n) j =
      if j = 30 - n then 0
      else if j + n = 20 ∨ j + n = 23 ∨ j + n = 25 ∨ j + n = 26 ∨ j + n = 28 ∨ j + n = 29 then
        rd s j ^^^ rd s (30 - n)
      else rd s j := by
  have h1 : ∀ j, rd (xor_into s (20 - n) (30 - n)) j =
      if j = 20 - n then rd s j ^^^ rd s (30 - n) else rd s j := by
    intro j
    rw [xor_into_rd _ _ _ _ (by omega)]
    by_cases h : j = 20 - n
    · rw [if_pos h, if_pos h, h]
    · rw [if_neg h, if_neg h]
  have h2 := xor_into_acc s _ (23 - n) (30 - n) _ h1
    (by simp only [xor_into_length]; omega) (by omega) (by omega)
  have h3 := xor_into_acc s _ (25 - n) (30 - n) _ h2
    (by simp only [xor_into_length]; omega) (by omega) (by omega)
  have h4 := xor_into_acc s _ (26 - n) (30 - n) _ h3
    (by simp only [xor_into_length]; omega) (by omega) (by omega)
  have h5 := xor_into_acc s _ (28 - n) (30 - n) _ h4
    (by simp only [xor_into_length]; omega) (by omega) (by omega)
  have h6 := xor_into_acc s _ (29 - n) (30 - n) _ h5
    (by simp only [xor_into_length]; omega) (by omega) (by omega)
  show rd (xor_into (xor_into (xor_into (xor_into (xor_into (xor_into (xor_into (xor_into s
    (20 - n) (30 - n)) (23 - n) (30 - n)) (25 - n) (30 - n)) (26 - n) (30 - n)) (28 - n) (30 - n))
    (29 - n) (30 - n)) (30 - n) (30 - n)) (31 - n) (30 - n)) j = _
  generalize hs6 : (xor_into (xor_into (xor_into (xor_into (xor_into (xor_into s
    (20 - n) (30 - n)) (23 - n) (30 - n)) (25 - n) (30 - n)) (26 - n) (30 - n)) (28 - n) (30 - n))
    (29 - n) (30 - n)) = s6 at h6 ⊢
  have hl6 : s6.length = 32 := by
    rw [← hs6]; simp only [xor_into_length]; exact hs
  rw [xor_into_rd _ _ _ _ (by rw [xor_into_length]; omega)]
  rw [xor_into_rd _ _ _ _ (by omega), xor_into_rd _ _ _ _ (by omega),
    xor_into_rd _ _ _ _ (by omega)]
  rw [if_neg (by omega : ¬ 31 - n = 30 - n), if_pos rfl, Nat.xor_self, Nat.xor_zero]
  by_cases e1 : j = 30 - n
  · rw [if_pos e1, if_neg (by omega), if_pos e1]
  · rw [if_neg e1, if_neg e1]
    have hj := h6 j
    have h31 := h6 (31 - n)
    rw [if_neg (by omega)] at h31
    by_cases e2 : j + n = 20 ∨ j + n = 23 ∨ j + n = 25 ∨ j + n = 26 ∨ j + n = 28 ∨ j + n = 29
    · rw [if_pos e2, if_neg (by omega), hj, if_pos (by omega)]
    · rw [if_neg e2]
      by_cases e3 : j = 31 - n
      · rw [if_pos e3, e3]
        exact h31
      · rw [if_neg e3, hj, if_neg (by omega)]

theorem coeff_testBit (m : Nat) :
    (BCH_POLY <<< 20).testBit m =
      decide (m = 20 ∨ m = 23 ∨ m = 25 ∨ m = 26 ∨ m = 28 ∨ m = 29 ∨ m = 30) := by
  by_cases h : m < 31
  · interval_cases m <;> rfl
  · have hlt : BCH_POLY <<< 20 < 2 ^ 31 := by decide
    rw [testBit_of_lt hlt (by omega)]
    symm
    apply decide_eq_false
    omega

theorem div_step_testBit (sh n j : Nat) :
    (div_step sh n).testBit j =
      xor (sh.testBit j) (sh.testBit (30 - n) && (BCH_POLY <<< 20).testBit (n + j)) := by
  unfold div_step
  by_cases hb : sh.testBit (30 - n) = true
  · rw [if_pos hb, Nat.testBit_xor, Nat.testBit_shiftRight, hb, Bool.true_and]
  · rw [if_neg hb]
    rw [Bool.not_eq_true] at hb
    rw [hb, Bool.false_and, Bool.xor_false]

theorem bitslice_step_testBit (s : List Nat) (n j k : Nat) (hs : s.length = 32) (hn : n ≤ 20) :
    (rd (bitslice_step s n) j).testBit k =
      xor ((rd s j).testBit k)
        ((rd s (30 - n)).testBit k && (BCH_POLY <<< 20).testBit (n + j)) := by
  rw [bitslice_step_rd s n j hs hn, coeff_testBit]
  by_cases e1 : j = 30 - n
  · rw [if_pos e1, Nat.zero_testBit, decide_eq_true (by omega), Bool.and_true, e1, Bool.xor_self]
  · rw [if_neg e1]
    by_cases e2 : j + n = 20 ∨ j + n = 23 ∨ j + n = 25 ∨ j + n = 26 ∨ j + n = 28 ∨ j + n = 29
    · rw [if_pos e2, decide_eq_true (by omega), Bool.and_true, Nat.testBit_xor]
    · rw [if_neg e2, decide_eq_false (by omega), Bool.and_false, Bool.xor_false]

theorem bitslice_fold_length (s : List Nat) (m : Nat) :
    ((List.range m).foldl bitslice_step s).length = s.length := by
  induction m with
  | zero => rfl
  | succ m ih => rw [List.range_succ, List.foldl_append, List.foldl_cons, List.foldl_nil,
      bitslice_step_length, ih]

theorem bitslice_fold_testBit (s : List Nat) (sh k : Nat) (hs : s.length = 32)
    (h : ∀ j, j < 32 → (rd s j).testBit k = sh.testBit j) (m : Nat) (hm : m ≤ 21) :
    ∀ j, j < 32 → (rd ((List.range m).foldl bitslice_step s) j).testBit k
      = (rem_after m sh).testBit j := by
  induction m with
  | zero => exact h
  | succ m ih =>
    intro j hj
    rw [List.range_succ, List.foldl_append, List.foldl_cons, List.foldl_nil,
      bitslice_step_testBit _ _ _ _ (by rw [bitslice_fold_length]; exact hs) (by omega),
      ih (by omega) j hj, ih (by omega) (30 - m) (by omega)]
    show _ = (div_step (rem_after m sh) m).testBit j
    rw [div_step_testBit]

theorem bitslice_length (s : List Nat) : (bitslice_syndrome s).length = s.length := by
  unfold bitslice_syndrome
  simp only [length_wr, bitslice_fold_length, bitslice_shift_length]

theorem bitslice_lane_testBit (s : List Nat) (hs : s.length = 32) (k : Nat) (hk : k < 32)
    (j : Nat) (hj : j < 32) :
    (rd (bitslice_syndrome s) j).testBit k = (pocsag_syndrome (transpose_n k s)).testBit j := by
  have hlen0 : (wr (bitslice_shift 31 1 s (rd s 0)).1 31 0).length = 32 := by
    rw [length_wr, bitslice_shift_length, hs]
  have hS0 : ∀ i, i < 32 → (rd (wr (bitslice_shift 31 1 s (rd s 0)).1 31 0) i).testBit k
      = ((transpose_n k s) >>> 1).testBit i := by
    intro i hi
    rw [rd_wr, Nat.testBit_shiftRight, transpose_n_testBit k hk, bitslice_shift_length, hs]
    by_cases e : 31 = i
    · subst e
      rw [if_pos ⟨rfl, by decide⟩, Nat.zero_testBit]
      rfl
    · rw [if_neg (fun h => e h.1),
        bitslice_shift_fst s 31 1 s (rd s 0) (Nat.le_refl 1) (by omega) (fun _ _ => rfl) i,
        if_pos (by omega), decide_eq_true (by omega : 1 + i < 32), Bool.true_and,
        Nat.add_comm i 1]
  have hpm : (bitslice_shift 31 1 s (rd s 0)).2.testBit k = parity_bit (transpose_n k s) := by
    rw [bitslice_shift_snd s k 31 1 s (rd s 0) (Nat.le_refl 1) (fun _ _ => rfl)
      (by simp [col_xor]), parity_bit_eq, xor_bits_lane s k hk 32 (Nat.le_refl 32)]
  have hfold := bitslice_fold_testBit _ ((transpose_n k s) >>> 1) k hlen0 hS0 21 (Nat.le_refl 21)
  have hflen := bitslice_fold_length (wr (bitslice_shift 31 1 s (rd s 0)).1 31 0) 21
  rw [hlen0] at hflen
  show (rd (wr ((List.range 21).foldl bitslice_step (wr (bitslice_shift 31 1 s (rd s 0)).1 31 0))
    10 (rd ((List.range 21).foldl bitslice_step (wr (bitslice_shift 31 1 s (rd s 0)).1 31 0)) 10
      ||| (bitslice_shift 31 1 s (rd s 0)).2)) j).testBit k = _
  rw [rd_wr, hflen, syndrome_testBit]
  by_cases e : 10 = j
  · subst e
    rw [if_pos ⟨rfl, by decide⟩, Nat.testBit_or, hfold 10 hj, hpm]
    simp
  · rw [if_neg (fun h => e h.1), hfold j hj]
    have : ¬ j = 10 := fun h => e h.symm
    simp [this]

theorem bitslice_lane (s : List Nat) (hs : s.length = 32) (k : Nat) (hk : k < 32) :
    transpose_n k (bitslice_syndrome s) = pocsag_syndrome (transpose_n k s) := by
  apply Nat.eq_of_testBit_eq
  intro j
  rw [transpose_n_testBit k hk]
  by_cases hj : j < 32
  · rw [decide_eq_true hj, Bool.true_and, bitslice_lane_testBit s hs k hk j hj]
  · rw [decide_eq_false hj, Bool.false_and]
    symm
    exact testBit_of_lt (syndrome_lt _ (transpose_n_lt k hk s)) (by omega)

theorem or_fold_testBit (s : List Nat) (k : Nat) (m : Nat) :
    ((List.range m).foldl (fun res i => res ||| rd s i) 0).testBit k = true ↔
      ∃ j, j < m ∧ (rd s j).testBit k = true := by
  induction m with
  | zero => simp
  | succ m ih =>
    rw [List.range_succ, List.foldl_append, List.foldl_cons, List.foldl_nil, Nat.testBit_or,
      Bool.or_eq_true, ih]
    constructor
    · rintro (⟨j, hj, h⟩ | h)
      · exact ⟨j, by omega, h⟩
      · exact ⟨m, by omega, h⟩
    · rintro ⟨j, hj, h⟩
      by_cases e : j = m
      · subst e; exact Or.inr h
      · exact Or.inl ⟨j, by omega, h⟩

theorem ONE_testBit (k : Nat) : ONE.testBit k = decide (k < 32) :=
  Nat.testBit_two_pow_sub_one 32 k

theorem zero_lanes_testBit (s : List Nat) (k : Nat) :
    (zero_lanes s).testBit k = true ↔ k < 32 ∧ ∀ j, j < 32 → (rd s j).testBit k = false := by
  unfold zero_lanes u32
  rw [Nat.testBit_xor, Nat.testBit_mod_two_pow, ONE_testBit]
  by_cases hk : k < 32
  · rw [decide_eq_true hk, Bool.true_and, Bool.xor_true, Bool.not_eq_true']
    constructor
    · intro h
      refine ⟨hk, fun j hj => ?_⟩
      by_contra hc
      rw [Bool.not_eq_false] at hc
      have := (or_fold_testBit s k 32).2 ⟨j, hj, hc⟩
      rw [h] at this
      exact Bool.noConfusion this
    · rintro ⟨_, h⟩
      by_contra hc
      rw [Bool.not_eq_false] at hc
      obtain ⟨j, hj, hb⟩ := (or_fold_testBit s k 32).1 hc
      rw [h j hj] at hb
      exact Bool.noConfusion hb
  · rw [decide_eq_false hk, Bool.false_and]
    simp [hk]

theorem zero_lanes_lt (s : List Nat) : zero_lanes s < 2 ^ 32 := by
  apply Nat.lt_pow_two_of_testBit
  intro i hi
  by_contra hc
  rw [Bool.not_eq_false] at hc
  have := ((zero_lanes_testBit s i).1 hc).1
  omega

theorem top_bit_spec : ∀ f res n0, res ≠ 0 → res < 2 ^ f →
    ∃ m, top_bit (f + 1) res n0 = some (n0 + m) ∧ res.testBit m = true ∧ m < f := by
  intro f
  induction f with
  | zero => intro res n0 h1 h2; omega
  | succ f ih =>
    intro res n0 h1 h2
    unfold top_bit
    rw [if_pos h1]
    by_cases hz : res >>> 1 = 0
    · refine ⟨0, ?_, ?_, by omega⟩
      · rw [hz]
        unfold top_bit
        rw [if_neg (by simp)]
        rfl
      · rw [Nat.shiftRight_eq_div_pow] at hz
        have : res = 1 := by omega
        rw [this]; rfl
    · have hlt : res >>> 1 < 2 ^ f := by
        rw [Nat.shiftRight_eq_div_pow]
        rw [Nat.pow_succ] at h2
        omega
      obtain ⟨m, hm1, hm2, hm3⟩ := ih (res >>> 1) (n0 + 1) hz hlt
      refine ⟨m + 1, ?_, ?_, by omega⟩
      · rw [hm1]; congr 1; omega
      · rw [Nat.testBit_shiftRight] at hm2
        rw [Nat.add_comm m 1]; exact hm2

theorem lane_zero_iff (s : List Nat) (hs : s.length = 32) (k : Nat) (hk : k < 32) :
    (zero_lanes (bitslice_syndrome s)).testBit k = true ↔
      pocsag_syndrome (transpose_n k s) = 0 := by
  rw [zero_lanes_testBit]
  constructor
  · rintro ⟨_, h⟩
    apply Nat.eq_of_testBit_eq
    intro j
    rw [Nat.zero_testBit]
    by_cases hj : j < 32
    · rw [← bitslice_lane_testBit s hs k hk j hj]
      exact h j hj
    · exact testBit_of_lt (syndrome_lt _ (transpose_n_lt k hk s)) (by omega)
  · intro h
    refine ⟨hk, fun j hj => ?_⟩
    rw [bitslice_lane_testBit s hs k hk j hj, h, Nat.zero_testBit]

theorem find_lane_some (s : List Nat) (hs : s.length = 32) (n : Nat)
    (h : find_lane s = some n) : n < 32 ∧ pocsag_syndrome (transpose_n n s) = 0 := by
  unfold find_lane at h
  simp only at h
  by_cases hz : zero_lanes (bitslice_syndrome s) ≠ 0
  · rw [if_pos hz] at h
    obtain ⟨m, hm1, hm2, hm3⟩ := top_bit_spec 32 _ 0 hz (zero_lanes_lt _)
    rw [h, Nat.zero_add] at hm1
    have hnm : n = m := Option.some.inj hm1
    subst hnm
    exact ⟨hm3, (lane_zero_iff s hs n hm3).1 hm2⟩
  · rw [if_neg hz] at h
    exact Option.noConfusion h

theorem find_lane_none (s : List Nat) (hs : s.length = 32) (h : find_lane s = none) :
    ∀ k, k < 32 → pocsag_syndrome (transpose_n k s) ≠ 0 := by
  unfold find_lane at h
  simp only at h
  by_cases hz : zero_lanes (bitslice_syndrome s) ≠ 0
  · rw [if_pos hz] at h
    obtain ⟨m, hm1, _, _⟩ := top_bit_spec 32 _ 0 hz (zero_lanes_lt _)
    rw [h] at hm1
    exact Option.noConfusion hm1
  · rw [if_neg hz] at h
    rw [not_not] at hz
    intro k hk hc
    have := (lane_zero_iff s hs k hk).2 hc
    rw [hz, Nat.zero_testBit] at this
    exact Bool.noConfusion this

theorem check_batch_some (s : List Nat) (hs : s.length = 32) (d : Nat)
    (h : check_batch s = some d) :
    ∃ k, k < 32 ∧ d = transpose_n k s ∧ pocsag_syndrome d = 0 := by
  unfold check_batch at h
  simp only at h
  cases hf : find_lane s with
  | none => rw [hf] at h; exact Option.noConfusion h
  | some n =>
    rw [hf] at h
    have hd : transpose_n n s = d := Option.some.inj h
    obtain ⟨h1, h2⟩ := find_lane_some s hs n hf
    exact ⟨n, h1, hd.symm, hd ▸ h2⟩

theorem check_batch_none (s : List Nat) (hs : s.length = 32) (h : check_batch s = none) :
    ∀ k, k < 32 → pocsag_syndrome (transpose_n k s) ≠ 0 := by
  unfold check_batch at h
  simp only at h
  cases hf : find_lane s with
  | none => exact find_lane_none s hs hf
  | some n => rw [hf] at h; exact Option.noConfusion h

theorem rd_map_range (f : Nat → Nat) (m i : Nat) (hi : i < m) :
    rd ((List.range m).map f) i = f i := by
  unfold rd
  simp [List.getD_eq_getElem?_getD, List.getElem?_map, List.getElem?_range, hi]

theorem transpose_clone_length (d : Nat) : (transpose_clone d).length = 32 := by
  simp [transpose_clone]

theorem transpose_clone_rd (d i : Nat) (hi : i < 32) :
    rd (transpose_clone d) i = if d.testBit i = true then ONE else 0 := by
  unfold transpose_clone
  rw [rd_map_range _ 32 i hi, u32_one_shl i hi]
  by_cases hb : d.testBit i = true
  · rw [if_pos ((and_two_pow_ne_zero _ _).2 hb), if_pos hb]
  · rw [if_neg (fun h => hb ((and_two_pow_ne_zero _ _).1 h)), if_neg hb]

theorem transpose_clone_lane (d : Nat) (hd : d < 2 ^ 32) (k : Nat) (hk : k < 32) :
    transpose_n k (transpose_clone d) = d := by
  apply Nat.eq_of_testBit_eq
  intro j
  rw [transpose_n_testBit k hk]
  by_cases hj : j < 32
  · rw [decide_eq_true hj, Bool.true_and, transpose_clone_rd d j hj]
    by_cases hb : d.testBit j = true
    · rw [if_pos hb, ONE_testBit, decide_eq_true hk, hb]
    · rw [if_neg hb, Nat.zero_testBit]
      rw [Bool.not_eq_true] at hb
      exact hb.symm
  · rw [decide_eq_false hj, Bool.false_and]
    exact (testBit_of_lt hd (by omega)).symm

theorem flip_lane (xp : List Nat) (hlen : xp.length = 32) (b n : Nat) (hb : b < 32)
    (hn : n < 32) (k : Nat) (hk : k < 32) :
    transpose_n k (wr xp b (rd xp b ^^^ u32 (1 <<< n))) =
      if k = n then transpose_n k xp ^^^ 2 ^ b else transpose_n k xp := by
  apply Nat.eq_of_testBit_eq
  intro j
  rw [transpose_n_testBit k hk, rd_wr, u32_one_shl n hn, hlen]
  by_cases hj : b = j
  · subst hj
    rw [if_pos ⟨rfl, hb⟩, decide_eq_true hb, Bool.true_and, Nat.testBit_xor, Nat.testBit_two_pow]
    by_cases e : k = n
    · subst e
      rw [if_pos rfl, Nat.testBit_xor, Nat.testBit_two_pow, transpose_n_testBit k hk,
        decide_eq_true hb, Bool.true_and, decide_eq_true (rfl : k = k),
        decide_eq_true (rfl : b = b)]
    · rw [if_neg e, transpose_n_testBit k hk, decide_eq_true hb, Bool.true_and,
        decide_eq_false (fun h => e h.symm), Bool.xor_false]
  · rw [if_neg (fun h => hj h.1)]
    by_cases e : k = n
    · rw [if_pos e, Nat.testBit_xor, Nat.testBit_two_pow, transpose_n_testBit k hk,
        decide_eq_false hj, Bool.xor_false]
    · rw [if_neg e, transpose_n_testBit k hk]

theorem single_flips_fold (d : Nat) (hd : d < 2 ^ 32) (m : Nat) (hm : m ≤ 32) :
    ((List.range m).foldl (fun xpose i => wr xpose i (rd xpose i ^^^ u32 (1 <<< i)))
        (transpose_clone d)).length = 32 ∧
    ∀ k, k < 32 →
      transpose_n k ((List.range m).foldl
        (fun xpose i => wr xpose i (rd xpose i ^^^ u32 (1 <<< i))) (transpose_clone d))
        = if k < m then d ^^^ 2 ^ k else d := by
  induction m with
  | zero =>
    refine ⟨transpose_clone_length d, fun k hk => ?_⟩
    rw [if_neg (by omega)]
    exact transpose_clone_lane d hd k hk
  | succ m ih =>
    obtain ⟨h1, h2⟩ := ih (by omega)
    rw [List.range_succ, List.foldl_append, List.foldl_cons, List.foldl_nil]
    refine ⟨by rw [length_wr]; exact h1, fun k hk => ?_⟩
    rw [flip_lane _ h1 m m (by omega) (by omega) k hk, h2 k hk]
    by_cases e : k = m
    · subst e
      rw [if_pos rfl, if_neg (by omega), if_pos (by omega)]
    · rw [if_neg e]
      by_cases e2 : k < m
      · rw [if_pos e2, if_pos (by omega)]
      · rw [if_neg e2, if_neg (by omega)]

theorem single_flips_length (d : Nat) (hd : d < 2 ^ 32) : (single_flips d).length = 32 :=
  (single_flips_fold d hd 32 (Nat.le_refl 32)).1

theorem single_flips_lane (d : Nat) (hd : d < 2 ^ 32) (k : Nat) (hk : k < 32) :
    transpose_n k (single_flips d) = d ^^^ 2 ^ k := by
  have := (single_flips_fold d hd 32 (Nat.le_refl 32)).2 k hk
  rw [if_pos hk] at this
  exact this

theorem cand_self (d b : Nat) : cand d b b = d := by
  unfold cand
  rw [Nat.xor_assoc, Nat.xor_self, Nat.xor_zero]

theorem searchInv_mono (data : Nat) (P Q : Nat → Nat → Prop) (h : ∀ a b, Q a b → P a b)
    (st : Search) (hst : SearchInv data P st) : SearchInv data Q st := by
  cases st with
  | found d => exact hst
  | going xp n =>
    obtain ⟨h1, h2, h3, h4, h5⟩ := hst
    exact ⟨h1, h2, h3, h4, fun a b hq => h5 a b (h a b hq)⟩

theorem pair_body_inv (data : Nat) (P : Nat → Nat → Prop) (st : Search)
    (b1 b2 : Nat) (hb1 : b1 < 32) (hb2 : b2 < 32) (hst : SearchInv data P st) :
    SearchInv data (fun a b => P a b ∨ (a = b1 ∧ b = b2)) (pair_body data b1 st b2) := by
  cases st with
  | found d => exact hst
  | going xp n =>
    obtain ⟨h1, h2, h3, h4, h5⟩ := hst
    have hl1 : (wr xp b1 (rd xp b1 ^^^ u32 (1 <<< n))).length = 32 := by rw [length_wr]; exact h1
    have hl2 : (wr (wr xp b1 (rd xp b1 ^^^ u32 (1 <<< n))) b2
        (rd (wr xp b1 (rd xp b1 ^^^ u32 (1 <<< n))) b2 ^^^ u32 (1 <<< n))).length = 32 := by
      rw [length_wr]; exact hl1
    have hlane : ∀ k, k < 32 →
        transpose_n k (wr (wr xp b1 (rd xp b1 ^^^ u32 (1 <<< n))) b2
          (rd (wr xp b1 (rd xp b1 ^^^ u32 (1 <<< n))) b2 ^^^ u32 (1 <<< n)))
          = if k = n then cand data b1 b2 else transpose_n k xp := by
      intro k hk
      rw [flip_lane _ hl1 b2 n hb2 h2 k hk, flip_lane _ h1 b1 n hb1 h2 k hk]
      by_cases e : k = n
      · rw [if_pos e, if_pos e, if_pos e, h3 k (by omega) hk]
        rfl
      · rw [if_neg e, if_neg e, if_neg e]
    unfold pair_body
    simp only
    generalize (wr (wr xp b1 (rd xp b1 ^^^ u32 (1 <<< n))) b2
          (rd (wr xp b1 (rd xp b1 ^^^ u32 (1 <<< n))) b2 ^^^ u32 (1 <<< n))) = xp2 at hl2 hlane ⊢
    by_cases hfull : n + 1 = 32
    · rw [if_pos hfull]
      cases hc : check_batch xp2 with
      | some d =>
        obtain ⟨k, hk, hd, hsyn⟩ := check_batch_some xp2 hl2 d hc
        rw [hlane k hk] at hd
        by_cases e : k = n
        · rw [if_pos e] at hd
          exact ⟨b1, b2, hb1, hb2, hd, hsyn⟩
        · rw [if_neg e] at hd
          obtain ⟨a, b, ha, hb, hab⟩ := h4 k (by omega)
          exact ⟨a, b, ha, hb, hd.trans hab, hsyn⟩
      | none =>
        have hnz := check_batch_none xp2 hl2 hc
        refine ⟨transpose_clone_length data, by decide, ?_, ?_, ?_⟩
        · intro k _ hk
          have hdata : data < 2 ^ 32 := by
            rw [← h3 n (Nat.le_refl n) h2]
            exact transpose_n_lt n h2 xp
          exact transpose_clone_lane data hdata k hk
        · intro k hk; omega
        · intro a b hab
          left
          rcases hab with hp | ⟨ha, hb⟩
          · rcases h5 a b hp with h | ⟨k, hk, hkc⟩
            · exact h
            · have := hnz k (by omega)
              rw [hlane k (by omega), if_neg (by omega), hkc] at this
              exact this
          · subst ha; subst hb
            have := hnz n h2
            rw [hlane n h2, if_pos rfl] at this
            exact this
    · rw [if_neg hfull]
      refine ⟨hl2, by omega, ?_, ?_, ?_⟩
      · intro k hk1 hk2
        rw [hlane k hk2, if_neg (by omega)]
        exact h3 k (by omega) hk2
      · intro k hk
        rw [hlane k (by omega)]
        by_cases e : k = n
        · rw [if_pos e]
          exact ⟨b1, b2, hb1, hb2, rfl⟩
        · rw [if_neg e]
          exact h4 k (by omega)
      · intro a b hab
        rcases hab with hp | ⟨ha, hb⟩
        · rcases h5 a b hp with h | ⟨k, hk, hkc⟩
          · exact Or.inl h
          · right
            refine ⟨k, by omega, ?_⟩
            rw [hlane k (by omega), if_neg (by omega)]
            exact hkc
        · subst ha; subst hb
          right
          refine ⟨n, by omega, ?_⟩
          rw [hlane n h2, if_pos rfl]

theorem inner_fold_inv (data b1 : Nat) (hb1 : b1 < 32) (L : List Nat) :
    (∀ b, b ∈ L → b < 32) → ∀ (st : Search) (P : Nat → Nat → Prop), SearchInv data P st →
      SearchInv data (fun a b => P a b ∨ (a = b1 ∧ b ∈ L)) (L.foldl (pair_body data b1) st) := by
  induction L with
  | nil =>
    intro _ st P h
    refine searchInv_mono data P _ ?_ st h
    rintro a b (h | ⟨_, h⟩)
    · exact h
    · exact absurd h (List.not_mem_nil b)
  | cons b2 L ih =>
    intro hL st P h
    rw [List.foldl_cons]
    have h1 := pair_body_inv data P st b1 b2 hb1 (hL b2 (List.mem_cons_self b2 L)) h
    have h2 := ih (fun b hb => hL b (List.mem_cons_of_mem b2 hb)) _ _ h1
    refine searchInv_mono data _ _ ?_ _ h2
    rintro a b (h | ⟨ha, hb⟩)
    · exact Or.inl (Or.inl h)
    · rcases List.mem_cons.1 hb with e | e
      · exact Or.inl (Or.inr ⟨ha, e⟩)
      · exact Or.inr ⟨ha, e⟩

theorem inner_loop_inv (data b1 : Nat) (hb1 : b1 < 32) (st : Search) (P : Nat → Nat → Prop)
    (h : SearchInv data P st) :
    SearchInv data (fun a b => P a b ∨ (a = b1 ∧ b1 ≤ b ∧ b < 32)) (inner_loop data st b1) := by
  unfold inner_loop
  have h1 := inner_fold_inv data b1 hb1 (List.range' b1 (32 - b1))
    (fun b hb => by rw [List.mem_range'_1] at hb; omega) st P h
  refine searchInv_mono data _ _ ?_ _ h1
  rintro a b (h | ⟨ha, hb1, hb2⟩)
  · exact Or.inl h
  · refine Or.inr ⟨ha, ?_⟩
    rw [List.mem_range'_1]
    omega

theorem outer_fold_inv (data : Nat) (L : List Nat) :
    (∀ a, a ∈ L → a < 32) → ∀ (st : Search) (P : Nat → Nat → Prop), SearchInv data P st →
      SearchInv data (fun a b => P a b ∨ (a ∈ L ∧ a ≤ b ∧ b < 32))
        (L.foldl (inner_loop data) st) := by
  induction L with
  | nil =>
    intro _ st P h
    refine searchInv_mono data P _ ?_ st h
    rintro a b (h | ⟨h, _⟩)
    · exact h
    · exact absurd h (List.not_mem_nil a)
  | cons b1 L ih =>
    intro hL st P h
    rw [List.foldl_cons]
    have h1 := inner_loop_inv data b1 (hL b1 (List.mem_cons_self b1 L)) st P h
    have h2 := ih (fun b hb => hL b (List.mem_cons_of_mem b1 hb)) _ _ h1
    refine searchInv_mono data _ _ ?_ _ h2
    rintro a b (h | ⟨ha, hb⟩)
    · exact Or.inl (Or.inl h)
    · rcases List.mem_cons.1 ha with e | e
      · exact Or.inl (Or.inr ⟨e, e ▸ hb.1, hb.2⟩)
      · exact Or.inr ⟨e, hb⟩

theorem pair_loops_inv (data : Nat) (hd : data < 2 ^ 32) :
    SearchInv data (fun a b => a ≤ b ∧ b < 32) (pair_loops data) := by
  unfold pair_loops
  have h0 : SearchInv data (fun _ _ => False) (Search.going (transpose_clone data) 0) :=
    ⟨transpose_clone_length data, by decide,
      fun k _ hk => transpose_clone_lane data hd k hk, fun k hk => by omega,
      fun _ _ h => h.elim⟩
  have h1 := outer_fold_inv data (List.range 32) (fun a ha => List.mem_range.1 ha) _ _ h0
  refine searchInv_mono data _ _ ?_ _ h1
  rintro a b ⟨hab, hb⟩
  exact Or.inr ⟨List.mem_range.2 (by omega), hab, hb⟩

theorem two_bit_some (data : Nat) (hd : data < 2 ^ 32) (d : Nat)
    (h : two_bit_search data = some d) :
    ∃ b1 b2, b1 < 32 ∧ b2 < 32 ∧ d = cand data b1 b2 ∧ pocsag_syndrome d = 0 := by
  have hinv := pair_loops_inv data hd
  unfold two_bit_search at h
  cases hp : pair_loops data with
  | found w =>
    rw [hp] at h hinv
    have : w = d := Option.some.inj h
    subst this
    exact hinv
  | going xp n =>
    rw [hp] at h hinv
    obtain ⟨h1, h2, h3, h4, _⟩ := hinv
    simp only at h
    by_cases hn : n > 0
    · rw [if_pos hn] at h
      obtain ⟨k, hk, hdk, hsyn⟩ := check_batch_some xp h1 d h
      by_cases e : k < n
      · obtain ⟨a, b, ha, hb, hab⟩ := h4 k e
        exact ⟨a, b, ha, hb, hdk.trans hab, hsyn⟩
      · refine ⟨0, 0, by decide, by decide, ?_, hsyn⟩
        rw [cand_self, hdk]
        exact h3 k (by omega) hk
    · rw [if_neg hn] at h
      exact Option.noConfusion h

theorem two_bit_none (data : Nat) (hd : data < 2 ^ 32) (h : two_bit_search data = none) :
    ∀ a b, a ≤ b → b < 32 → pocsag_syndrome (cand data a b) ≠ 0 := by
  have hinv := pair_loops_inv data hd
  unfold two_bit_search at h
  cases hp : pair_loops data with
  | found w =>
    rw [hp] at h
    exact Option.noConfusion h
  | going xp n =>
    rw [hp] at h hinv
    obtain ⟨h1, h2, h3, h4, h5⟩ := hinv
    simp only at h
    intro a b hab hb
    rcases h5 a b ⟨hab, hb⟩ with hnz | ⟨k, hk, hkc⟩
    · exact hnz
    · rw [if_pos (by omega)] at h
      have := check_batch_none xp h1 h k (by omega)
      rw [hkc] at this
      exact this

theorem repair_ok (cfg : Config) (rx : l2_state_pocsag) (d : Nat)
    (h : pocsag_syndrome d = 0) : pocsag_brute_repair cfg rx d = (0, rx, d) := by
  unfold pocsag_brute_repair
  rw [if_neg (by rw [h]; exact fun hh => hh rfl)]

theorem repair_off (cfg : Config) (rx : l2_state_pocsag) (d : Nat)
    (h : pocsag_syndrome d ≠ 0) (he : cfg.pocsag_error_correction = 0) :
    pocsag_brute_repair cfg rx d = (1, rx_failed cfg rx, d) := by
  unfold pocsag_brute_repair
  rw [if_pos h]
  simp only
  rw [if_pos he]
  rfl

theorem repair_cases (cfg : Config) (rx : l2_state_pocsag) (d : Nat) (hd : d < 2 ^ 32)
    (h : pocsag_syndrome d ≠ 0) (he : cfg.pocsag_error_correction ≠ 0) :
    (∃ n, n < 32 ∧ pocsag_syndrome (d ^^^ 2 ^ n) = 0 ∧
        pocsag_brute_repair cfg rx d = (0, rx_fixed1 cfg rx, d ^^^ 2 ^ n)) ∨
    ((∀ k, k < 32 → pocsag_syndrome (d ^^^ 2 ^ k) ≠ 0) ∧
      ((cfg.pocsag_error_correction = 1 ∧
          pocsag_brute_repair cfg rx d = (1, rx_failed cfg rx, d)) ∨
       (cfg.pocsag_error_correction ≠ 1 ∧
          ((∃ b1 b2, b1 < 32 ∧ b2 < 32 ∧ pocsag_syndrome (cand d b1 b2) = 0 ∧
              pocsag_brute_repair cfg rx d = (0, rx_fixed2 cfg rx, cand d b1 b2)) ∨
           ((∀ a b, a ≤ b → b < 32 → pocsag_syndrome (cand d a b) ≠ 0) ∧
              pocsag_brute_repair cfg rx d = (1, rx_failed cfg rx, d)))))) := by
  unfold pocsag_brute_repair
  rw [if_pos h]
  simp only
  rw [if_neg he]
  cases hf : find_lane (single_flips d) with
  | some n =>
    left
    obtain ⟨hn, hs⟩ := find_lane_some _ (single_flips_length d hd) n hf
    rw [single_flips_lane d hd n hn] at hs
    refine ⟨n, hn, hs, ?_⟩
    simp only
    rw [u32_one_shl n hn]
    rfl
  | none =>
    right
    have hnone := find_lane_none _ (single_flips_length d hd) hf
    refine ⟨fun k hk => ?_, ?_⟩
    · have := hnone k hk
      rw [single_flips_lane d hd k hk] at this
      exact this
    · simp only
      by_cases h1 : cfg.pocsag_error_correction = 1
      · left
        rw [if_pos h1]
        exact ⟨h1, rfl⟩
      · right
        rw [if_neg h1]
        refine ⟨h1, ?_⟩
        cases h2 : two_bit_search d with
        | some w =>
          left
          obtain ⟨b1, b2, hb1, hb2, hw, hs⟩ := two_bit_some d hd w h2
          subst hw
          exact ⟨b1, b2, hb1, hb2, hs, rfl⟩
        | none =>
          right
          exact ⟨two_bit_none d hd h2, rfl⟩

theorem distinct_from_spec (l : List Nat) : ∀ seen, distinct_from l seen = true →
    l.Nodup ∧ ∀ v, v ∈ l → seen.testBit v = false := by
  induction l with
  | nil => intro _ _; exact ⟨List.nodup_nil, fun v hv => absurd hv (List.not_mem_nil v)⟩
  | cons v vs ih =>
    intro seen h
    unfold distinct_from at h
    rw [Bool.and_eq_true, Bool.not_eq_true'] at h
    obtain ⟨h1, h2⟩ := h
    obtain ⟨hn, hm⟩ := ih _ h2
    have hm' : ∀ u, u ∈ vs → seen.testBit u = false ∧ u ≠ v := by
      intro u hu
      have := hm u hu
      rw [Nat.testBit_or, Bool.or_eq_false_iff, Nat.testBit_two_pow] at this
      exact ⟨this.1, fun e => by simp [e] at this⟩
    refine ⟨List.nodup_cons.2 ⟨fun hv => (hm' v hv).2 rfl, hn⟩, ?_⟩
    intro u hu
    rcases List.mem_cons.1 hu with e | e
    · rw [e]; exact h1
    · exact (hm' u e).1

theorem pair_syndromes_distinct :
    distinct_from (bit_pairs.map pair_syndrome) 1 = true := by decide!

theorem unit_syndrome_parity : ∀ i, i < 32 → (unit_syndrome i).testBit 10 = true := by decide!

theorem mem_bit_pairs (i j : Nat) : (i, j) ∈ bit_pairs ↔ i < j ∧ j < 32 := by
  unfold bit_pairs
  rw [List.mem_filter, List.pair_mem_product, List.mem_range, List.mem_range, decide_eq_true_iff]
  constructor
  · rintro ⟨⟨_, h2⟩, h3⟩; exact ⟨h3, h2⟩
  · rintro ⟨h1, h2⟩; exact ⟨⟨by omega, h2⟩, h1⟩

theorem pair_syndrome_inj (i j a b : Nat) (hij : i < j) (hj : j < 32) (hab : a < b)
    (hb : b < 32) (h : unit_syndrome i ^^^ unit_syndrome j = unit_syndrome a ^^^ unit_syndrome b) :
    i = a ∧ j = b := by
  have hn := (distinct_from_spec _ 1 pair_syndromes_distinct).1
  have := List.inj_on_of_nodup_map hn ((mem_bit_pairs i j).2 ⟨hij, hj⟩)
    ((mem_bit_pairs a b).2 ⟨hab, hb⟩) h
  exact ⟨congrArg Prod.fst this, congrArg Prod.snd this⟩

theorem pair_syndrome_ne_zero (i j : Nat) (hij : i < j) (hj : j < 32) :
    unit_syndrome i ^^^ unit_syndrome j ≠ 0 := by
  have hm := (distinct_from_spec _ 1 pair_syndromes_distinct).2
    (unit_syndrome i ^^^ unit_syndrome j)
    (List.mem_map.2 ⟨(i, j), (mem_bit_pairs i j).2 ⟨hij, hj⟩, rfl⟩)
  intro h
  rw [h] at hm
  exact Bool.noConfusion hm

theorem two_pow_lt_32 (i : Nat) (hi : i < 32) : 2 ^ i < 2 ^ 32 :=
  Nat.pow_lt_pow_right (by decide) hi

theorem flip_lt (x i : Nat) (hx : x < 2 ^ 32) (hi : i < 32) : x ^^^ 2 ^ i < 2 ^ 32 :=
  Nat.xor_lt_two_pow hx (two_pow_lt_32 i hi)

theorem syndrome_flip (x i : Nat) (hx : x < 2 ^ 32) (hi : i < 32) :
    pocsag_syndrome (x ^^^ 2 ^ i) = pocsag_syndrome x ^^^ unit_syndrome i :=
  syndrome_xor x (2 ^ i) hx (two_pow_lt_32 i hi)

theorem unit_pair_eq_zero (i j : Nat) (hi : i < 32) (hj : j < 32)
    (h : unit_syndrome i ^^^ unit_syndrome j = 0) : i = j := by
  rcases Nat.lt_trichotomy i j with h1 | h1 | h1
  · exact absurd h (pair_syndrome_ne_zero i j h1 hj)
  · exact h1
  · rw [Nat.xor_comm] at h
    exact absurd h (pair_syndrome_ne_zero j i h1 hi)

theorem xor_eq_zero_iff (a b : Nat) : a ^^^ b = 0 ↔ a = b := by
  constructor
  · intro h
    have : a ^^^ b ^^^ b = 0 ^^^ b := by rw [h]
    rw [Nat.xor_assoc, Nat.xor_self, Nat.xor_zero, Nat.zero_xor] at this
    exact this
  · intro h; rw [h, Nat.xor_self]

theorem four_units_zero (i j a b : Nat) (hij : i < j) (hj : j < 32) (ha : a < 32) (hb : b < 32)
    (h : unit_syndrome i ^^^ unit_syndrome j ^^^ unit_syndrome a ^^^ unit_syndrome b = 0) :
    (a = i ∧ b = j) ∨ (a = j ∧ b = i) := by
  rw [Nat.xor_assoc _ (unit_syndrome a), xor_eq_zero_iff] at h
  rcases Nat.lt_trichotomy a b with h1 | h1 | h1
  · have := pair_syndrome_inj i j a b hij hj h1 hb h
    exact Or.inl ⟨this.1.symm, this.2.symm⟩
  · subst h1
    rw [Nat.xor_self] at h
    exact absurd h (pair_syndrome_ne_zero i j hij hj)
  · rw [Nat.xor_comm (unit_syndrome a)] at h
    have := pair_syndrome_inj i j b a hij hj h1 ha h
    exact Or.inr ⟨this.2.symm, this.1.symm⟩

theorem three_units_ne_zero (i j k : Nat) (hi : i < 32) (hj : j < 32) (hk : k < 32) :
    unit_syndrome i ^^^ unit_syndrome j ^^^ unit_syndrome k ≠ 0 := by
  intro h
  have : (unit_syndrome i ^^^ unit_syndrome j ^^^ unit_syndrome k).testBit 10 = true := by
    rw [Nat.testBit_xor, Nat.testBit_xor, unit_syndrome_parity i hi, unit_syndrome_parity j hj,
      unit_syndrome_parity k hk]
    rfl
  rw [h] at this
  exact Bool.noConfusion this

theorem unit_syndrome_ne_zero (i : Nat) (hi : i < 32) : unit_syndrome i ≠ 0 := by
  intro h
  have := unit_syndrome_parity i hi
  rw [h] at this
  exact Bool.noConfusion this

theorem mem_diff_bits (w c k : Nat) :
    k ∈ (List.range 32).filter (fun i => w.testBit i != c.testBit i) ↔
      k < 32 ∧ w.testBit k ≠ c.testBit k := by
  rw [List.mem_filter, List.mem_range, bne_iff_ne]

theorem eq_xor_of_diff (w c e : Nat) (hw : w < 2 ^ 32) (hc : c < 2 ^ 32)
    (h : ∀ k, e.testBit k = true ↔ (k < 32 ∧ w.testBit k ≠ c.testBit k)) : w = c ^^^ e := by
  apply Nat.eq_of_testBit_eq
  intro k
  rw [Nat.testBit_xor]
  by_cases hk : k < 32
  · by_cases hd : w.testBit k = c.testBit k
    · have : e.testBit k = false := by
        rw [← Bool.not_eq_true]
        intro he
        exact ((h k).1 he).2 hd
      rw [this, Bool.xor_false, hd]
    · have : e.testBit k = true := (h k).2 ⟨hk, hd⟩
      rw [this, Bool.xor_true]
      cases hwk : w.testBit k <;> cases hck : c.testBit k <;> simp_all
  · have : e.testBit k = false := by
      rw [← Bool.not_eq_true]
      intro he
      exact hk ((h k).1 he).1
    rw [this, Bool.xor_false, testBit_of_lt hw (by omega), testBit_of_lt hc (by omega)]

theorem hamming_cases (w c : Nat) (hw : w < 2 ^ 32) (hc : c < 2 ^ 32) (h : hamming32 w c ≤ 2) :
    w = c ∨ (∃ i, i < 32 ∧ w = c ^^^ 2 ^ i) ∨
      (∃ i j, i < j ∧ j < 32 ∧ w = c ^^^ 2 ^ i ^^^ 2 ^ j) := by
  unfold hamming32 at h
  have hmem := mem_diff_bits w c
  have hpw : ((List.range 32).filter (fun i => w.testBit i != c.testBit i)).Pairwise (· < ·) :=
    (List.pairwise_lt_range 32).filter _
  generalize (List.range 32).filter (fun i => w.testBit i != c.testBit i) = L at h hmem hpw
  match L, h, hmem, hpw with
  | [], _, hmem, _ =>
    left
    have := eq_xor_of_diff w c 0 hw hc (fun k => by
      rw [Nat.zero_testBit, ← hmem k]
      simp)
    rw [Nat.xor_zero] at this
    exact this
  | [i], _, hmem, _ =>
    right; left
    have hi : i < 32 := ((hmem i).1 (List.mem_singleton.2 rfl)).1
    refine ⟨i, hi, eq_xor_of_diff w c (2 ^ i) hw hc (fun k => ?_)⟩
    rw [Nat.testBit_two_pow, ← hmem k, List.mem_singleton, decide_eq_true_iff]
    exact eq_comm
  | [i, j], _, hmem, hpw =>
    right; right
    have hij : i < j := by
      rw [List.pairwise_cons] at hpw
      exact hpw.1 j (List.mem_singleton.2 rfl)
    have hj : j < 32 := ((hmem j).1 (by simp)).1
    refine ⟨i, j, hij, hj, ?_⟩
    rw [Nat.xor_assoc]
    refine eq_xor_of_diff w c (2 ^ i ^^^ 2 ^ j) hw hc (fun k => ?_)
    rw [Nat.testBit_xor, Nat.testBit_two_pow, Nat.testBit_two_pow, ← hmem k]
    by_cases e1 : i = k
    · have : ¬ j = k := by omega
      simp [e1, this]
    · by_cases e2 : j = k
      · simp [e1, e2]
      · have h1 : ¬ k = i := fun h => e1 h.symm
        have h2 : ¬ k = j := fun h => e2 h.symm
        simp [e1, e2, h1, h2]
  | _ :: _ :: _ :: _, h, _, _ =>
    simp only [List.length_cons] at h
    omega

theorem hamming_xor_le (w e : Nat) (S : List Nat)
    (h : ∀ k, k < 32 → e.testBit k = true → k ∈ S) : hamming32 (w ^^^ e) w ≤ S.length := by
  unfold hamming32
  have hnd : ((List.range 32).filter (fun i => (w ^^^ e).testBit i != w.testBit i)).Nodup :=
    (List.nodup_range 32).filter _
  have hsub : (List.range 32).filter (fun i => (w ^^^ e).testBit i != w.testBit i) ⊆ S := by
    intro k hk
    rw [mem_diff_bits, Nat.testBit_xor] at hk
    apply h k hk.1
    cases hwk : w.testBit k <;> cases hek : e.testBit k <;> simp_all
  exact (List.subperm_of_subset hnd hsub).length_le

theorem hamming_self (w : Nat) : hamming32 w w = 0 := by
  have := hamming_xor_le w 0 [] (fun k _ hk => by simp at hk)
  rw [Nat.xor_zero] at this
  exact Nat.le_zero.1 this

theorem hamming_flip1 (w n : Nat) : hamming32 (w ^^^ 2 ^ n) w ≤ 1 :=
  hamming_xor_le w (2 ^ n) [n] (fun k _ hk => by
    rw [Nat.testBit_two_pow, decide_eq_true_iff] at hk
    rw [hk]; exact List.mem_singleton.2 rfl)

theorem hamming_cand (w a b : Nat) : hamming32 (cand w a b) w ≤ 2 := by
  unfold cand
  rw [Nat.xor_assoc]
  refine hamming_xor_le w (2 ^ a ^^^ 2 ^ b) [a, b] (fun k _ hk => ?_)
  rw [Nat.testBit_xor, Nat.testBit_two_pow, Nat.testBit_two_pow] at hk
  by_cases e1 : a = k
  · simp [e1]
  · by_cases e2 : b = k
    · simp [e2]
    · simp [e1, e2] at hk

theorem xor_flip_cancel (c i : Nat) : c ^^^ 2 ^ i ^^^ 2 ^ i = c := by
  rw [Nat.xor_assoc, Nat.xor_self, Nat.xor_zero]

theorem cand_cancel (c i j : Nat) : cand (c ^^^ 2 ^ i ^^^ 2 ^ j) i j = c := by
  unfold cand
  apply Nat.eq_of_testBit_eq
  intro k
  simp only [Nat.testBit_xor]
  cases c.testBit k <;> cases (2 ^ i).testBit k <;> cases (2 ^ j).testBit k <;> rfl

theorem cand_cancel_swap (c i j : Nat) : cand (c ^^^ 2 ^ i ^^^ 2 ^ j) j i = c := by
  unfold cand
  rw [xor_flip_cancel, xor_flip_cancel]

theorem alpha_fill_some (buffer : List Nat) (fuel : Nat) (st : AlphaState) (hf : 2 ≤ fuel) :
    ∃ st2, alpha_fill buffer fuel st = some st2 ∧
      8 * st2.len + st2.datalen ≤ 8 * st.len + st.datalen ∧
      (st2.datalen < 7 → st2.len = 0) ∧ st2.workbuf = st.workbuf := by
  obtain ⟨f, rfl⟩ : ∃ f, fuel = f + 2 := ⟨fuel - 2, by omega⟩
  unfold alpha_fill
  by_cases hc : st.datalen < 7 ∧ st.len > 0
  · rw [if_pos hc]
    by_cases h1 : st.len = 1
    · rw [if_pos h1]
      unfold alpha_fill
      rw [if_neg (by simp)]
      exact ⟨_, rfl, by simp only; omega, fun _ => rfl, rfl⟩
    · rw [if_neg h1]
      unfold alpha_fill
      rw [if_neg (by simp only; omega)]
      exact ⟨_, rfl, by simp only; omega, fun h => by simp only at h; omega, rfl⟩
  · rw [if_neg hc]
    exact ⟨st, rfl, Nat.le_refl _, fun h => by omega, rfl⟩

theorem alpha_extract_some (buffer : List Nat) (wblen : Nat) (fuel : Nat) :
    ∀ st : AlphaState, 8 * st.len + st.datalen < fuel →
      ∃ st2, alpha_extract buffer wblen fuel st = some st2 := by
  induction fuel with
  | zero => intro st h; omega
  | succ fuel ih =>
    intro st h
    unfold alpha_extract
    by_cases hl : st.len > 0
    · rw [if_pos hl]
      obtain ⟨st1, h1, hm, hz, _⟩ := alpha_fill_some buffer (st.len + 1) st (by omega)
      rw [h1]
      simp only
      by_cases hd : st1.datalen < 7
      · rw [if_pos hd]
        have hl1 := hz hd
        obtain ⟨f, rfl⟩ : ∃ f, fuel = f + 1 := ⟨fuel - 1, by omega⟩
        unfold alpha_extract
        rw [if_neg (by omega)]
        exact ⟨st1, rfl⟩
      · rw [if_neg hd]
        exact ih _ (by simp only; omega)
    · rw [if_neg hl]
      exact ⟨st, rfl⟩

/-- The extraction loop of `prepare_msg_alpha` always finishes within the
bound given to it, so `prepare_msg_alpha` always produces a string. -/
theorem prepare_msg_alpha_total (trtab : List String) (buffer : List Nat) (n size : Nat) :
    ∃ out, prepare_msg_alpha trtab buffer n size = some out := by
  unfold prepare_msg_alpha alpha_chars
  obtain ⟨st2, h⟩ := alpha_extract_some buffer 8192 (8 * n + 1)
    { data := 0, datalen := 0, bp := 0, len := n, workbuf := [] } (by simp only; omega)
  rw [h]
  exact ⟨_, rfl⟩

theorem syndrome_flip_code (c i : Nat) (hc : c < 2 ^ 32) (hs : pocsag_syndrome c = 0)
    (hi : i < 32) : pocsag_syndrome (c ^^^ 2 ^ i) = unit_syndrome i := by
  rw [syndrome_flip c i hc hi, hs, Nat.zero_xor]

theorem syndrome_cand (w a b : Nat) (hw : w < 2 ^ 32) (ha : a < 32) (hb : b < 32) :
    pocsag_syndrome (cand w a b) = pocsag_syndrome w ^^^ unit_syndrome a ^^^ unit_syndrome b := by
  unfold cand
  rw [syndrome_flip _ b (flip_lt w a hw ha) hb, syndrome_flip w a hw ha]

/-- C1: with `error_correction = 2`, a word that differs in at most two of
its 32 bit positions from a word of syndrome zero is repaired to that word,
and the function returns 0. -/
theorem brute_repair_corrects_two_errors (cfg : Config) (rx : l2_state_pocsag) (c w : Nat)
    (he : cfg.pocsag_error_correction = 2) (hc : c < 2 ^ 32) (hw : w < 2 ^ 32)
    (hs : pocsag_syndrome c = 0) (hd : hamming32 w c ≤ 2) :
    (pocsag_brute_repair cfg rx w).1 = 0 ∧ (pocsag_brute_repair cfg rx w).2.2 = c := by
  have he0 : cfg.pocsag_error_correction ≠ 0 := by rw [he]; decide
  have he1 : cfg.pocsag_error_correction ≠ 1 := by rw [he]; decide
  rcases hamming_cases w c hw hc hd with h0 | ⟨i, hi, h1⟩ | ⟨i, j, hij, hj, h2⟩
  · subst h0
    rw [repair_ok cfg rx w hs]
    exact ⟨rfl, rfl⟩
  · subst h1
    have hsw : pocsag_syndrome (c ^^^ 2 ^ i) ≠ 0 := by
      rw [syndrome_flip_code c i hc hs hi]
      exact unit_syndrome_ne_zero i hi
    rcases repair_cases cfg rx _ hw hsw he0 with ⟨n, hn, hz, hr⟩ | ⟨hall, _⟩
    · rw [syndrome_flip _ n hw hn, syndrome_flip_code c i hc hs hi] at hz
      have hin := unit_pair_eq_zero i n hi hn hz
      subst hin
      rw [hr]
      exact ⟨rfl, xor_flip_cancel c i⟩
    · exact absurd (by rw [xor_flip_cancel]; exact hs) (hall i hi)
  · subst h2
    have hi : i < 32 := by omega
    have hsyn : pocsag_syndrome (c ^^^ 2 ^ i ^^^ 2 ^ j) = unit_syndrome i ^^^ unit_syndrome j := by
      rw [syndrome_flip _ j (flip_lt c i hc hi) hj, syndrome_flip_code c i hc hs hi]
    have hsw : pocsag_syndrome (c ^^^ 2 ^ i ^^^ 2 ^ j) ≠ 0 := by
      rw [hsyn]
      exact pair_syndrome_ne_zero i j hij hj
    rcases repair_cases cfg rx _ hw hsw he0 with ⟨n, hn, hz, _⟩ | ⟨_, hB⟩
    · rw [syndrome_flip _ n hw hn, hsyn] at hz
      exact absurd hz (three_units_ne_zero i j n hi hj hn)
    · rcases hB with ⟨h1, _⟩ | ⟨_, ⟨b1, b2, hb1, hb2, hz, hr⟩ | ⟨hnz, _⟩⟩
      · exact absurd h1 he1
      · rw [syndrome_cand _ b1 b2 hw hb1 hb2, hsyn] at hz
        rw [hr]
        rcases four_units_zero i j b1 b2 hij hj hb1 hb2 hz with ⟨e1, e2⟩ | ⟨e1, e2⟩
        · subst e1; subst e2
          exact ⟨rfl, cand_cancel c b1 b2⟩
        · subst e1; subst e2
          exact ⟨rfl, cand_cancel_swap c b2 b1⟩
      · exact absurd (by rw [cand_cancel]; exact hs) (hnz i j (Nat.le_of_lt hij) hj)

theorem brute_repair_corrects_two_errors_witness :
    (pocsag_brute_repair (default_config 512 32) (pocsag_init (default_config 512 32))
        0xfa89c196).1 = 0 ∧
    (pocsag_brute_repair (default_config 512 32) (pocsag_init (default_config 512 32))
        0xfa89c196).2.2 = 0x7a89c197 :=
  brute_repair_corrects_two_errors (default_config 512 32) (pocsag_init (default_config 512 32))
    0x7a89c197 0xfa89c196 rfl (by decide) (by decide) (by decide) (by decide)

/-- C2: on a word of syndrome zero, whatever the error-correction setting,
`pocsag_brute_repair` returns 0 and leaves the word and the whole receiver
state, all error counters included, unchanged. -/
theorem brute_repair_valid_word_unchanged (cfg : Config) (rx : l2_state_pocsag) (c : Nat)
    (hs : pocsag_syndrome c = 0) : pocsag_brute_repair cfg rx c = (0, rx, c) :=
  repair_ok cfg rx c hs

theorem brute_repair_valid_word_unchanged_witness :
    pocsag_brute_repair (default_config 512 32) (pocsag_init (default_config 512 32)) 0x7cd215d8
      = (0, pocsag_init (default_config 512 32), 0x7cd215d8) :=
  brute_repair_valid_word_unchanged _ _ 0x7cd215d8 (by decide)

/-- C3: for an error-correction setting `e` in 0..2, the word left by
`pocsag_brute_repair` differs from the input in at most `e` bit positions;
the result is 0 or 1, it is 0 exactly when the word left has syndrome zero,
and when it is 1 the word is unchanged; with `e = 0` a word of non-zero
syndrome is returned unchanged with result 1. -/
theorem brute_repair_changes_at_most_e_bits (cfg : Config) (rx : l2_state_pocsag) (w e : Nat)
    (hw : w < 2 ^ 32) (he : e ≤ 2) (hcfg : cfg.pocsag_error_correction = (e : Int)) :
    hamming32 (pocsag_brute_repair cfg rx w).2.2 w ≤ e ∧
    ((pocsag_brute_repair cfg rx w).1 = 0 ∨ (pocsag_brute_repair cfg rx w).1 = 1) ∧
    ((pocsag_brute_repair cfg rx w).1 = 0 ↔
      pocsag_syndrome (pocsag_brute_repair cfg rx w).2.2 = 0) ∧
    ((pocsag_brute_repair cfg rx w).1 = 1 → (pocsag_brute_repair cfg rx w).2.2 = w) ∧
    (e = 0 → pocsag_syndrome w ≠ 0 →
      (pocsag_brute_repair cfg rx w).1 = 1 ∧ (pocsag_brute_repair cfg rx w).2.2 = w) := by
  by_cases hs : pocsag_syndrome w = 0
  · rw [repair_ok cfg rx w hs]
    refine ⟨?_, Or.inl rfl, ⟨fun _ => hs, fun _ => rfl⟩, fun _ => rfl, fun _ h => absurd hs h⟩
    show hamming32 w w ≤ e
    rw [hamming_self]
    exact Nat.zero_le e
  · by_cases he0 : cfg.pocsag_error_correction = 0
    · rw [repair_off cfg rx w hs he0]
      refine ⟨?_, Or.inr rfl, ⟨fun h => absurd h Nat.one_ne_zero, fun h => absurd h hs⟩,
        fun _ => rfl, fun _ _ => ⟨rfl, rfl⟩⟩
      show hamming32 w w ≤ e
      rw [hamming_self]
      exact Nat.zero_le e
    · have hepos : 1 ≤ e := by
        rcases Nat.eq_zero_or_pos e with h | h
        · rw [h] at hcfg; exact absurd hcfg he0
        · exact h
      have hne : ¬ e = 0 := by omega
      rcases repair_cases cfg rx w hw hs he0 with ⟨n, hn, hz, hr⟩ | ⟨_, hB⟩
      · rw [hr]
        refine ⟨Nat.le_trans (hamming_flip1 w n) hepos, Or.inl rfl, ⟨fun _ => hz, fun _ => rfl⟩,
          fun h => absurd h Nat.zero_ne_one, fun h => absurd h hne⟩
      · rcases hB with ⟨_, hr⟩ | ⟨h1, ⟨b1, b2, hb1, hb2, hz, hr⟩ | ⟨_, hr⟩⟩
        · rw [hr]
          refine ⟨?_, Or.inr rfl, ⟨fun h => absurd h Nat.one_ne_zero, fun h => absurd h hs⟩,
            fun _ => rfl, fun _ _ => ⟨rfl, rfl⟩⟩
          show hamming32 w w ≤ e
          rw [hamming_self]
          exact Nat.zero_le e
        · have he2 : e = 2 := by
            rcases Nat.lt_or_ge e 2 with h | h
            · have : e = 1 := by omega
              rw [this] at hcfg
              exact absurd hcfg h1
            · omega
          rw [hr]
          refine ⟨by rw [he2]; exact hamming_cand w b1 b2, Or.inl rfl,
            ⟨fun _ => hz, fun _ => rfl⟩, fun h => absurd h Nat.zero_ne_one, fun h => absurd h hne⟩
        · rw [hr]
          refine ⟨?_, Or.inr rfl, ⟨fun h => absurd h Nat.one_ne_zero, fun h => absurd h hs⟩,
            fun _ => rfl, fun _ _ => ⟨rfl, rfl⟩⟩
          show hamming32 w w ≤ e
          rw [hamming_self]
          exact Nat.zero_le e

theorem brute_repair_changes_at_most_e_bits_witness :
    hamming32 (pocsag_brute_repair (default_config 512 32)
      (pocsag_init (default_config 512 32)) 0xfa89c196).2.2 0xfa89c196 ≤ 2 ∧
    ((pocsag_brute_repair (default_config 512 32)
      (pocsag_init (default_config 512 32)) 0xfa89c196).1 = 0 ∨
     (pocsag_brute_repair (default_config 512 32)
      (pocsag_init (default_config 512 32)) 0xfa89c196).1 = 1) ∧
    ((pocsag_brute_repair (default_config 512 32)
      (pocsag_init (default_config 512 32)) 0xfa89c196).1 = 0 ↔
      pocsag_syndrome (pocsag_brute_repair (default_config 512 32)
        (pocsag_init (default_config 512 32)) 0xfa89c196).2.2 = 0) ∧
    ((pocsag_brute_repair (default_config 512 32)
      (pocsag_init (default_config 512 32)) 0xfa89c196).1 = 1 →
      (pocsag_brute_repair (default_config 512 32)
        (pocsag_init (default_config 512 32)) 0xfa89c196).2.2 = 0xfa89c196) ∧
    (2 = 0 → pocsag_syndrome 0xfa89c196 ≠ 0 →
      (pocsag_brute_repair (default_config 512 32)
        (pocsag_init (default_config 512 32)) 0xfa89c196).1 = 1 ∧
      (pocsag_brute_repair (default_config 512 32)
        (pocsag_init (default_config 512 32)) 0xfa89c196).2.2 = 0xfa89c196) :=
  brute_repair_changes_at_most_e_bits (default_config 512 32)
    (pocsag_init (default_config 512 32)) 0xfa89c196 2 (by decide) (by decide) rfl

theorem numeric_loop_eq (buffer : List Nat) (len : Nat) : ∀ bp,
    numeric_loop buffer len bp =
      (List.range' (2 * bp) len).map fun i => conv_table.getD (nibble_at buffer i) ' ' := by
  induction len using Nat.strong_induction_on with
  | _ len ih =>
    intro bp
    match len with
    | 0 => rfl
    | 1 =>
      have h1 : nibble_at buffer (2 * bp) = (byte_at buffer bp >>> 4) &&& 0xf := by
        unfold nibble_at
        rw [if_pos (by omega), show 2 * bp / 2 = bp by omega]
      simp only [numeric_loop, List.range', List.map, h1]
    | len + 2 =>
      have h1 : nibble_at buffer (2 * bp) = (byte_at buffer bp >>> 4) &&& 0xf := by
        unfold nibble_at
        rw [if_pos (by omega), show 2 * bp / 2 = bp by omega]
      have h2 : nibble_at buffer (2 * bp + 1) = byte_at buffer bp &&& 0xf := by
        unfold nibble_at
        rw [if_neg (by omega), show (2 * bp + 1) / 2 = bp by omega]
      simp only [numeric_loop, List.range', List.map, h1, h2, ih len (by omega) (bp + 1)]
      rw [show 2 * (bp + 1) = 2 * bp + 1 + 1 by omega]

/-- C8: for `num_nibbles = n` smaller than the output size,
`prepare_msg_numeric` produces exactly `n` characters, the `i`-th being the
entry of the table "084 2.6]195-3U7[" selected by the `i`-th nibble of the
buffer (high nibble of `buffer[0]` first). -/
theorem prepare_msg_numeric_spec (buffer : List Nat) (n size : Nat) (h : n < size) :
    prepare_msg_numeric buffer n size =
      (List.range n).map (fun i => conv_table.getD (nibble_at buffer i) ' ') ∧
    (prepare_msg_numeric buffer n size).length = n := by
  have e : prepare_msg_numeric buffer n size =
      (List.range n).map (fun i => conv_table.getD (nibble_at buffer i) ' ') := by
    unfold prepare_msg_numeric
    simp only
    rw [if_neg (by omega), numeric_loop_eq, List.range_eq_range']
  refine ⟨e, ?_⟩
  rw [e, List.length_map, List.length_range]

theorem prepare_msg_numeric_spec_witness :
    prepare_msg_numeric [0x12, 0x34, 0x50] 5 1024 = "84 2.".toList ∧
    (prepare_msg_numeric [0x12, 0x34, 0x50] 5 1024).length = 5 :=
  prepare_msg_numeric_spec [0x12, 0x34, 0x50] 5 1024 (by decide)

theorem u32_sub (s k : Nat) (hk : k ≤ s) (hs : s < 2 ^ 32) (hk2 : k ≤ 2 ^ 32) :
    u32 (s + 2 ^ 32 - k) = s - k := by
  unfold u32
  rw [show s + 2 ^ 32 - k = (s - k) + 2 ^ 32 by omega, Nat.add_mod_right]
  exact Nat.mod_eq_of_lt (by omega)

theorem binary_loop_eq (buffer : List Nat) (rest : Nat) : ∀ k size, size < 2 ^ 32 →
    3 * ((rest + 1) / 2) ≤ size →
    binary_loop buffer rest (2 * k) size =
      (if 0 < k ∧ 0 < rest then [','] else []) ++
        hex_csv ((List.range' k ((rest + 1) / 2)).map (byte_at buffer)) := by
  induction rest using Nat.strong_induction_on with
  | _ rest ih =>
    intro k size hs hsz
    match rest with
    | 0 => simp [binary_loop, hex_csv]
    | 1 =>
      have hne : size ≠ 0 := by omega
      simp only [binary_loop, if_pos hne, binary_body, show 2 * k / 2 = k by omega]
      by_cases hk : 0 < k
      · simp [hk, hex_csv]
      · have : k = 0 := by omega
        subst this
        simp [hex_csv]
    | rest + 2 =>
      have hne : size ≠ 0 := by omega
      have hdiv : (rest + 2 + 1) / 2 = (rest + 1) / 2 + 1 := by omega
      rw [hdiv] at hsz ⊢
      simp only [binary_loop, if_pos hne, binary_body, show 2 * k / 2 = k by omega]
      have hsize : u32 ((if 2 * k > 0 then u32 (size + 2 ^ 32 - 1) else size) + 2 ^ 32 - 2)
          = (if 0 < k then size - 3 else size - 2) := by
        by_cases hk : 0 < k
        · rw [if_pos (by omega), if_pos hk, u32_sub size 1 (by omega) hs (by decide),
            u32_sub (size - 1) 2 (by omega) (by omega) (by decide)]
          omega
        · rw [if_neg (by omega), if_neg hk, u32_sub size 2 (by omega) hs (by decide)]
      rw [hsize, show 2 * k + 2 = 2 * (k + 1) by omega,
        ih rest (by omega) (k + 1) _ (by split <;> omega) (by split <;> omega)]
      rw [List.range'_succ, List.map_cons]
      by_cases hr : 0 < rest
      · have hpos : 0 < (rest + 1) / 2 := by omega
        obtain ⟨m, hm⟩ : ∃ m, (rest + 1) / 2 = m + 1 := ⟨(rest + 1) / 2 - 1, by omega⟩
        rw [hm, List.range'_succ, List.map_cons]
        by_cases hk : 0 < k
        · simp [hk, hr, hex_csv]
        · have : k = 0 := by omega
          subst this
          simp [hr, hex_csv]
      · have : rest = 0 := by omega
        subst this
        by_cases hk : 0 < k
        · simp [hk, hex_csv]
        · have : k = 0 := by omega
          subst this
          simp [hex_csv]

/-- C9, as the code has it: with an output of at least `3 * ceil(n/2)` bytes,
`prepare_msg_binary` renders the `ceil(n/2)` bytes
`buffer[0 .. ceil(n/2)-1]` as comma-separated two-digit hexadecimal: one byte
for every started pair of nibbles, so a trailing odd nibble is printed
together with the low nibble stored beside it. -/
theorem prepare_msg_binary_spec (buffer : List Nat) (n size : Nat) (hs : size < 2 ^ 32)
    (h : 3 * ((n + 1) / 2) ≤ size) :
    prepare_msg_binary buffer n size =
      hex_csv ((List.range ((n + 1) / 2)).map (byte_at buffer)) := by
  unfold prepare_msg_binary
  have := binary_loop_eq buffer n 0 size hs h
  rw [show 2 * 0 = 0 from rfl, if_neg (by omega), List.nil_append] at this
  rw [this, List.range_eq_range']

theorem prepare_msg_binary_spec_witness :
    prepare_msg_binary [0xde, 0xad, 0xb0] 5 1024 =
      hex_csv ((List.range ((5 + 1) / 2)).map (byte_at [0xde, 0xad, 0xb0])) :=
  prepare_msg_binary_spec [0xde, 0xad, 0xb0] 5 1024 (by decide) (by decide)

/-- C9, counterexample: five nibbles are rendered as three bytes, not as the
`floor(5/2) = 2` bytes of the claim. -/
theorem prepare_msg_binary_keeps_odd_nibble :
    prepare_msg_binary [0xde, 0xad, 0xb0] 5 1024 = "de,ad,b0".toList ∧
    ¬ prepare_msg_binary [0xde, 0xad, 0xb0] 5 1024 =
        hex_csv ((List.range (5 / 2)).map (byte_at [0xde, 0xad, 0xb0])) := by
  decide

theorem and_15 (x : Nat) : x &&& 0xf = x % 16 := Nat.and_pow_two_sub_one_eq_mod x 4

theorem and_fffff (x : Nat) : x &&& 0xFFFFF = x % 2 ^ 20 := Nat.and_pow_two_sub_one_eq_mod x 20

theorem and_1 (x : Nat) : x &&& 1 = x % 2 := Nat.and_pow_two_sub_one_eq_mod x 1

theorem keep_high_nibble : ∀ old, old < 256 → ∀ v, v < 16 →
    (old &&& 0xf0) ||| v = old / 16 * 16 + v := by decide!

theorem nibble_even (buf : List Nat) (j : Nat) :
    nibble_at buf (2 * j) = rd buf j % 256 / 16 % 16 := by
  unfold nibble_at byte_at u8
  rw [if_pos (by omega), show 2 * j / 2 = j by omega, and_15, Nat.shiftRight_eq_div_pow]

theorem nibble_odd (buf : List Nat) (j : Nat) :
    nibble_at buf (2 * j + 1) = rd buf j % 256 % 16 := by
  unfold nibble_at byte_at u8
  rw [if_neg (by omega), show (2 * j + 1) / 2 = j by omega, and_15]

theorem rd_wr3 (buf : List Nat) (m a b c j : Nat) (h : m + 2 < buf.length) :
    rd (wr (wr (wr buf m a) (m + 1) b) (m + 2) c) j =
      if j = m then a else if j = m + 1 then b else if j = m + 2 then c else rd buf j := by
  rw [rd_wr, rd_wr, rd_wr, length_wr, length_wr]
  by_cases h2 : j = m + 2
  · rw [if_pos ⟨h2.symm, h⟩, if_neg (by omega), if_neg (by omega), if_pos h2]
  · rw [if_neg (fun hh => h2 hh.1.symm)]
    by_cases h1 : j = m + 1
    · rw [if_pos ⟨h1.symm, by omega⟩, if_neg (by omega), if_pos h1]
    · rw [if_neg (fun hh => h1 hh.1.symm)]
      by_cases h0 : j = m
      · rw [if_pos ⟨h0.symm, by omega⟩, if_pos h0]
      · rw [if_neg (fun hh => h0 hh.1.symm), if_neg h0, if_neg h1, if_neg h2]

/-- C5: below the flush threshold, for even and for odd `num_nibbles = n`,
storing a word puts the five nibbles of its 20 data bits, most significant
first, into nibbles `n .. n+4` of the buffer, leaves nibbles `0 .. n-1` as
they were, and sets `num_nibbles` to `n + 5`. -/
theorem handleNextWord_appends (buffer : List Nat) (n word : Nat) (hB : 3 ≤ buffer.length)
    (hn : n ≤ 2 * buffer.length - 5) :
    (handleNextWord buffer n word).2 = n + 5 ∧
    (handleNextWord buffer n word).1.length = buffer.length ∧
    (∀ i, i < 5 → nibble_at (handleNextWord buffer n word).1 (n + i) =
      ((((word >>> 11) &&& 0xFFFFF) >>> (4 * (4 - i))) &&& 0xf)) ∧
    (∀ i, i < n → nibble_at (handleNextWord buffer n word).1 i = nibble_at buffer i) := by
  have hpow : (2 : Nat) ^ 20 = 1048576 := by decide
  rcases Nat.even_or_odd' n with ⟨m, hm | hm⟩
  · -- even
    subst hm
    have hc : ¬ (2 * m &&& 1 ≠ 0) := by rw [and_1]; omega
    have hlen : m + 2 < buffer.length := by omega
    unfold handleNextWord
    simp only
    rw [if_neg hc, show (2 * m) >>> 1 = m by rw [Nat.shiftRight_eq_div_pow]; omega]
    refine ⟨rfl, by simp only [length_wr], ?_, ?_⟩
    · intro i hi
      simp only [and_15, and_fffff, Nat.shiftRight_eq_div_pow, hpow]
      interval_cases i
      · rw [show 2 * m + 0 = 2 * m by omega, nibble_even, rd_wr3 _ _ _ _ _ _ hlen, if_pos rfl]
        simp only [u8, Nat.shiftRight_eq_div_pow]
        omega
      · rw [nibble_odd, rd_wr3 _ _ _ _ _ _ hlen, if_pos rfl]
        simp only [u8, Nat.shiftRight_eq_div_pow]
        omega
      · rw [show 2 * m + 2 = 2 * (m + 1) by omega, nibble_even, rd_wr3 _ _ _ _ _ _ hlen,
          if_neg (by omega), if_pos rfl]
        simp only [u8, Nat.shiftRight_eq_div_pow]
        omega
      · rw [show 2 * m + 3 = 2 * (m + 1) + 1 by omega, nibble_odd, rd_wr3 _ _ _ _ _ _ hlen,
          if_neg (by omega), if_pos rfl]
        simp only [u8, Nat.shiftRight_eq_div_pow]
        omega
      · rw [show 2 * m + 4 = 2 * (m + 2) by omega, nibble_even, rd_wr3 _ _ _ _ _ _ hlen,
          if_neg (by omega), if_neg (by omega), if_pos rfl]
        simp only [u8, Nat.shiftRight_eq_div_pow, Nat.shiftLeft_eq]
        omega
    · intro i hi
      rcases Nat.even_or_odd' i with ⟨j, hj | hj⟩
      · subst hj
        rw [nibble_even, nibble_even, rd_wr3 _ _ _ _ _ _ hlen, if_neg (by omega),
          if_neg (by omega), if_neg (by omega)]
      · subst hj
        rw [nibble_odd, nibble_odd, rd_wr3 _ _ _ _ _ _ hlen, if_neg (by omega),
          if_neg (by omega), if_neg (by omega)]
  · -- odd
    subst hm
    have hc : (2 * m + 1) &&& 1 ≠ 0 := by rw [and_1]; omega
    have hlen : m + 2 < buffer.length := by omega
    unfold handleNextWord
    simp only
    rw [if_pos hc, show (2 * m + 1) >>> 1 = m by rw [Nat.shiftRight_eq_div_pow]; omega]
    have hold : byte_at buffer m < 256 := Nat.mod_lt _ (by decide)
    have hv : (word >>> 11 >>> 16) &&& 0xf < 16 := by rw [and_15]; omega
    rw [keep_high_nibble _ hold _ hv]
    refine ⟨rfl, by simp only [length_wr], ?_, ?_⟩
    · intro i hi
      simp only [and_15, and_fffff, Nat.shiftRight_eq_div_pow, hpow]
      interval_cases i
      · rw [show 2 * m + 1 + 0 = 2 * m + 1 by omega, nibble_odd, rd_wr3 _ _ _ _ _ _ hlen,
          if_pos rfl]
        simp only [u8, byte_at]
        omega
      · rw [show 2 * m + 1 + 1 = 2 * (m + 1) by omega, nibble_even, rd_wr3 _ _ _ _ _ _ hlen,
          if_neg (by omega), if_pos rfl]
        simp only [u8]
        omega
      · rw [show 2 * m + 1 + 2 = 2 * (m + 1) + 1 by omega, nibble_odd, rd_wr3 _ _ _ _ _ _ hlen,
          if_neg (by omega), if_pos rfl]
        simp only [u8]
        omega
      · rw [show 2 * m + 1 + 3 = 2 * (m + 2) by omega, nibble_even, rd_wr3 _ _ _ _ _ _ hlen,
          if_neg (by omega), if_neg (by omega), if_pos rfl]
        simp only [u8]
        omega
      · rw [show 2 * m + 1 + 4 = 2 * (m + 2) + 1 by omega, nibble_odd, rd_wr3 _ _ _ _ _ _ hlen,
          if_neg (by omega), if_neg (by omega), if_pos rfl]
        simp only [u8]
        omega
    · intro i hi
      rcases Nat.even_or_odd' i with ⟨j, hj | hj⟩
      · subst hj
        rw [nibble_even, nibble_even, rd_wr3 _ _ _ _ _ _ hlen]
        by_cases e : j = m
        · subst e
          rw [if_pos rfl]
          simp only [u8, byte_at, and_15, Nat.shiftRight_eq_div_pow]
          omega
        · rw [if_neg e, if_neg (by omega), if_neg (by omega)]
      · subst hj
        rw [nibble_odd, nibble_odd, rd_wr3 _ _ _ _ _ _ hlen, if_neg (by omega),
          if_neg (by omega), if_neg (by omega)]

theorem handleNextWord_appends_witness :
    (handleNextWord [0xAB, 0xC0, 0, 0] 3 0xEF56DE9D).2 = 3 + 5 ∧
    (handleNextWord [0xAB, 0xC0, 0, 0] 3 0xEF56DE9D).1.length = [0xAB, 0xC0, 0, 0].length ∧
    (∀ i, i < 5 → nibble_at (handleNextWord [0xAB, 0xC0, 0, 0] 3 0xEF56DE9D).1 (3 + i) =
      ((((0xEF56DE9D >>> 11) &&& 0xFFFFF) >>> (4 * (4 - i))) &&& 0xf)) ∧
    (∀ i, i < 3 → nibble_at (handleNextWord [0xAB, 0xC0, 0, 0] 3 0xEF56DE9D).1 i =
      nibble_at [0xAB, 0xC0, 0, 0] i) :=
  handleNextWord_appends [0xAB, 0xC0, 0, 0] 3 0xEF56DE9D (by decide) (by decide)

theorem repair_word_indep (cfg : Config) (rx rx2 : l2_state_pocsag) (w : Nat) :
    (pocsag_brute_repair cfg rx w).2.2 = (pocsag_brute_repair cfg rx2 w).2.2 := by
  unfold pocsag_brute_repair
  by_cases h : pocsag_syndrome w ≠ 0
  · rw [if_pos h, if_pos h]
    simp only
    by_cases h0 : cfg.pocsag_error_correction = 0
    · rw [if_pos h0, if_pos h0]
    · rw [if_neg h0, if_neg h0]
      cases find_lane (single_flips w) with
      | some n => rfl
      | none =>
        simp only
        by_cases h1 : cfg.pocsag_error_correction = 1
        · rw [if_pos h1, if_pos h1]
        · rw [if_neg h1, if_neg h1]
          cases two_bit_search w <;> rfl
  · rw [if_neg h, if_neg h]

theorem do_one_bit_words_lt (cfg : Config) (r : Receiver) (w : Nat)
    (h : r.received_words < 16) : (do_one_bit cfg r w).received_words < 16 := by
  unfold do_one_bit
  simp only
  split
  · split
    · exact Nat.zero_lt_succ 15
    · exact h
  · split
    · exact Nat.zero_lt_succ 15
    · split
      · exact h
      · split
        · exact Nat.zero_lt_succ 15
        · rename_i h16
          show r.received_words + 1 < 16
          omega

theorem rxbit_words_lt (cfg : Config) (r : Receiver) (bit : Int)
    (h : r.received_words < 16) : (pocsag_rxbit cfg r bit).received_words < 16 := by
  unfold pocsag_rxbit
  simp only
  split <;> exact do_one_bit_words_lt cfg _ _ h

theorem feed_words_lt (cfg : Config) (bits : List Int) : ∀ r : Receiver,
    r.received_words < 16 → (feed cfg r bits).received_words < 16 := by
  induction bits with
  | nil => intro r h; exact h
  | cons b bs ih =>
    intro r h
    exact ih _ (rxbit_words_lt cfg r b h)

theorem reachable_words_lt (cfg : Config) (r : Receiver) (h : Reachable cfg r) :
    r.received_words < 16 := by
  obtain ⟨bits, rfl⟩ := h
  exact feed_words_lt cfg bits _ (Nat.zero_lt_succ 15)

theorem address_low_bits (x f : Nat) (hf : f ≤ 7) : ((x &&& 0x1ffff8) ||| f) &&& 7 = f := by
  apply Nat.eq_of_testBit_eq
  intro j
  rw [Nat.testBit_and, Nat.testBit_or, Nat.testBit_and]
  have h7 : Nat.testBit 7 j = decide (j < 3) := Nat.testBit_two_pow_sub_one 3 j
  rw [h7]
  by_cases hj : j < 3
  · have hm : Nat.testBit 0x1ffff8 j = false := by interval_cases j <;> rfl
    rw [hm, decide_eq_true hj, Bool.and_false, Bool.false_or, Bool.and_true]
  · rw [decide_eq_false hj, Bool.and_false]
    exact (testBit_of_lt (show f < 2 ^ 3 by omega) (by omega)).symm

theorem and_7 (f : Nat) (hf : f ≤ 7) : f &&& 7 = f := by
  rw [show (7 : Nat) = 2 ^ 3 - 1 from rfl, Nat.and_pow_two_sub_one_eq_mod]
  exact Nat.mod_eq_of_lt (by omega)

/-- C4, as the code has it: in a reachable state, when the bit that completes
a non-idle word is processed and the repaired word has MSB 0, the frame
number `received_words / 2` is at most 7, the stored address is
`((word >> 10) & 0x1FFFF8) | frame`, whose low three bits are the frame, the
stored function is `(word >> 11) & 3`, and the state becomes MESSAGE unless
the word is the sixteenth of its batch, in which case the batch ends and the
state is NO_SYNC. -/
theorem address_word_stored (cfg : Config) (r : Receiver) (w : Nat) (hr : Reachable cfg r)
    (hstate : r.s.state ≠ states.NO_SYNC) (hsync : is_sync w = false)
    (hbit : (r.s.rx_bit + 1) % 32 = 0) (hidle : is_idle w = false)
    (hmsb : (pocsag_brute_repair cfg r.s w).2.2 &&& POCSAG_MESSAGE_DETECTION = 0) :
    r.received_words / 2 ≤ 7 ∧
    (do_one_bit cfg r w).s.address =
      ((((((pocsag_brute_repair cfg r.s w).2.2 >>> 10) &&& 0x1ffff8) |||
        (r.received_words / 2) : Nat)) : Int) ∧
    (do_one_bit cfg r w).s.function =
      (((((pocsag_brute_repair cfg r.s w).2.2 >>> 11) &&& 3 : Nat)) : Int) ∧
    ((((pocsag_brute_repair cfg r.s w).2.2 >>> 10) &&& 0x1ffff8) |||
        (r.received_words / 2)) &&& 7 = r.received_words / 2 ∧
    (do_one_bit cfg r w).s.state =
      (if r.received_words = 15 then states.NO_SYNC else states.MESSAGE) := by
  have hlt := reachable_words_lt cfg r hr
  have hf : r.received_words / 2 ≤ 7 := by omega
  have hword : ∀ rx, (pocsag_brute_repair cfg rx w).2.2 = (pocsag_brute_repair cfg r.s w).2.2 :=
    fun rx => repair_word_indep cfg rx r.s w
  refine ⟨hf, ?_, ?_, address_low_bits _ _ hf, ?_⟩
  · unfold do_one_bit
    simp only [hsync, hbit, hstate, if_false, ne_eq, not_true_eq_false, Bool.false_eq_true]
    unfold process_word
    simp only [hidle, if_false, Bool.false_eq_true, hword, hmsb, if_true]
    split <;> simp only [pocsag_getAddress, and_7 _ hf]
  · unfold do_one_bit
    simp only [hsync, hbit, hstate, if_false, ne_eq, not_true_eq_false, Bool.false_eq_true]
    unfold process_word
    simp only [hidle, if_false, Bool.false_eq_true, hword, hmsb, if_true]
    split <;> simp only [pocsag_getFunction]
  · unfold do_one_bit
    simp only [hsync, hbit, hstate, if_false, ne_eq, not_true_eq_false, Bool.false_eq_true]
    unfold process_word
    simp only [hidle, if_false, Bool.false_eq_true, hword, hmsb, if_true]
    by_cases h15 : r.received_words = 15
    · rw [if_pos (by omega), if_pos h15]
    · rw [if_neg (by omega), if_neg h15]

theorem address_word_stored_witness :
    first_word_state.received_words / 2 ≤ 7 ∧
    (do_one_bit test_config first_word_state scenario_address_word).s.address =
      ((((((pocsag_brute_repair test_config first_word_state.s scenario_address_word).2.2
        >>> 10) &&& 0x1ffff8) ||| (first_word_state.received_words / 2) : Nat)) : Int) ∧
    (do_one_bit test_config first_word_state scenario_address_word).s.function =
      (((((pocsag_brute_repair test_config first_word_state.s scenario_address_word).2.2
        >>> 11) &&& 3 : Nat)) : Int) ∧
    ((((pocsag_brute_repair test_config first_word_state.s scenario_address_word).2.2
        >>> 10) &&& 0x1ffff8) ||| (first_word_state.received_words / 2)) &&& 7
      = first_word_state.received_words / 2 ∧
    (do_one_bit test_config first_word_state scenario_address_word).s.state =
      (if first_word_state.received_words = 15 then states.NO_SYNC else states.MESSAGE) :=
  address_word_stored test_config first_word_state scenario_address_word ⟨_, rfl⟩
    (by decide!) (by decide) (by decide!) (by decide) (by decide!)

/-- C4, counterexample: an address word that is the sixteenth word of its
batch is processed in a reachable state, and the state afterwards is NO_SYNC,
not MESSAGE. -/
theorem sixteenth_word_leaves_no_sync :
    Reachable test_config last_word_state ∧
    last_word_state.s.state ≠ states.NO_SYNC ∧
    is_sync scenario_address_word = false ∧
    (last_word_state.s.rx_bit + 1) % 32 = 0 ∧
    is_idle scenario_address_word = false ∧
    (pocsag_brute_repair test_config last_word_state.s scenario_address_word).2.2
      &&& POCSAG_MESSAGE_DETECTION = 0 ∧
    (do_one_bit test_config last_word_state scenario_address_word).s.state = states.NO_SYNC ∧
    (do_one_bit test_config last_word_state scenario_address_word).s.state ≠ states.MESSAGE :=
  ⟨⟨_, rfl⟩, by decide!, by decide, by decide!, by decide, by decide!, by decide!, by decide!⟩

set_option maxHeartbeats 8000000 in
theorem scenario_flipped (k : Nat) (hk : k < 32) :
    (feed test_config (fresh test_config)
      (scenario (scenario_message_word ^^^ (1 <<< k)))).out = [scenario_emission] ∧
    (feed test_config (fresh test_config)
      (scenario (scenario_message_word ^^^ (1 <<< k)))).s.pocsag_corrected_1bit_error_count
      = 1 := by
  have hcases : k = 0 ∨ k = 1 ∨ k = 2 ∨ k = 3 ∨ k = 4 ∨ k = 5 ∨ k = 6 ∨ k = 7 ∨ k = 8 ∨ k = 9 ∨ k = 10 ∨ k = 11 ∨ k = 12 ∨ k = 13 ∨ k = 14 ∨ k = 15 ∨ k = 16 ∨ k = 17 ∨ k = 18 ∨ k = 19 ∨ k = 20 ∨ k = 21 ∨ k = 22 ∨ k = 23 ∨ k = 24 ∨ k = 25 ∨ k = 26 ∨ k = 27 ∨ k = 28 ∨ k = 29 ∨ k = 30 ∨ k = 31 := by
    omega
  rcases hcases with rfl | rfl | rfl | rfl | rfl | rfl | rfl | rfl | rfl | rfl | rfl | rfl | rfl | rfl | rfl | rfl | rfl | rfl | rfl | rfl | rfl | rfl | rfl | rfl | rfl | rfl | rfl | rfl | rfl | rfl | rfl | rfl
  · decide!
  · decide!
  · decide!
  · decide!
  · decide!
  · decide!
  · decide!
  · decide!
  · decide!
  · decide!
  · decide!
  · decide!
  · decide!
  · decide!
  · decide!
  · decide!
  · decide!
  · decide!
  · decide!
  · decide!
  · decide!
  · decide!
  · decide!
  · decide!
  · decide!
  · decide!
  · decide!
  · decide!
  · decide!
  · decide!
  · decide!
  · decide!

/-- C6: the two codewords are valid and carry the stated fields, and
`bits_of_word` brings the window to the word presented; from a fresh receiver
with the default settings, SYNC, the address codeword for `0x12340` with
function 2 in frame 3, the message codeword with the nibbles D,E,A,D,B and
IDLE give exactly one printed message, with address `0x12340 | 3 = 0x12343`,
function 2 and binary payload `de,ad,b0`; with any single bit of the message
codeword flipped the same message is printed and the counter of corrected
one-bit errors goes from 0 to 1. -/
theorem scenario_one_message :
    pocsag_syndrome scenario_address_word = 0 ∧
    (scenario_address_word >>> 10) &&& 0x1ffff8 = 0x12340 ∧
    (scenario_address_word >>> 11) &&& 3 = 2 ∧
    scenario_address_word &&& POCSAG_MESSAGE_DETECTION = 0 ∧
    pocsag_syndrome scenario_message_word = 0 ∧
    scenario_message_word >>> 11 = 0x1DEADB ∧
    (feed test_config (fresh test_config) (bits_of_word POCSAG_SYNC)).s.rx_data
      = POCSAG_SYNC ∧
    (feed test_config (fresh test_config) (bits_of_word scenario_address_word)).s.rx_data
      = scenario_address_word ∧
    (feed test_config (fresh test_config) (bits_of_word scenario_message_word)).s.rx_data
      = scenario_message_word ∧
    (feed test_config (fresh test_config) (bits_of_word POCSAG_IDLE)).s.rx_data
      = POCSAG_IDLE ∧
    (feed test_config (fresh test_config) (scenario scenario_message_word)).out
      = [scenario_emission] ∧
    (feed test_config (fresh test_config)
      (scenario scenario_message_word)).s.pocsag_corrected_1bit_error_count = 0 ∧
    ∀ k, k < 32 →
      (feed test_config (fresh test_config)
        (scenario (scenario_message_word ^^^ (1 <<< k)))).out = [scenario_emission] ∧
      (feed test_config (fresh test_config)
        (scenario (scenario_message_word ^^^ (1 <<< k)))).s.pocsag_corrected_1bit_error_count
        = 1 := by
  refine ⟨by decide!, by decide!, by decide!, by decide!, by decide!, by decide!, by decide!,
    by decide!, by decide!, by decide!, by decide!, by decide!, ?_⟩
  exact scenario_flipped

/-- C7, failing input: fourteen nibbles holding the eight characters
"ABCDEFGH" and no terminator are rendered as "ABCDEFG"; the last character
is lost. -/
theorem alpha_drops_last_character :
    (List.range 8).map (stream_char alpha_sample) = "ABCDEFGH".toList.map Char.toNat ∧
    prepare_msg_alpha trtab_US alpha_sample 14 1024 = some "ABCDEFG".toList := by
  decide!

theorem do_one_bit_unsynced (cfg : Config) (r : Receiver) (v : Nat)
    (h1 : r.s.state = states.NO_SYNC) (h2 : is_sync v = false) :
    do_one_bit cfg r v =
      { r with s := { r.s with
          pocsag_total_bits_received := incr cfg r.s.pocsag_total_bits_received
          pocsag_bits_processed_while_not_synced :=
            incr cfg r.s.pocsag_bits_processed_while_not_synced } } := by
  unfold do_one_bit
  simp only [h1, h2, if_true, if_false, Bool.false_eq_true]

theorem do_one_bit_acquire (cfg : Config) (r : Receiver) (v : Nat)
    (h1 : r.s.state = states.NO_SYNC) (h2 : is_sync v = true) :
    do_one_bit cfg r v =
      { r with
          s := { r.s with
            pocsag_total_bits_received := incr cfg r.s.pocsag_total_bits_received
            pocsag_bits_processed_while_not_synced :=
              incr cfg r.s.pocsag_bits_processed_while_not_synced
            state := states.SYNC
            rx_bit := 0 }
          received_words := 0 } := by
  unfold do_one_bit
  simp only [h1, h2, if_true]

theorem do_one_bit_restart (cfg : Config) (r : Receiver) (v : Nat)
    (h1 : r.s.state ≠ states.NO_SYNC) (h2 : is_sync v = true) :
    do_one_bit cfg r v =
      { r with
          s := { r.s with
            pocsag_total_bits_received := incr cfg r.s.pocsag_total_bits_received
            rx_bit := 0 }
          received_words := 0 } := by
  unfold do_one_bit
  simp only [h1, h2, if_true, if_false]

theorem do_one_bit_inside (cfg : Config) (r : Receiver) (v : Nat)
    (h1 : r.s.state ≠ states.NO_SYNC) (h2 : is_sync v = false)
    (h3 : (r.s.rx_bit + 1) % 32 ≠ 0) :
    do_one_bit cfg r v =
      { r with s := { r.s with
          pocsag_total_bits_received := incr cfg r.s.pocsag_total_bits_received
          pocsag_bits_processed_while_synced :=
            incr cfg r.s.pocsag_bits_processed_while_synced
          rx_bit := (r.s.rx_bit + 1) % 32 } } := by
  unfold do_one_bit
  simp only [h1, h2, h3, if_true, if_false, Bool.false_eq_true, ne_eq, not_false_eq_true]

theorem do_one_bit_word (cfg : Config) (r : Receiver) (v : Nat)
    (h1 : r.s.state ≠ states.NO_SYNC) (h2 : is_sync v = false)
    (h3 : (r.s.rx_bit + 1) % 32 = 0) :
    do_one_bit cfg r v =
      if r.received_words + 1 = 16 then
        { s := { (process_word cfg (word_start cfg r.s) (r.received_words / 2) v).1 with
                  state := states.NO_SYNC },
          received_words := 0,
          out := r.out ++ (process_word cfg (word_start cfg r.s) (r.received_words / 2) v).2 }
      else
        { s := (process_word cfg (word_start cfg r.s) (r.received_words / 2) v).1,
          received_words := r.received_words + 1,
          out := r.out ++ (process_word cfg (word_start cfg r.s) (r.received_words / 2) v).2 } := by
  unfold do_one_bit word_start
  simp only [h1, h2, h3, if_true, if_false, Bool.false_eq_true, ne_eq, not_true_eq_false]

theorem repair_state_cases (cfg : Config) (rx : l2_state_pocsag) (d : Nat) :
    (pocsag_brute_repair cfg rx d).2.1 = rx ∨
    (pocsag_brute_repair cfg rx d).2.1 = rx_failed cfg rx ∨
    (pocsag_brute_repair cfg rx d).2.1 = rx_fixed1 cfg rx ∨
    (pocsag_brute_repair cfg rx d).2.1 = rx_fixed2 cfg rx := by
  unfold pocsag_brute_repair
  by_cases h : pocsag_syndrome d ≠ 0
  · rw [if_pos h]
    simp only
    by_cases h0 : cfg.pocsag_error_correction = 0
    · rw [if_pos h0]
      exact Or.inr (Or.inl rfl)
    · rw [if_neg h0]
      cases find_lane (single_flips d) with
      | some n => exact Or.inr (Or.inr (Or.inl rfl))
      | none =>
        simp only
        by_cases h1 : cfg.pocsag_error_correction = 1
        · rw [if_pos h1]
          exact Or.inr (Or.inl rfl)
        · rw [if_neg h1]
          cases two_bit_search d with
          | some e => exact Or.inr (Or.inr (Or.inr rfl))
          | none => exact Or.inr (Or.inl rfl)
  · rw [if_neg h]
    exact Or.inl rfl

/-- The fields of the receiver state that `pocsag_brute_repair` does not
touch: everything but the error counters. -/
theorem repair_frame (cfg : Config) (rx : l2_state_pocsag) (d : Nat) :
    (pocsag_brute_repair cfg rx d).2.1.rx_data = rx.rx_data ∧
    (pocsag_brute_repair cfg rx d).2.1.rx_bit = rx.rx_bit ∧
    (pocsag_brute_repair cfg rx d).2.1.state = rx.state ∧
    (pocsag_brute_repair cfg rx d).2.1.address = rx.address ∧
    (pocsag_brute_repair cfg rx d).2.1.function = rx.function ∧
    (pocsag_brute_repair cfg rx d).2.1.buffer = rx.buffer ∧
    (pocsag_brute_repair cfg rx d).2.1.numnibbles = rx.numnibbles ∧
    (pocsag_brute_repair cfg rx d).2.1.pocsag_total_bits_received =
      rx.pocsag_total_bits_received ∧
    (pocsag_brute_repair cfg rx d).2.1.pocsag_bits_processed_while_synced =
      rx.pocsag_bits_processed_while_synced ∧
    (pocsag_brute_repair cfg rx d).2.1.pocsag_bits_processed_while_not_synced =
      rx.pocsag_bits_processed_while_not_synced := by
  rcases repair_state_cases cfg rx d with h | h | h | h <;> rw [h] <;>
    exact ⟨rfl, rfl, rfl, rfl, rfl, rfl, rfl, rfl, rfl, rfl⟩

theorem process_word_idle_flush (cfg : Config) (s : l2_state_pocsag) (f v : Nat)
    (hi : is_idle v = true) (hn : s.numnibbles > 0) :
    process_word cfg s f v =
      ({ s with numnibbles := 0, address := -1, function := -1 },
        pocsag_printmessage cfg s true) := by
  unfold process_word
  rw [if_pos hi, if_pos hn]

theorem process_word_idle_keep (cfg : Config) (s : l2_state_pocsag) (f v : Nat)
    (hi : is_idle v = true) (hn : s.numnibbles = 0) :
    process_word cfg s f v = (s, []) := by
  unfold process_word
  rw [if_pos hi, if_neg (by omega)]

theorem process_word_address (cfg : Config) (s : l2_state_pocsag) (f v : Nat)
    (hi : is_idle v = false)
    (hm : (pocsag_brute_repair cfg s v).2.2 &&& POCSAG_MESSAGE_DETECTION = 0) :
    process_word cfg s f v =
      ({ (pocsag_brute_repair cfg s v).2.1 with
            numnibbles := 0
            address := pocsag_getAddress (pocsag_brute_repair cfg s v).2.2 f
            function := pocsag_getFunction (pocsag_brute_repair cfg s v).2.2
            state := states.MESSAGE },
        if s.numnibbles > 0 then
          pocsag_printmessage cfg (pocsag_brute_repair cfg s v).2.1 true
        else []) := by
  have hnn := (repair_frame cfg s v).2.2.2.2.2.2.1
  unfold process_word
  rw [if_neg (by rw [hi]; exact Bool.false_ne_true)]
  simp only
  rw [if_pos hm]
  by_cases hn : s.numnibbles > 0
  · rw [if_pos (by rw [hnn]; exact hn), if_pos hn]
  · rw [if_neg (by rw [hnn]; exact hn), if_neg hn]
    have h0 : (pocsag_brute_repair cfg s v).2.1.numnibbles = 0 := by omega
    simp only
    congr 1
    generalize (pocsag_brute_repair cfg s v).2.1 = t at h0
    cases t
    simp only at h0
    subst h0
    rfl

theorem process_word_message_flush (cfg : Config) (s : l2_state_pocsag) (f v : Nat)
    (hi : is_idle v = false)
    (hm : (pocsag_brute_repair cfg s v).2.2 &&& POCSAG_MESSAGE_DETECTION ≠ 0)
    (hn : s.numnibbles > nibble_limit cfg) :
    process_word cfg s f v =
      ({ (pocsag_brute_repair cfg s v).2.1 with
            state := states.MESSAGE, numnibbles := 0, address := -1, function := -1 },
        pocsag_printmessage cfg
          { (pocsag_brute_repair cfg s v).2.1 with state := states.MESSAGE } true) := by
  have hnn := (repair_frame cfg s v).2.2.2.2.2.2.1
  unfold process_word
  rw [if_neg (by rw [hi]; exact Bool.false_ne_true)]
  simp only
  rw [if_neg hm, if_pos (by rw [hnn]; exact hn)]

theorem process_word_message_store (cfg : Config) (s : l2_state_pocsag) (f v : Nat)
    (hi : is_idle v = false)
    (hm : (pocsag_brute_repair cfg s v).2.2 &&& POCSAG_MESSAGE_DETECTION ≠ 0)
    (hn : s.numnibbles ≤ nibble_limit cfg) :
    process_word cfg s f v =
      ({ (pocsag_brute_repair cfg s v).2.1 with
            state := states.MESSAGE
            buffer := (handleNextWord s.buffer s.numnibbles
              (pocsag_brute_repair cfg s v).2.2).1
            numnibbles := (handleNextWord s.buffer s.numnibbles
              (pocsag_brute_repair cfg s v).2.2).2 }, []) := by
  have hnn := (repair_frame cfg s v).2.2.2.2.2.2.1
  have hbb := (repair_frame cfg s v).2.2.2.2.2.1
  unfold process_word
  rw [if_neg (by rw [hi]; exact Bool.false_ne_true)]
  simp only
  rw [if_neg hm, if_neg (by rw [hnn]; omega), hnn, hbb]

theorem handleNextWord_count (buffer : List Nat) (n word : Nat) :
    (handleNextWord buffer n word).2 = n + 5 := by
  unfold handleNextWord
  split <;> rfl

theorem is_sync_SYNC : is_sync POCSAG_SYNC = true := by
  unfold is_sync
  exact decide_eq_true rfl

theorem in_sync_of (s : l2_state_pocsag)
    (h : s.state = states.SYNC ∨ s.state = states.MESSAGE) : s.state ≠ states.NO_SYNC := by
  rcases h with h | h <;> rw [h] <;> exact fun hh => states.noConfusion hh

/-- C11: the bit stream SYNC, SYNC breaks the counter identity. The second
sync word is recognised while the receiver is in sync, and `do_one_bit`
returns before counting its last bit as processed while synced: 64 bits
were received, 31 counted as synced and 32 as not synced. -/
theorem sync_bit_not_counted :
    (feed test_config (fresh test_config)
      (bits_of_word POCSAG_SYNC ++ bits_of_word POCSAG_SYNC)).s.pocsag_total_bits_received = 64 ∧
    (feed test_config (fresh test_config)
      (bits_of_word POCSAG_SYNC ++ bits_of_word POCSAG_SYNC)).s.pocsag_bits_processed_while_synced
        = 31 ∧
    (feed test_config (fresh test_config)
      (bits_of_word POCSAG_SYNC ++
        bits_of_word POCSAG_SYNC)).s.pocsag_bits_processed_while_not_synced = 32 := by
  decide!

/-- C13: when `do_one_bit` is called in state SYNC or MESSAGE with the window
equal to SYNC, it sets `rx_bit` and `received_words` to 0, emits nothing, and
leaves the pending address, function, buffer, `numnibbles`, the five error
counters and the bits-while-synced counter unchanged. -/
theorem sync_in_sync_restarts_batch (cfg : Config) (r : Receiver)
    (h : r.s.state = states.SYNC ∨ r.s.state = states.MESSAGE) :
    (do_one_bit cfg r POCSAG_SYNC).s.rx_bit = 0 ∧
    (do_one_bit cfg r POCSAG_SYNC).received_words = 0 ∧
    (do_one_bit cfg r POCSAG_SYNC).out = r.out ∧
    (do_one_bit cfg r POCSAG_SYNC).s.address = r.s.address ∧
    (do_one_bit cfg r POCSAG_SYNC).s.function = r.s.function ∧
    (do_one_bit cfg r POCSAG_SYNC).s.buffer = r.s.buffer ∧
    (do_one_bit cfg r POCSAG_SYNC).s.numnibbles = r.s.numnibbles ∧
    (do_one_bit cfg r POCSAG_SYNC).s.pocsag_total_error_count =
      r.s.pocsag_total_error_count ∧
    (do_one_bit cfg r POCSAG_SYNC).s.pocsag_corrected_error_count =
      r.s.pocsag_corrected_error_count ∧
    (do_one_bit cfg r POCSAG_SYNC).s.pocsag_corrected_1bit_error_count =
      r.s.pocsag_corrected_1bit_error_count ∧
    (do_one_bit cfg r POCSAG_SYNC).s.pocsag_corrected_2bit_error_count =
      r.s.pocsag_corrected_2bit_error_count ∧
    (do_one_bit cfg r POCSAG_SYNC).s.pocsag_uncorrected_error_count =
      r.s.pocsag_uncorrected_error_count ∧
    (do_one_bit cfg r POCSAG_SYNC).s.pocsag_bits_processed_while_synced =
      r.s.pocsag_bits_processed_while_synced := by
  rw [do_one_bit_restart cfg r POCSAG_SYNC (in_sync_of r.s h) is_sync_SYNC]
  exact ⟨rfl, rfl, rfl, rfl, rfl, rfl, rfl, rfl, rfl, rfl, rfl, rfl, rfl⟩

theorem sync_in_sync_restarts_batch_witness :
    (first_word_state.s.state = states.SYNC ∨ first_word_state.s.state = states.MESSAGE) ∧
    (do_one_bit test_config first_word_state POCSAG_SYNC).s.rx_bit = 0 ∧
    (do_one_bit test_config first_word_state POCSAG_SYNC).received_words = 0 :=
  ⟨Or.inl (by decide!),
   (sync_in_sync_restarts_batch test_config first_word_state (Or.inl (by decide!))).1,
   (sync_in_sync_restarts_batch test_config first_word_state (Or.inl (by decide!))).2.1⟩

/-- C14, counterexample: after the stream SYNC, SYNC the second sync word has
been recognised in state SYNC, and the receiver is still in state SYNC, not
NO_SYNC. -/
theorem sync_in_sync_keeps_state :
    (feed test_config (fresh test_config) (bits_of_word POCSAG_SYNC)).s.state = states.SYNC ∧
    (feed test_config (fresh test_config)
      (bits_of_word POCSAG_SYNC ++ bits_of_word POCSAG_SYNC)).s.state = states.SYNC ∧
    (feed test_config (fresh test_config)
      (bits_of_word POCSAG_SYNC ++ bits_of_word POCSAG_SYNC)).received_words = 0 := by
  decide!

/-- C14, amended: a sync word recognised in state SYNC or MESSAGE resets
`received_words` to 0 and leaves the state as it is (the receiver stays in
sync and a new batch starts); the completion of the 16th word of a batch
resets `received_words` to 0 and sets the state to NO_SYNC. -/
theorem batch_end_events (cfg : Config) (r1 r2 : Receiver) (v : Nat)
    (h1 : r1.s.state = states.SYNC ∨ r1.s.state = states.MESSAGE)
    (h2 : r2.s.state = states.SYNC ∨ r2.s.state = states.MESSAGE)
    (hv : is_sync v = false) (hbit : (r2.s.rx_bit + 1) % 32 = 0)
    (h16 : r2.received_words + 1 = 16) :
    ((do_one_bit cfg r1 POCSAG_SYNC).received_words = 0 ∧
      (do_one_bit cfg r1 POCSAG_SYNC).s.state = r1.s.state) ∧
    ((do_one_bit cfg r2 v).received_words = 0 ∧
      (do_one_bit cfg r2 v).s.state = states.NO_SYNC) := by
  constructor
  · rw [do_one_bit_restart cfg r1 POCSAG_SYNC (in_sync_of r1.s h1) is_sync_SYNC]
    exact ⟨rfl, rfl⟩
  · rw [do_one_bit_word cfg r2 v (in_sync_of r2.s h2) hv hbit, if_pos h16]
    exact ⟨rfl, rfl⟩

theorem batch_end_events_witness :
    ((do_one_bit test_config first_word_state POCSAG_SYNC).received_words = 0 ∧
      (do_one_bit test_config first_word_state POCSAG_SYNC).s.state =
        first_word_state.s.state) ∧
    ((do_one_bit test_config last_word_state scenario_address_word).received_words = 0 ∧
      (do_one_bit test_config last_word_state scenario_address_word).s.state =
        states.NO_SYNC) :=
  batch_end_events test_config first_word_state last_word_state scenario_address_word
    (Or.inl (by decide!)) (Or.inl (by decide!)) (by decide!) (by decide!) (by decide!)

/-- The fields of the receiver state that the handling of a completed word
does not touch. -/
theorem process_word_frame (cfg : Config) (s : l2_state_pocsag) (f v : Nat) :
    (process_word cfg s f v).1.rx_data = s.rx_data ∧
    (process_word cfg s f v).1.rx_bit = s.rx_bit ∧
    (process_word cfg s f v).1.pocsag_total_bits_received = s.pocsag_total_bits_received ∧
    (process_word cfg s f v).1.pocsag_bits_processed_while_synced =
      s.pocsag_bits_processed_while_synced ∧
    (process_word cfg s f v).1.pocsag_bits_processed_while_not_synced =
      s.pocsag_bits_processed_while_not_synced := by
  obtain ⟨f1, f2, -, -, -, -, -, f8, f9, f10⟩ := repair_frame cfg s v
  cases hi : is_idle v with
  | true =>
    by_cases hn : s.numnibbles > 0
    · rw [process_word_idle_flush cfg s f v hi hn]
      exact ⟨rfl, rfl, rfl, rfl, rfl⟩
    · rw [process_word_idle_keep cfg s f v hi (by omega)]
      exact ⟨rfl, rfl, rfl, rfl, rfl⟩
  | false =>
    by_cases hm : (pocsag_brute_repair cfg s v).2.2 &&& POCSAG_MESSAGE_DETECTION = 0
    · rw [process_word_address cfg s f v hi hm]
      exact ⟨f1, f2, f8, f9, f10⟩
    · by_cases hn : s.numnibbles > nibble_limit cfg
      · rw [process_word_message_flush cfg s f v hi hm hn]
        exact ⟨f1, f2, f8, f9, f10⟩
      · rw [process_word_message_store cfg s f v hi hm (by omega)]
        exact ⟨f1, f2, f8, f9, f10⟩

theorem do_one_bit_rx_data (cfg : Config) (r : Receiver) (v : Nat) :
    (do_one_bit cfg r v).s.rx_data = r.s.rx_data := by
  by_cases h1 : r.s.state = states.NO_SYNC
  · cases h2 : is_sync v with
    | true => rw [do_one_bit_acquire cfg r v h1 h2]
    | false => rw [do_one_bit_unsynced cfg r v h1 h2]
  · cases h2 : is_sync v with
    | true => rw [do_one_bit_restart cfg r v h1 h2]
    | false =>
      by_cases h3 : (r.s.rx_bit + 1) % 32 = 0
      · rw [do_one_bit_word cfg r v h1 h2 h3]
        split
        · exact (process_word_frame cfg _ _ v).1
        · exact (process_word_frame cfg _ _ v).1
      · rw [do_one_bit_inside cfg r v h1 h2 h3]

theorem rxbit_eq (cfg : Config) (r : Receiver) (bit : Int) :
    pocsag_rxbit cfg r bit =
      do_one_bit cfg (with_window r (shift_in r.s.rx_data bit))
        (handed cfg (shift_in r.s.rx_data bit)) := by
  unfold pocsag_rxbit handed shift_in with_window
  by_cases h : cfg.pocsag_invert_input ≠ 0
  · simp only [if_pos h]
  · simp only [if_neg h]

theorem rxbit_rx_data (cfg : Config) (r : Receiver) (bit : Int) :
    (pocsag_rxbit cfg r bit).s.rx_data = shift_in r.s.rx_data bit := by
  rw [rxbit_eq, do_one_bit_rx_data]
  rfl

theorem feed_cons (cfg : Config) (r : Receiver) (b : Int) (bs : List Int) :
    feed cfg r (b :: bs) = feed cfg (pocsag_rxbit cfg r b) bs := rfl

theorem feed_append (cfg : Config) (r : Receiver) (as bs : List Int) :
    feed cfg r (as ++ bs) = feed cfg (feed cfg r as) bs := by
  unfold feed
  rw [List.foldl_append]

theorem feed_rx_data (cfg : Config) (bits : List Int) :
    ∀ r : Receiver, (feed cfg r bits).s.rx_data = window_after r.s.rx_data bits := by
  induction bits with
  | nil => intro r; rfl
  | cons b bs ih =>
    intro r
    rw [feed_cons, ih, rxbit_rx_data]
    rfl

theorem shift_in_lt (w : Nat) (bit : Int) : shift_in w bit < 2 ^ 32 := by
  unfold shift_in u32
  apply Nat.or_lt_two_pow (Nat.mod_lt _ (by decide))
  split <;> decide

theorem shift_in_testBit (w : Nat) (bit : Int) (i : Nat) (hi : i < 32) :
    (shift_in w bit).testBit i =
      if i = 0 then decide (bit = 0) else w.testBit (i - 1) := by
  unfold shift_in u32
  rw [Nat.testBit_or, Nat.testBit_mod_two_pow, Nat.testBit_shiftLeft]
  by_cases h0 : i = 0
  · subst h0
    by_cases hb : bit = 0
    · simp [hb]
    · simp [hb]
  · rw [if_neg h0]
    have h1 : (if bit = 0 then 1 else 0 : Nat).testBit i = false := by
      split
      · obtain ⟨j, rfl⟩ : ∃ j, i = j + 1 := ⟨i - 1, by omega⟩
        rw [Nat.testBit_succ]
        simp
      · simp
    rw [h1]
    simp [hi]
    intro h
    omega

theorem window_after_snoc (w : Nat) (bits : List Int) (b : Int) :
    window_after w (bits ++ [b]) = shift_in (window_after w bits) b := by
  unfold window_after
  rw [List.foldl_append]
  rfl

theorem window_after_testBit (w : Nat) (bits : List Int) :
    ∀ i, i < 32 → i < bits.length →
      (window_after w bits).testBit i = decide (bits.getD (bits.length - 1 - i) 1 = 0) := by
  induction bits using List.reverseRecOn with
  | nil => intro i _ h; simp at h
  | append_singleton bs b ih =>
    intro i hi hlen
    rw [window_after_snoc, shift_in_testBit _ _ _ hi]
    simp only [List.length_append, List.length_singleton] at hlen ⊢
    by_cases h0 : i = 0
    · subst h0
      rw [if_pos rfl]
      have : bs.length + 1 - 1 - 0 = bs.length := by omega
      rw [this, List.getD_append_right _ _ _ _ (le_refl _)]
      simp
    · rw [if_neg h0, ih (i - 1) (by omega) (by omega)]
      have e : bs.length + 1 - 1 - i = bs.length - 1 - (i - 1) := by omega
      rw [e, List.getD_append _ _ _ _ (by omega)]

theorem xor_ONE (w : Nat) (hw : w < 2 ^ 32) : w ^^^ ONE = 2 ^ 32 - 1 - w := by
  have e : 2 ^ 32 - 1 - w = 2 ^ 32 - (w + 1) := by omega
  have e1 : ONE = 2 ^ 32 - 1 := by decide
  rw [e, e1]
  apply Nat.eq_of_testBit_eq
  intro i
  rw [Nat.testBit_xor, Nat.testBit_two_pow_sub_succ hw, Nat.testBit_two_pow_sub_one]
  by_cases hi : i < 32
  · simp [hi]
  · simp [hi]
    exact Nat.testBit_lt_two_pow (lt_of_lt_of_le hw (Nat.pow_le_pow_right (by decide) (by omega)))

theorem handed_eq (cfg : Config) (w : Nat) (hw : w < 2 ^ 32) :
    handed cfg w = if cfg.pocsag_invert_input ≠ 0 then 2 ^ 32 - 1 - w else w := by
  unfold handed
  rw [xor_ONE w hw]

theorem handed_lt (cfg : Config) (w : Nat) (hw : w < 2 ^ 32) : handed cfg w < 2 ^ 32 := by
  rw [handed_eq cfg w hw]
  split <;> omega

theorem handed_testBit (cfg : Config) (w : Nat) (i : Nat) (hi : i < 32) :
    (handed cfg w).testBit i =
      if cfg.pocsag_invert_input ≠ 0 then !w.testBit i else w.testBit i := by
  unfold handed
  have e1 : ONE = 2 ^ 32 - 1 := by decide
  by_cases h : cfg.pocsag_invert_input ≠ 0
  · rw [if_pos h, if_pos h, Nat.testBit_xor, e1, Nat.testBit_two_pow_sub_one]
    simp [hi]
  · rw [if_neg h, if_neg h]

theorem shift_in_formula (w : Nat) (bit : Int) (hb : bit = 0 ∨ bit = 1) :
    shift_in w bit = ((w <<< 1) ||| (1 - bit).toNat) % 2 ^ 32 := by
  unfold shift_in u32
  have h1 : ∀ i, 32 ≤ i → Nat.testBit 1 i = false := by
    intro i hi
    exact Nat.testBit_lt_two_pow (lt_of_lt_of_le (by decide : 1 < 2 ^ 1)
      (Nat.pow_le_pow_right (by decide) (by omega)))
  rcases hb with hb | hb <;> subst hb
  · rw [if_pos rfl, show ((1 : Int) - 0).toNat = 1 from rfl]
    apply Nat.eq_of_testBit_eq
    intro i
    rw [Nat.testBit_or, Nat.testBit_mod_two_pow, Nat.testBit_mod_two_pow, Nat.testBit_or]
    by_cases hi : i < 32
    · simp [hi]
    · simp [hi, h1 i (by omega)]
  · rw [if_neg (by decide), show ((1 : Int) - 1).toNat = 0 from rfl, Nat.or_zero, Nat.or_zero]

/-- C12: `pocsag_rxbit` sets the window to `((window << 1) | (1 - bit)) mod
2^32` for every window and every bit in {0,1}, and calls `do_one_bit` with
that window when `invert_input` is off and with its 32-bit complement when it
is on; from the 32nd call on, bit `i` of the value `do_one_bit` sees is, with
`invert_input` on, the input bit of `i` calls ago (so the value is exactly the
last 32 input bits, most recent in the LSB), and with `invert_input` off the
complement of that bit. -/
theorem rxbit_window (cfg : Config) (r0 r : Receiver) (pre : List Int) (bit : Int)
    (hr : r = feed cfg r0 pre) (hbits : ∀ b ∈ pre ++ [bit], b = 0 ∨ b = 1) :
    (pocsag_rxbit cfg r bit).s.rx_data =
      ((r.s.rx_data <<< 1) ||| (1 - bit).toNat) % 2 ^ 32 ∧
    pocsag_rxbit cfg r bit =
      do_one_bit cfg
        { r with s := { r.s with rx_data := (pocsag_rxbit cfg r bit).s.rx_data } }
        (if cfg.pocsag_invert_input ≠ 0 then 2 ^ 32 - 1 - (pocsag_rxbit cfg r bit).s.rx_data
         else (pocsag_rxbit cfg r bit).s.rx_data) ∧
    (32 ≤ pre.length + 1 → ∀ i, i < 32 →
      (if cfg.pocsag_invert_input ≠ 0 then 2 ^ 32 - 1 - (pocsag_rxbit cfg r bit).s.rx_data
         else (pocsag_rxbit cfg r bit).s.rx_data).testBit i =
        if cfg.pocsag_invert_input ≠ 0 then
          decide ((pre ++ [bit]).getD (pre.length - i) 0 = 1)
        else decide ((pre ++ [bit]).getD (pre.length - i) 0 = 0)) := by
  have hbit : bit = 0 ∨ bit = 1 := hbits bit (by simp)
  have hw := rxbit_rx_data cfg r bit
  refine ⟨by rw [hw, shift_in_formula _ _ hbit], ?_, ?_⟩
  · rw [hw, ← handed_eq cfg _ (shift_in_lt _ _)]
    exact rxbit_eq cfg r bit
  · intro hlen i hi
    have hwin : (pocsag_rxbit cfg r bit).s.rx_data = window_after r0.s.rx_data (pre ++ [bit]) := by
      rw [hw, hr, feed_rx_data, window_after_snoc]
    have hlt : (pocsag_rxbit cfg r bit).s.rx_data < 2 ^ 32 := by
      rw [hw]
      exact shift_in_lt _ _
    rw [← handed_eq cfg _ hlt, handed_testBit cfg _ i hi, hwin,
      window_after_testBit _ _ i hi (by simp; omega)]
    have hmem : (pre ++ [bit]).getD (pre.length - i) 0 = 0 ∨
        (pre ++ [bit]).getD (pre.length - i) 0 = 1 := by
      apply hbits
      rw [List.getD_eq_getElem _ _ (by simp; omega)]
      exact List.getElem_mem _
    have hidx : (pre ++ [bit]).length - 1 - i = pre.length - i := by simp
    have hd : (pre ++ [bit]).getD (pre.length - i) 1 = (pre ++ [bit]).getD (pre.length - i) 0 := by
      rw [List.getD_eq_getElem _ _ (by simp; omega), List.getD_eq_getElem _ _ (by simp; omega)]
    rw [hidx, hd]
    by_cases h : cfg.pocsag_invert_input ≠ 0
    · rw [if_pos h, if_pos h]
      rcases hmem with e | e <;> rw [e] <;> rfl
    · rw [if_neg h, if_neg h]

theorem rxbit_window_witness :
    (pocsag_rxbit test_config
        (feed test_config (fresh test_config) ((bits_of_word POCSAG_SYNC).take 31)) 1).s.rx_data =
      (((feed test_config (fresh test_config)
          ((bits_of_word POCSAG_SYNC).take 31)).s.rx_data <<< 1) ||| (1 - (1 : Int)).toNat)
        % 2 ^ 32 :=
  (rxbit_window test_config (fresh test_config)
    (feed test_config (fresh test_config) ((bits_of_word POCSAG_SYNC).take 31))
    ((bits_of_word POCSAG_SYNC).take 31) 1 rfl (by decide)).1

theorem repaired_eq (cfg : Config) (s : l2_state_pocsag) (v : Nat) :
    (pocsag_brute_repair cfg s v).2.2 = repaired cfg v :=
  repair_word_indep cfg s (pocsag_init cfg) v

/-- What a call of `do_one_bit` does to the pending message: nothing, unless
the bit completes a word, and then what `process_word` does. -/
theorem do_one_bit_pending (cfg : Config) (r : Receiver) (v : Nat) :
    ((do_one_bit cfg r v).s.numnibbles = r.s.numnibbles ∧
      (do_one_bit cfg r v).s.address = r.s.address ∧
      (do_one_bit cfg r v).s.function = r.s.function ∧
      (do_one_bit cfg r v).s.buffer = r.s.buffer ∧
      (do_one_bit cfg r v).out = r.out) ∨
    (r.s.state ≠ states.NO_SYNC ∧ is_sync v = false ∧ (r.s.rx_bit + 1) % 32 = 0 ∧
      (do_one_bit cfg r v).s.numnibbles =
        (process_word cfg (word_start cfg r.s) (r.received_words / 2) v).1.numnibbles ∧
      (do_one_bit cfg r v).s.address =
        (process_word cfg (word_start cfg r.s) (r.received_words / 2) v).1.address ∧
      (do_one_bit cfg r v).s.function =
        (process_word cfg (word_start cfg r.s) (r.received_words / 2) v).1.function ∧
      (do_one_bit cfg r v).s.buffer =
        (process_word cfg (word_start cfg r.s) (r.received_words / 2) v).1.buffer ∧
      (do_one_bit cfg r v).out =
        r.out ++ (process_word cfg (word_start cfg r.s) (r.received_words / 2) v).2) := by
  by_cases h1 : r.s.state = states.NO_SYNC
  · left
    cases h2 : is_sync v with
    | true => rw [do_one_bit_acquire cfg r v h1 h2]; exact ⟨rfl, rfl, rfl, rfl, rfl⟩
    | false => rw [do_one_bit_unsynced cfg r v h1 h2]; exact ⟨rfl, rfl, rfl, rfl, rfl⟩
  · cases h2 : is_sync v with
    | true => left; rw [do_one_bit_restart cfg r v h1 h2]; exact ⟨rfl, rfl, rfl, rfl, rfl⟩
    | false =>
      by_cases h3 : (r.s.rx_bit + 1) % 32 = 0
      · right
        refine ⟨h1, rfl, h3, ?_⟩
        rw [do_one_bit_word cfg r v h1 h2 h3]
        split <;> exact ⟨rfl, rfl, rfl, rfl, rfl⟩
      · left; rw [do_one_bit_inside cfg r v h1 h2 h3]; exact ⟨rfl, rfl, rfl, rfl, rfl⟩

theorem process_word_numnibbles (cfg : Config) (s : l2_state_pocsag) (f v : Nat) :
    (process_word cfg s f v).1.numnibbles = s.numnibbles ∨
    ((process_word cfg s f v).1.numnibbles = s.numnibbles + 5 ∧
      s.numnibbles ≤ nibble_limit cfg) ∨
    (process_word cfg s f v).1.numnibbles = 0 := by
  cases hi : is_idle v with
  | true =>
    by_cases hn : s.numnibbles > 0
    · rw [process_word_idle_flush cfg s f v hi hn]
      exact Or.inr (Or.inr rfl)
    · rw [process_word_idle_keep cfg s f v hi (by omega)]
      exact Or.inl rfl
  | false =>
    by_cases hm : (pocsag_brute_repair cfg s v).2.2 &&& POCSAG_MESSAGE_DETECTION = 0
    · rw [process_word_address cfg s f v hi hm]
      exact Or.inr (Or.inr rfl)
    · by_cases hn : s.numnibbles > nibble_limit cfg
      · rw [process_word_message_flush cfg s f v hi hm hn]
        exact Or.inr (Or.inr rfl)
      · rw [process_word_message_store cfg s f v hi hm (by omega)]
        exact Or.inr (Or.inl ⟨handleNextWord_count _ _ _, by omega⟩)

theorem rxbit_numnibbles (cfg : Config) (r : Receiver) (bit : Int) :
    (pocsag_rxbit cfg r bit).s.numnibbles = r.s.numnibbles ∨
    ((pocsag_rxbit cfg r bit).s.numnibbles = r.s.numnibbles + 5 ∧
      r.s.numnibbles ≤ nibble_limit cfg) ∨
    (pocsag_rxbit cfg r bit).s.numnibbles = 0 := by
  rw [rxbit_eq]
  rcases do_one_bit_pending cfg (with_window r (shift_in r.s.rx_data bit))
      (handed cfg (shift_in r.s.rx_data bit)) with h | h
  · exact Or.inl h.1
  · rw [h.2.2.2.1]
    exact process_word_numnibbles cfg _ _ _

theorem feed_snoc (cfg : Config) (r : Receiver) (bits : List Int) (b : Int) :
    feed cfg r (bits ++ [b]) = pocsag_rxbit cfg (feed cfg r bits) b := by
  rw [feed_append]
  rfl

/-- Induction over the calls of `pocsag_rxbit` that lead to a reachable
state. -/
theorem reachable_induction (cfg : Config) (P : Receiver → Prop) (h0 : P (fresh cfg))
    (hstep : ∀ r bit, Reachable cfg r → P r → P (pocsag_rxbit cfg r bit)) :
    ∀ r, Reachable cfg r → P r := by
  intro r hr
  obtain ⟨bits, rfl⟩ := hr
  induction bits using List.reverseRecOn with
  | nil => exact h0
  | append_singleton bs b ih =>
    rw [feed_snoc]
    exact hstep _ b ⟨bs, rfl⟩ ih

theorem reachable_step (cfg : Config) (r : Receiver) (bit : Int) (h : Reachable cfg r) :
    Reachable cfg (pocsag_rxbit cfg r bit) := by
  obtain ⟨bits, rfl⟩ := h
  exact ⟨bits ++ [bit], (feed_snoc cfg _ bits bit).symm⟩

/-- C19: in every state reachable from a freshly initialised receiver,
`numnibbles` is a multiple of 5, and each call of `pocsag_rxbit` leaves it
unchanged, increases it by exactly 5, or resets it to 0. -/
theorem numnibbles_steps_of_five (cfg : Config) (r : Receiver) (bit : Int)
    (h : Reachable cfg r) :
    r.s.numnibbles % 5 = 0 ∧
    ((pocsag_rxbit cfg r bit).s.numnibbles = r.s.numnibbles ∨
      (pocsag_rxbit cfg r bit).s.numnibbles = r.s.numnibbles + 5 ∨
      (pocsag_rxbit cfg r bit).s.numnibbles = 0) := by
  constructor
  · refine reachable_induction cfg (fun r => r.s.numnibbles % 5 = 0) rfl ?_ r h
    intro r b _ ih
    rcases rxbit_numnibbles cfg r b with e | e | e
    · rw [e]; exact ih
    · rw [e.1]; omega
    · rw [e]
  · rcases rxbit_numnibbles cfg r bit with e | e | e
    · exact Or.inl e
    · exact Or.inr (Or.inl e.1)
    · exact Or.inr (Or.inr e)

theorem numnibbles_steps_of_five_witness :
    first_word_state.s.numnibbles % 5 = 0 ∧
    ((pocsag_rxbit test_config first_word_state 1).s.numnibbles =
        first_word_state.s.numnibbles ∨
      (pocsag_rxbit test_config first_word_state 1).s.numnibbles =
        first_word_state.s.numnibbles + 5 ∨
      (pocsag_rxbit test_config first_word_state 1).s.numnibbles = 0) :=
  numnibbles_steps_of_five test_config first_word_state 1 ⟨_, rfl⟩

theorem nibble_limit_eq (cfg : Config) (h3 : 3 ≤ cfg.buffer_size)
    (hB : cfg.buffer_size < 2 ^ 63) : nibble_limit cfg = 2 * cfg.buffer_size - 5 := by
  unfold nibble_limit
  have e : cfg.buffer_size * 2 + 2 ^ 64 - 5 = (2 * cfg.buffer_size - 5) + 2 ^ 64 := by omega
  rw [e, Nat.add_mod_right]
  exact Nat.mod_eq_of_lt (by omega)

/-- C18, amended: in every state reachable from a freshly initialised
receiver, `numnibbles <= 2 * sizeof(buffer)`, for every buffer capacity of at
least 3 bytes. -/
theorem numnibbles_bounded (cfg : Config) (r : Receiver) (h : Reachable cfg r)
    (h3 : 3 ≤ cfg.buffer_size) (hB : cfg.buffer_size < 2 ^ 63) :
    r.s.numnibbles ≤ 2 * cfg.buffer_size := by
  refine reachable_induction cfg (fun r => r.s.numnibbles ≤ 2 * cfg.buffer_size)
    (Nat.zero_le _) ?_ r h
  intro r b _ ih
  have hl := nibble_limit_eq cfg h3 hB
  rcases rxbit_numnibbles cfg r b with e | e | e
  · show (pocsag_rxbit cfg r b).s.numnibbles ≤ _
    rw [e]; exact ih
  · show (pocsag_rxbit cfg r b).s.numnibbles ≤ _
    rw [e.1]
    have := e.2
    omega
  · show (pocsag_rxbit cfg r b).s.numnibbles ≤ _
    rw [e]; exact Nat.zero_le _

theorem numnibbles_bounded_witness :
    first_word_state.s.numnibbles ≤ 2 * test_config.buffer_size :=
  numnibbles_bounded test_config first_word_state ⟨_, rfl⟩ (by decide) (by decide)

/-- The printed line depends on the pending message only. -/
theorem printmessage_congr (cfg : Config) (s t : l2_state_pocsag) (sync : Bool)
    (ha : s.address = t.address) (hf : s.function = t.function)
    (hb : s.buffer = t.buffer) (hn : s.numnibbles = t.numnibbles) :
    pocsag_printmessage cfg s sync = pocsag_printmessage cfg t sync := by
  unfold pocsag_printmessage render_payload
  rw [ha, hf, hb, hn]

theorem printmessage_unset (cfg : Config) (s : l2_state_pocsag) (sync : Bool)
    (ha : s.address = -1) (hf : s.function = -1) : pocsag_printmessage cfg s sync = [] := by
  unfold pocsag_printmessage
  rw [ha, hf]
  simp

theorem printmessage_set (cfg : Config) (s : l2_state_pocsag)
    (ha : -1 ≤ s.address) (hf : -1 ≤ s.function) (hn : 0 < s.numnibbles)
    (hset : s.address ≠ -1 ∨ s.function ≠ -1) :
    (pocsag_printmessage cfg s true).length = 1 := by
  unfold pocsag_printmessage
  have h1 : ¬ (cfg.pocsag_show_partial_decodes = 0 ∧
      (s.address = -2 ∨ s.function = -2 ∨ true = false)) := by
    rintro ⟨-, h | h | h⟩
    · omega
    · omega
    · exact Bool.noConfusion h
  have h2 : ¬ (cfg.pocsag_prune_empty ≠ 0 ∧ s.numnibbles = 0) := by
    rintro ⟨-, h⟩
    omega
  rw [if_neg h1, if_neg h2, if_pos hset, if_neg (by omega)]
  rfl

theorem process_word_header (cfg : Config) (s : l2_state_pocsag) (f v : Nat)
    (ha : -1 ≤ s.address) (hf : -1 ≤ s.function) :
    -1 ≤ (process_word cfg s f v).1.address ∧ -1 ≤ (process_word cfg s f v).1.function := by
  obtain ⟨-, -, -, f4, f5, -⟩ := repair_frame cfg s v
  cases hi : is_idle v with
  | true =>
    by_cases hn : s.numnibbles > 0
    · rw [process_word_idle_flush cfg s f v hi hn]
      exact ⟨le_refl _, le_refl _⟩
    · rw [process_word_idle_keep cfg s f v hi (by omega)]
      exact ⟨ha, hf⟩
  | false =>
    by_cases hm : (pocsag_brute_repair cfg s v).2.2 &&& POCSAG_MESSAGE_DETECTION = 0
    · rw [process_word_address cfg s f v hi hm]
      constructor
      · show (-1 : Int) ≤ ((pocsag_getAddress (pocsag_brute_repair cfg s v).2.2 f : Nat) : Int)
        omega
      · show (-1 : Int) ≤ ((pocsag_getFunction (pocsag_brute_repair cfg s v).2.2 : Nat) : Int)
        omega
    · by_cases hn : s.numnibbles > nibble_limit cfg
      · rw [process_word_message_flush cfg s f v hi hm hn]
        exact ⟨le_refl _, le_refl _⟩
      · rw [process_word_message_store cfg s f v hi hm (by omega)]
        exact ⟨by rw [← f4] at ha; exact ha, by rw [← f5] at hf; exact hf⟩

/-- In a reachable state the pending address and function are -1 (unset) or
the non-negative values an address word has set; they are never -2. -/
theorem reachable_header (cfg : Config) (r : Receiver) (h : Reachable cfg r) :
    -1 ≤ r.s.address ∧ -1 ≤ r.s.function := by
  refine reachable_induction cfg (fun r => -1 ≤ r.s.address ∧ -1 ≤ r.s.function)
    ⟨le_refl _, le_refl _⟩ ?_ r h
  intro r b _ ih
  show -1 ≤ (pocsag_rxbit cfg r b).s.address ∧ -1 ≤ (pocsag_rxbit cfg r b).s.function
  rw [rxbit_eq]
  rcases do_one_bit_pending cfg (with_window r (shift_in r.s.rx_data b))
      (handed cfg (shift_in r.s.rx_data b)) with e | e
  · rw [e.2.1, e.2.2.1]
    exact ih
  · rw [e.2.2.2.2.1, e.2.2.2.2.2.1]
    exact process_word_header cfg _ _ _ ih.1 ih.2

theorem is_idle_of (v : Nat) (hv : v = POCSAG_IDLE ∨ v = POCSAG_IDLEOP) :
    is_idle v = true ∧ is_sync v = false := by
  rcases hv with h | h <;> subst h <;> exact ⟨by decide, by decide⟩

/-- C16, counterexample: after SYNC, an address codeword and IDLE, the
completed IDLE word has been processed with no nibbles pending and the
address and function of the address word are still set; after SYNC, a message
codeword and IDLE, five nibbles were pending when the IDLE word completed and
no message has been emitted. -/
theorem idle_keeps_header_and_drops_unaddressed :
    (feed test_config (fresh test_config)
      (bits_of_word POCSAG_SYNC ++ bits_of_word scenario_address_word ++
        bits_of_word POCSAG_IDLE)).s.address = 0x12340 ∧
    (feed test_config (fresh test_config)
      (bits_of_word POCSAG_SYNC ++ bits_of_word scenario_address_word ++
        bits_of_word POCSAG_IDLE)).s.function = 2 ∧
    (feed test_config (fresh test_config)
      (bits_of_word POCSAG_SYNC ++ bits_of_word scenario_message_word ++
        (bits_of_word POCSAG_IDLE).take 31)).s.numnibbles = 5 ∧
    (feed test_config (fresh test_config)
      (bits_of_word POCSAG_SYNC ++ bits_of_word scenario_message_word ++
        bits_of_word POCSAG_IDLE)).s.numnibbles = 0 ∧
    (feed test_config (fresh test_config)
      (bits_of_word POCSAG_SYNC ++ bits_of_word scenario_message_word ++
        bits_of_word POCSAG_IDLE)).out = [] := by
  decide!

/-- The receiver after the call of `do_one_bit` that completes a word, in
terms of `process_word`. -/
theorem do_one_bit_word_fields (cfg : Config) (r : Receiver) (v : Nat)
    (hs : r.s.state ≠ states.NO_SYNC) (hsy : is_sync v = false)
    (hbit : (r.s.rx_bit + 1) % 32 = 0) :
    (do_one_bit cfg r v).s.numnibbles =
      (process_word cfg (word_start cfg r.s) (r.received_words / 2) v).1.numnibbles ∧
    (do_one_bit cfg r v).s.address =
      (process_word cfg (word_start cfg r.s) (r.received_words / 2) v).1.address ∧
    (do_one_bit cfg r v).s.function =
      (process_word cfg (word_start cfg r.s) (r.received_words / 2) v).1.function ∧
    (do_one_bit cfg r v).s.buffer =
      (process_word cfg (word_start cfg r.s) (r.received_words / 2) v).1.buffer ∧
    (do_one_bit cfg r v).out =
      r.out ++ (process_word cfg (word_start cfg r.s) (r.received_words / 2) v).2 ∧
    (do_one_bit cfg r v).s.rx_bit = 0 ∧
    (do_one_bit cfg r v).received_words =
      (if r.received_words + 1 = 16 then 0 else r.received_words + 1) ∧
    (do_one_bit cfg r v).s.state =
      (if r.received_words + 1 = 16 then states.NO_SYNC
       else (process_word cfg (word_start cfg r.s) (r.received_words / 2) v).1.state) := by
  have hb : (process_word cfg (word_start cfg r.s) (r.received_words / 2) v).1.rx_bit = 0 := by
    rw [(process_word_frame cfg _ _ v).2.1]
    exact hbit
  rw [do_one_bit_word cfg r v hs hsy hbit]
  by_cases h16 : r.received_words + 1 = 16
  · rw [if_pos h16, if_pos h16, if_pos h16]
    exact ⟨rfl, rfl, rfl, rfl, rfl, hb, rfl, rfl⟩
  · rw [if_neg h16, if_neg h16, if_neg h16]
    exact ⟨rfl, rfl, rfl, rfl, rfl, hb, rfl, rfl⟩

theorem do_one_bit_idle (cfg : Config) (r : Receiver) (v : Nat)
    (hs : r.s.state ≠ states.NO_SYNC) (hbit : (r.s.rx_bit + 1) % 32 = 0)
    (hi : is_idle v = true) (hsy : is_sync v = false) :
    (do_one_bit cfg r v).s.numnibbles = 0 ∧
    (0 < r.s.numnibbles →
      (do_one_bit cfg r v).s.address = -1 ∧ (do_one_bit cfg r v).s.function = -1) ∧
    (r.s.numnibbles = 0 →
      (do_one_bit cfg r v).s.address = r.s.address ∧
      (do_one_bit cfg r v).s.function = r.s.function) ∧
    (do_one_bit cfg r v).out =
      r.out ++ (if 0 < r.s.numnibbles then pocsag_printmessage cfg r.s true else []) := by
  obtain ⟨e1, e2, e3, -, e5, -⟩ := do_one_bit_word_fields cfg r v hs hsy hbit
  rw [e1, e2, e3, e5]
  by_cases hn : 0 < r.s.numnibbles
  · rw [process_word_idle_flush cfg (word_start cfg r.s) _ _ hi hn, if_pos hn]
    refine ⟨rfl, fun _ => ⟨rfl, rfl⟩, fun h0 => by omega, ?_⟩
    rw [printmessage_congr cfg (word_start cfg r.s) r.s true rfl rfl rfl rfl]
  · have h0 : r.s.numnibbles = 0 := by omega
    rw [process_word_idle_keep cfg (word_start cfg r.s) _ _ hi h0, if_neg hn]
    exact ⟨h0, fun h => by omega, fun _ => ⟨rfl, rfl⟩, rfl⟩

/-- C16, amended: in a reachable state in sync, when the call of
`pocsag_rxbit` that completes a word hands `do_one_bit` IDLE or IDLE_ALT,
`numnibbles` is 0 afterwards; if `numnibbles` was above 0 before, address and
function are both unset (-1) afterwards, and otherwise they are left as they
were; and one message is emitted during the call exactly when `numnibbles`
was above 0 and the address or the function was set, none otherwise. -/
theorem idle_word_flushes (cfg : Config) (r : Receiver) (bit : Int) (hr : Reachable cfg r)
    (hs : r.s.state = states.SYNC ∨ r.s.state = states.MESSAGE)
    (hbit : (r.s.rx_bit + 1) % 32 = 0)
    (hv : handed cfg (shift_in r.s.rx_data bit) = POCSAG_IDLE ∨
      handed cfg (shift_in r.s.rx_data bit) = POCSAG_IDLEOP) :
    (pocsag_rxbit cfg r bit).s.numnibbles = 0 ∧
    (0 < r.s.numnibbles →
      (pocsag_rxbit cfg r bit).s.address = -1 ∧ (pocsag_rxbit cfg r bit).s.function = -1) ∧
    (r.s.numnibbles = 0 →
      (pocsag_rxbit cfg r bit).s.address = r.s.address ∧
      (pocsag_rxbit cfg r bit).s.function = r.s.function) ∧
    (∃ printed, (pocsag_rxbit cfg r bit).out = r.out ++ printed ∧
      printed.length =
        if 0 < r.s.numnibbles ∧ (r.s.address ≠ -1 ∨ r.s.function ≠ -1) then 1 else 0) := by
  obtain ⟨hi, hsy⟩ := is_idle_of _ hv
  obtain ⟨ha, hf⟩ := reachable_header cfg r hr
  rw [rxbit_eq]
  obtain ⟨c1, c2, c3, c4⟩ := do_one_bit_idle cfg (with_window r (shift_in r.s.rx_data bit)) _
    (in_sync_of r.s hs) hbit hi hsy
  refine ⟨c1, c2, c3, _, c4, ?_⟩
  show (if 0 < r.s.numnibbles then
      pocsag_printmessage cfg (with_window r (shift_in r.s.rx_data bit)).s true else []).length = _
  rw [printmessage_congr cfg (with_window r (shift_in r.s.rx_data bit)).s r.s true
    rfl rfl rfl rfl]
  by_cases hn : 0 < r.s.numnibbles
  · rw [if_pos hn]
    by_cases hset : r.s.address ≠ -1 ∨ r.s.function ≠ -1
    · rw [if_pos ⟨hn, hset⟩]
      exact printmessage_set cfg _ ha hf hn hset
    · rw [if_neg (fun h => hset h.2)]
      have h1 : r.s.address = -1 := by
        by_contra h
        exact hset (Or.inl h)
      have h2 : r.s.function = -1 := by
        by_contra h
        exact hset (Or.inr h)
      rw [printmessage_unset cfg _ true h1 h2]
      rfl
  · rw [if_neg hn, if_neg (fun h => hn h.1)]
    rfl

theorem idle_word_flushes_witness :
    Reachable test_config idle_pending_state ∧
    0 < idle_pending_state.s.numnibbles ∧
    (pocsag_rxbit test_config idle_pending_state 0).s.numnibbles = 0 ∧
    (pocsag_rxbit test_config idle_pending_state 0).s.address = -1 :=
  ⟨⟨_, rfl⟩, by decide!,
   (idle_word_flushes test_config idle_pending_state 0 ⟨_, rfl⟩ (Or.inr (by decide!))
      (by decide!) (Or.inl (by decide!))).1,
   ((idle_word_flushes test_config idle_pending_state 0 ⟨_, rfl⟩ (Or.inr (by decide!))
      (by decide!) (Or.inl (by decide!))).2.1 (by decide!)).1⟩

/-- C17, amended: when a message word (not SYNC, not idle, MSB 1 after
repair) completes while `numnibbles > 2 * sizeof(buffer) - 5`, the pending
message is flushed through `pocsag_printmessage`, `numnibbles` becomes 0,
address and function become unset, the buffer is left as it was (the word is
not stored), `rx_bit` wraps to 0 and `received_words` is incremented; the
state becomes MESSAGE, unless the word is the sixteenth of its batch: then
`received_words` is reset to 0 and the state becomes NO_SYNC, as for any
other sixteenth word. -/
theorem overflow_flushes (cfg : Config) (r : Receiver) (v : Nat)
    (h3 : 3 ≤ cfg.buffer_size) (hB : cfg.buffer_size < 2 ^ 63)
    (hs : r.s.state = states.SYNC ∨ r.s.state = states.MESSAGE)
    (hbit : (r.s.rx_bit + 1) % 32 = 0) (hsy : is_sync v = false) (hi : is_idle v = false)
    (hm : repaired cfg v &&& POCSAG_MESSAGE_DETECTION ≠ 0)
    (hn : 2 * cfg.buffer_size - 5 < r.s.numnibbles) :
    (do_one_bit cfg r v).out = r.out ++ pocsag_printmessage cfg r.s true ∧
    (do_one_bit cfg r v).s.numnibbles = 0 ∧
    (do_one_bit cfg r v).s.address = -1 ∧
    (do_one_bit cfg r v).s.function = -1 ∧
    (do_one_bit cfg r v).s.buffer = r.s.buffer ∧
    (do_one_bit cfg r v).s.rx_bit = 0 ∧
    (do_one_bit cfg r v).received_words =
      (if r.received_words + 1 = 16 then 0 else r.received_words + 1) ∧
    (do_one_bit cfg r v).s.state =
      (if r.received_words + 1 = 16 then states.NO_SYNC else states.MESSAGE) := by
  obtain ⟨e1, e2, e3, e4, e5, e6, e7, e8⟩ :=
    do_one_bit_word_fields cfg r v (in_sync_of r.s hs) hsy hbit
  have hl : (word_start cfg r.s).numnibbles > nibble_limit cfg := by
    rw [nibble_limit_eq cfg h3 hB]
    exact hn
  have hm1 : (pocsag_brute_repair cfg (word_start cfg r.s) v).2.2 &&&
      POCSAG_MESSAGE_DETECTION ≠ 0 := by
    rw [repaired_eq]
    exact hm
  obtain ⟨-, -, -, f4, f5, f6, f7, -⟩ := repair_frame cfg (word_start cfg r.s) v
  rw [e1, e2, e3, e4, e5, e6, e7, e8,
    process_word_message_flush cfg (word_start cfg r.s) _ v hi hm1 hl]
  exact ⟨congrArg (fun l => r.out ++ l) (printmessage_congr cfg _ r.s true f4 f5 f6 f7),
    rfl, rfl, rfl, f6, rfl, rfl, rfl⟩

theorem seen_append (cfg : Config) (as bs : List Int) :
    ∀ w, seen cfg w (as ++ bs) = seen cfg w as ++ seen cfg (window_after w as) bs := by
  induction as with
  | nil => intro w; rfl
  | cons a as ih =>
    intro w
    show handed cfg (shift_in w a) :: seen cfg (shift_in w a) (as ++ bs) = _
    rw [ih]
    rfl

theorem window_after_append (w : Nat) (as bs : List Int) :
    window_after w (as ++ bs) = window_after (window_after w as) bs := by
  unfold window_after
  rw [List.foldl_append]

theorem same_pending_refl (a : Receiver) : same_pending a a :=
  ⟨rfl, rfl, rfl, rfl, rfl, rfl, rfl⟩

theorem same_pending_trans (a b c : Receiver) (h1 : same_pending a b) (h2 : same_pending b c) :
    same_pending a c := by
  obtain ⟨a1, a2, a3, a4, a5, a6, a7⟩ := h1
  obtain ⟨b1, b2, b3, b4, b5, b6, b7⟩ := h2
  exact ⟨a1.trans b1, a2.trans b2, a3.trans b3, a4.trans b4, a5.trans b5, a6.trans b6,
    a7.trans b7⟩

/-- Bits inside a word: while the receiver is in sync, no sync word shows and
the word is not complete, only `rx_bit`, the window and the counters move. -/
theorem feed_inside (cfg : Config) (bits : List Int) :
    ∀ r : Receiver, r.s.state ≠ states.NO_SYNC → r.s.rx_bit + bits.length < 32 →
      (∀ v ∈ seen cfg r.s.rx_data bits, is_sync v = false) →
      same_pending (feed cfg r bits) r ∧
      (feed cfg r bits).s.rx_bit = r.s.rx_bit + bits.length := by
  induction bits with
  | nil => intro r _ _ _; exact ⟨same_pending_refl r, rfl⟩
  | cons b bs ih =>
    intro r hs hlen hq
    have hq1 : is_sync (handed cfg (shift_in r.s.rx_data b)) = false :=
      hq _ (List.mem_cons_self _ _)
    have hlen1 : r.s.rx_bit + 1 < 32 := by
      simp only [List.length_cons] at hlen
      omega
    have hmod : (r.s.rx_bit + 1) % 32 = r.s.rx_bit + 1 := Nat.mod_eq_of_lt hlen1
    have hstep : pocsag_rxbit cfg r b = _ :=
      (rxbit_eq cfg r b).trans
        (do_one_bit_inside cfg (with_window r (shift_in r.s.rx_data b)) _ hs hq1
          (by show (r.s.rx_bit + 1) % 32 ≠ 0; omega))
    have hsp : same_pending (pocsag_rxbit cfg r b) r := by
      rw [hstep]
      exact ⟨rfl, rfl, rfl, rfl, rfl, rfl, rfl⟩
    have hrb : (pocsag_rxbit cfg r b).s.rx_bit = r.s.rx_bit + 1 := by
      rw [hstep]
      exact hmod
    have hw : (pocsag_rxbit cfg r b).s.rx_data = shift_in r.s.rx_data b := rxbit_rx_data cfg r b
    obtain ⟨i1, i2⟩ := ih (pocsag_rxbit cfg r b) (by rw [hsp.1]; exact hs)
      (by rw [hrb]; simp only [List.length_cons] at hlen; omega)
      (by
        intro v hv
        rw [hw] at hv
        exact hq v (List.mem_cons_of_mem _ hv))
    rw [feed_cons]
    refine ⟨same_pending_trans _ _ _ i1 hsp, ?_⟩
    rw [i2, hrb]
    simp only [List.length_cons]
    omega

/-- Bits while not in sync and with no sync word showing: only the window and
the counters move. -/
theorem feed_unsynced (cfg : Config) (bits : List Int) :
    ∀ r : Receiver, r.s.state = states.NO_SYNC →
      (∀ v ∈ seen cfg r.s.rx_data bits, is_sync v = false) →
      same_pending (feed cfg r bits) r ∧ (feed cfg r bits).s.rx_bit = r.s.rx_bit := by
  induction bits with
  | nil => intro r _ _; exact ⟨same_pending_refl r, rfl⟩
  | cons b bs ih =>
    intro r hs hq
    have hq1 : is_sync (handed cfg (shift_in r.s.rx_data b)) = false :=
      hq _ (List.mem_cons_self _ _)
    have hstep : pocsag_rxbit cfg r b = _ :=
      (rxbit_eq cfg r b).trans
        (do_one_bit_unsynced cfg (with_window r (shift_in r.s.rx_data b)) _ hs hq1)
    have hsp : same_pending (pocsag_rxbit cfg r b) r := by
      rw [hstep]
      exact ⟨rfl, rfl, rfl, rfl, rfl, rfl, rfl⟩
    have hrb : (pocsag_rxbit cfg r b).s.rx_bit = r.s.rx_bit := by
      rw [hstep]
      rfl
    have hw : (pocsag_rxbit cfg r b).s.rx_data = shift_in r.s.rx_data b := rxbit_rx_data cfg r b
    obtain ⟨i1, i2⟩ := ih (pocsag_rxbit cfg r b) (by rw [hsp.1]; exact hs)
      (by
        intro v hv
        rw [hw] at hv
        exact hq v (List.mem_cons_of_mem _ hv))
    rw [feed_cons]
    exact ⟨same_pending_trans _ _ _ i1 hsp, i2.trans hrb⟩

theorem seen_snoc_mem (cfg : Config) (w : Nat) (pre : List Int) (b : Int) :
    handed cfg (window_after w (pre ++ [b])) ∈ seen cfg w (pre ++ [b]) := by
  rw [seen_append, window_after_snoc]
  apply List.mem_append_right
  exact List.mem_cons_self _ _

theorem seen_prefix_mem (cfg : Config) (w : Nat) (pre post : List Int) (v : Nat)
    (h : v ∈ seen cfg w pre) : v ∈ seen cfg w (pre ++ post) := by
  rw [seen_append]
  exact List.mem_append_left _ h

/-- The 32 bits of a word that starts at `rx_bit = 0` in sync, with no sync
word showing: the last call hands the completed word to `do_one_bit` in a
state whose pending message is the one before the word. -/
theorem feed_word (cfg : Config) (r : Receiver) (pre : List Int) (b : Int)
    (hs : r.s.state ≠ states.NO_SYNC) (h0 : r.s.rx_bit = 0) (hlen : pre.length = 31)
    (hq : ∀ v ∈ seen cfg r.s.rx_data (pre ++ [b]), is_sync v = false) :
    ∃ r1, same_pending r1 r ∧ (r1.s.rx_bit + 1) % 32 = 0 ∧
      is_sync (handed cfg (window_after r.s.rx_data (pre ++ [b]))) = false ∧
      feed cfg r (pre ++ [b]) =
        do_one_bit cfg r1 (handed cfg (window_after r.s.rx_data (pre ++ [b]))) := by
  obtain ⟨i1, i2⟩ := feed_inside cfg pre r hs (by omega)
    (fun v hv => hq v (seen_prefix_mem cfg _ pre [b] v hv))
  refine ⟨with_window (feed cfg r pre) (shift_in (feed cfg r pre).s.rx_data b), i1, ?_,
    hq _ (seen_snoc_mem cfg _ pre b), ?_⟩
  · show ((feed cfg r pre).s.rx_bit + 1) % 32 = 0
    rw [i2, h0, hlen]
  · rw [feed_snoc, rxbit_eq, window_after_snoc, feed_rx_data]

theorem split_last (bits : List Int) (n : Nat) (h : bits.length = n + 1) :
    ∃ pre b, bits = pre ++ [b] ∧ pre.length = n := by
  rcases List.eq_nil_or_concat bits with e | ⟨pre, b, e⟩
  · subst e
    simp at h
  · subst e
    refine ⟨pre, b, by simp, ?_⟩
    simp at h
    exact h

/-- A message word (not idle, MSB 1 after repair) received in sync while no
address is pending: nothing is printed, the header stays unset, and the five
nibbles are stored unless the buffer is at its cap, in which case the count
restarts at 0. -/
theorem feed_message_word (cfg : Config) (r : Receiver) (bits : List Int)
    (hs : r.s.state ≠ states.NO_SYNC) (h0 : r.s.rx_bit = 0) (hlen : bits.length = 32)
    (hq : ∀ v ∈ seen cfg r.s.rx_data bits, is_sync v = false)
    (hi : is_idle (handed cfg (window_after r.s.rx_data bits)) = false)
    (hm : repaired cfg (handed cfg (window_after r.s.rx_data bits)) &&&
      POCSAG_MESSAGE_DETECTION ≠ 0)
    (ha : r.s.address = -1) (hf : r.s.function = -1) :
    (feed cfg r bits).out = r.out ∧
    (feed cfg r bits).s.address = -1 ∧
    (feed cfg r bits).s.function = -1 ∧
    (feed cfg r bits).s.rx_bit = 0 ∧
    (feed cfg r bits).received_words =
      (if r.received_words + 1 = 16 then 0 else r.received_words + 1) ∧
    (feed cfg r bits).s.state =
      (if r.received_words + 1 = 16 then states.NO_SYNC else states.MESSAGE) ∧
    (feed cfg r bits).s.numnibbles =
      (if r.s.numnibbles > nibble_limit cfg then 0 else r.s.numnibbles + 5) := by
  obtain ⟨pre, b, rfl, hpre⟩ := split_last bits 31 hlen
  obtain ⟨r1, ⟨p1, p2, p3, p4, p5, p6, p7⟩, hb, hsy, hfeed⟩ := feed_word cfg r pre b hs h0 hpre hq
  obtain ⟨e1, e2, e3, -, e5, e6, e7, e8⟩ :=
    do_one_bit_word_fields cfg r1 _ (by rw [p1]; exact hs) hsy hb
  have hm1 : (pocsag_brute_repair cfg (word_start cfg r1.s)
      (handed cfg (window_after r.s.rx_data (pre ++ [b])))).2.2 &&&
      POCSAG_MESSAGE_DETECTION ≠ 0 := by
    rw [repaired_eq]
    exact hm
  obtain ⟨-, -, -, f4, f5, f6, f7, -⟩ := repair_frame cfg (word_start cfg r1.s)
    (handed cfg (window_after r.s.rx_data (pre ++ [b])))
  have ha1 : (word_start cfg r1.s).address = -1 := p4.trans ha
  have hf1 : (word_start cfg r1.s).function = -1 := p5.trans hf
  have hn1 : (word_start cfg r1.s).numnibbles = r.s.numnibbles := p7
  rw [hfeed, e1, e2, e3, e5, e6, e7, e8, p2, p3]
  by_cases hn : r.s.numnibbles > nibble_limit cfg
  · rw [process_word_message_flush cfg (word_start cfg r1.s) _ _ hi hm1 (by rw [hn1]; exact hn),
      if_pos hn]
    have hp : ∀ t : l2_state_pocsag, t.address = -1 → t.function = -1 →
        r.out ++ pocsag_printmessage cfg t true = r.out := fun t a f => by
      rw [printmessage_unset cfg t true a f, List.append_nil]
    exact ⟨hp _ (f4.trans ha1) (f5.trans hf1), rfl, rfl, rfl, rfl, rfl, rfl⟩
  · rw [process_word_message_store cfg (word_start cfg r1.s) _ _ hi hm1 (by rw [hn1]; omega),
      if_neg hn]
    refine ⟨List.append_nil _, f4.trans ha1, f5.trans hf1, rfl, rfl, rfl, ?_⟩
    show (handleNextWord _ _ _).2 = _
    rw [handleNextWord_count, hn1]

/-- An idle word received in sync while no nibbles are pending changes
nothing but the place in the batch. -/
theorem feed_idle_word (cfg : Config) (r : Receiver) (bits : List Int)
    (hs : r.s.state ≠ states.NO_SYNC) (h0 : r.s.rx_bit = 0) (hlen : bits.length = 32)
    (hq : ∀ v ∈ seen cfg r.s.rx_data bits, is_sync v = false)
    (hi : is_idle (handed cfg (window_after r.s.rx_data bits)) = true)
    (hn : r.s.numnibbles = 0) :
    (feed cfg r bits).out = r.out ∧
    (feed cfg r bits).s.address = r.s.address ∧
    (feed cfg r bits).s.function = r.s.function ∧
    (feed cfg r bits).s.rx_bit = 0 ∧
    (feed cfg r bits).received_words =
      (if r.received_words + 1 = 16 then 0 else r.received_words + 1) ∧
    (feed cfg r bits).s.state =
      (if r.received_words + 1 = 16 then states.NO_SYNC else r.s.state) ∧
    (feed cfg r bits).s.numnibbles = 0 := by
  obtain ⟨pre, b, rfl, hpre⟩ := split_last bits 31 hlen
  obtain ⟨r1, ⟨p1, p2, p3, p4, p5, p6, p7⟩, hb, hsy, hfeed⟩ := feed_word cfg r pre b hs h0 hpre hq
  obtain ⟨e1, e2, e3, -, e5, e6, e7, e8⟩ :=
    do_one_bit_word_fields cfg r1 _ (by rw [p1]; exact hs) hsy hb
  have hn1 : (word_start cfg r1.s).numnibbles = 0 := p7.trans hn
  rw [hfeed, e1, e2, e3, e5, e6, e7, e8, p2, p3,
    process_word_idle_keep cfg (word_start cfg r1.s) _ _ hi hn1]
  exact ⟨List.append_nil _, p4, p5, rfl, rfl, by rw [← p1]; rfl, hn1⟩

/-- Acquiring sync: bits received in state NO_SYNC, the last of which makes
the sync word show for the first time. -/
theorem feed_acquire (cfg : Config) (r : Receiver) (bits : List Int)
    (hs : r.s.state = states.NO_SYNC) (hlen : bits.length = 32)
    (hq : ∀ v ∈ seen cfg r.s.rx_data (bits.take 31), is_sync v = false)
    (hv : handed cfg (window_after r.s.rx_data bits) = POCSAG_SYNC) :
    (feed cfg r bits).out = r.out ∧
    (feed cfg r bits).s.address = r.s.address ∧
    (feed cfg r bits).s.function = r.s.function ∧
    (feed cfg r bits).s.rx_bit = 0 ∧
    (feed cfg r bits).received_words = 0 ∧
    (feed cfg r bits).s.state = states.SYNC ∧
    (feed cfg r bits).s.numnibbles = r.s.numnibbles := by
  obtain ⟨pre, b, rfl, hpre⟩ := split_last bits 31 hlen
  have htake : (pre ++ [b]).take 31 = pre := by
    rw [← hpre, List.take_left]
  rw [htake] at hq
  obtain ⟨⟨p1, p2, p3, p4, p5, p6, p7⟩, -⟩ := feed_unsynced cfg pre r hs hq
  have hsync : is_sync (handed cfg (shift_in (feed cfg r pre).s.rx_data b)) = true := by
    rw [feed_rx_data, ← window_after_snoc, hv]
    exact is_sync_SYNC
  rw [feed_snoc, rxbit_eq,
    do_one_bit_acquire cfg (with_window (feed cfg r pre) (shift_in (feed cfg r pre).s.rx_data b))
      _ (p1.trans hs) hsync]
  exact ⟨p3, p4, p5, rfl, rfl, rfl, p7⟩

theorem feed_nil (cfg : Config) (r : Receiver) : feed cfg r [] = r := rfl

theorem present_length (cfg : Config) (w : Nat) : (present cfg w).length = 32 := by
  unfold present
  simp

theorem present_getD (cfg : Config) (w k : Nat) (hk : k < 32) :
    (present cfg w).getD k 1 =
      if w.testBit (31 - k) = decide (cfg.pocsag_invert_input ≠ 0) then 1 else 0 := by
  unfold present
  rw [List.getD_eq_getElem _ _ (by simp; exact hk)]
  simp

/-- After the 32 bits that present `w`, `do_one_bit` is handed `w`. -/
theorem present_window (cfg : Config) (w0 w : Nat) (hw : w < 2 ^ 32) :
    handed cfg (window_after w0 (present cfg w)) = w := by
  have hlt : window_after w0 (present cfg w) < 2 ^ 32 := by
    obtain ⟨pre, b, e, -⟩ := split_last (present cfg w) 31 (present_length cfg w)
    rw [e, window_after_snoc]
    exact shift_in_lt _ _
  apply Nat.eq_of_testBit_eq
  intro i
  by_cases hi : i < 32
  · rw [handed_testBit cfg _ i hi,
      window_after_testBit _ _ i hi (by rw [present_length]; exact hi), present_length,
      present_getD cfg w _ (by omega)]
    have e : 31 - (32 - 1 - i) = i := by omega
    rw [e]
    by_cases h : cfg.pocsag_invert_input ≠ 0
    · rw [if_pos h, decide_eq_true h]
      cases w.testBit i <;> rfl
    · rw [if_neg h, decide_eq_false h]
      cases w.testBit i <;> rfl
  · have h32 : 2 ^ 32 ≤ 2 ^ i := Nat.pow_le_pow_right (by decide) (by omega)
    rw [Nat.testBit_lt_two_pow (lt_of_lt_of_le (handed_lt cfg _ hlt) h32),
      Nat.testBit_lt_two_pow (lt_of_lt_of_le hw h32)]

theorem not_idle_of_msb (w : Nat) (h : w &&& POCSAG_MESSAGE_DETECTION ≠ 0) :
    is_idle w = false := by
  unfold is_idle
  apply decide_eq_false
  rintro (e | e) <;> subst e <;> exact h (by decide)

/-- A run of message words (MSB 1 before and after repair) received in sync
while no address is pending and no sync word shows: nothing is printed, the
header stays unset, the words are counted, and the batch ends with the
sixteenth word. -/
theorem feed_message_words (cfg : Config) (ws : List Nat) :
    ∀ r : Receiver, r.s.state ≠ states.NO_SYNC → r.s.rx_bit = 0 →
      r.s.address = -1 → r.s.function = -1 → r.received_words + ws.length ≤ 16 →
      (∀ v ∈ seen cfg r.s.rx_data (ws.flatMap (present cfg)), is_sync v = false) →
      (∀ w ∈ ws, w < 2 ^ 32 ∧ w &&& POCSAG_MESSAGE_DETECTION ≠ 0 ∧
        repaired cfg w &&& POCSAG_MESSAGE_DETECTION ≠ 0) →
      (feed cfg r (ws.flatMap (present cfg))).out = r.out ∧
      (feed cfg r (ws.flatMap (present cfg))).s.address = -1 ∧
      (feed cfg r (ws.flatMap (present cfg))).s.function = -1 ∧
      (feed cfg r (ws.flatMap (present cfg))).s.rx_bit = 0 ∧
      (ws ≠ [] →
        (feed cfg r (ws.flatMap (present cfg))).received_words =
          (if r.received_words + ws.length = 16 then 0 else r.received_words + ws.length) ∧
        (feed cfg r (ws.flatMap (present cfg))).s.state =
          (if r.received_words + ws.length = 16 then states.NO_SYNC else states.MESSAGE)) ∧
      (r.s.numnibbles + 5 * ws.length ≤ nibble_limit cfg + 5 →
        (feed cfg r (ws.flatMap (present cfg))).s.numnibbles =
          r.s.numnibbles + 5 * ws.length) := by
  induction ws with
  | nil =>
    intro r _ h0 ha hf _ _ _
    exact ⟨rfl, ha, hf, h0, fun h => absurd rfl h, fun _ => rfl⟩
  | cons w ws ih =>
    intro r hs h0 ha hf hcount hq hws
    obtain ⟨hw, hmsb, hrep⟩ := hws w (List.mem_cons_self _ _)
    have hflat : (w :: ws).flatMap (present cfg) = present cfg w ++ ws.flatMap (present cfg) :=
      List.flatMap_cons _ _ _
    rw [hflat] at hq ⊢
    have hv := present_window cfg r.s.rx_data w hw
    obtain ⟨m1, m2, m3, m4, m5, m6, m7⟩ := feed_message_word cfg r (present cfg w) hs h0
      (present_length cfg w) (fun v hv => hq v (seen_prefix_mem cfg _ _ _ v hv))
      (by rw [hv]; exact not_idle_of_msb w hmsb) (by rw [hv]; exact hrep) ha hf
    rw [feed_append]
    simp only [List.length_cons] at hcount ⊢
    by_cases h16 : r.received_words + 1 = 16
    · have hnil : ws = [] := by
        apply List.eq_nil_of_length_eq_zero
        omega
      subst hnil
      rw [if_pos h16] at m5 m6
      rw [List.flatMap_nil, feed_nil, m1, m2, m3, m4, m5, m6, m7]
      refine ⟨rfl, rfl, rfl, rfl, fun _ => ?_, fun hn => ?_⟩
      · simp only [List.length_nil, Nat.zero_add, if_pos h16, and_self]
      · simp only [List.length_nil, Nat.zero_add] at hn ⊢
        rw [if_neg (by omega)]
    · rw [if_neg h16] at m5 m6
      have hq2 : ∀ v ∈ seen cfg (feed cfg r (present cfg w)).s.rx_data
          (ws.flatMap (present cfg)), is_sync v = false := by
        intro v hv2
        rw [feed_rx_data] at hv2
        apply hq v
        rw [seen_append]
        exact List.mem_append_right _ hv2
      obtain ⟨i1, i2, i3, i4, i5, i6⟩ := ih (feed cfg r (present cfg w))
        (by rw [m6]; exact fun h => states.noConfusion h) m4 m2 m3 (by rw [m5]; omega) hq2
        (fun x hx => hws x (List.mem_cons_of_mem _ hx))
      refine ⟨i1.trans m1, i2, i3, i4, fun _ => ?_, fun hn => ?_⟩
      · by_cases hnil : ws = []
        · subst hnil
          rw [List.flatMap_nil, feed_nil, m5, m6]
          simp only [List.length_nil, Nat.zero_add, if_neg h16, and_self]
        · obtain ⟨j1, j2⟩ := i5 hnil
          rw [m5] at j1 j2
          have e : r.received_words + 1 + ws.length = r.received_words + (ws.length + 1) := by
            omega
          rw [e] at j1 j2
          exact ⟨j1, j2⟩
      · rw [i6 (by rw [m7, if_neg (by omega)]; omega), m7, if_neg (by omega)]
        omega

theorem handed_congr (cfg cfg2 : Config)
    (h : cfg.pocsag_invert_input ≠ 0 ↔ cfg2.pocsag_invert_input ≠ 0) (w : Nat) :
    handed cfg w = handed cfg2 w := by
  unfold handed
  by_cases h1 : cfg.pocsag_invert_input ≠ 0
  · rw [if_pos h1, if_pos (h.mp h1)]
  · rw [if_neg h1, if_neg (fun h2 => h1 (h.mpr h2))]

theorem present_congr (cfg cfg2 : Config)
    (h : cfg.pocsag_invert_input ≠ 0 ↔ cfg2.pocsag_invert_input ≠ 0) (w : Nat) :
    present cfg w = present cfg2 w := by
  unfold present
  rw [decide_eq_decide.mpr h]

theorem seen_congr (cfg cfg2 : Config)
    (h : cfg.pocsag_invert_input ≠ 0 ↔ cfg2.pocsag_invert_input ≠ 0) (bits : List Int) :
    ∀ w, seen cfg w bits = seen cfg2 w bits := by
  induction bits with
  | nil => intro w; rfl
  | cons b bs ih =>
    intro w
    show handed cfg (shift_in w b) :: seen cfg (shift_in w b) bs =
      handed cfg2 (shift_in w b) :: seen cfg2 (shift_in w b) bs
    rw [handed_congr cfg cfg2 h, ih]

/-- While the sync word is shifted into the zeroed window of a fresh
receiver, it does not show before its last bit, in either polarity. -/
theorem sync_prefix_quiet (cfg : Config) :
    ∀ v ∈ seen cfg 0 ((present cfg POCSAG_SYNC).take 31), is_sync v = false := by
  by_cases h : cfg.pocsag_invert_input ≠ 0
  · have hc : cfg.pocsag_invert_input ≠ 0 ↔ inverted_config.pocsag_invert_input ≠ 0 :=
      ⟨fun _ => by decide, fun _ => h⟩
    rw [present_congr cfg inverted_config hc, seen_congr cfg inverted_config hc]
    decide
  · have hc : cfg.pocsag_invert_input ≠ 0 ↔ test_config.pocsag_invert_input ≠ 0 :=
      ⟨fun h1 => absurd h1 h, fun h1 => absurd h1 (by decide)⟩
    rw [present_congr cfg test_config hc, seen_congr cfg test_config hc]
    decide

/-- A fresh receiver that is presented the sync word is in state SYNC at the
start of a batch, with nothing pending and nothing printed. -/
theorem fresh_acquire (cfg : Config) :
    (feed cfg (fresh cfg) (present cfg POCSAG_SYNC)).out = [] ∧
    (feed cfg (fresh cfg) (present cfg POCSAG_SYNC)).s.address = -1 ∧
    (feed cfg (fresh cfg) (present cfg POCSAG_SYNC)).s.function = -1 ∧
    (feed cfg (fresh cfg) (present cfg POCSAG_SYNC)).s.rx_bit = 0 ∧
    (feed cfg (fresh cfg) (present cfg POCSAG_SYNC)).received_words = 0 ∧
    (feed cfg (fresh cfg) (present cfg POCSAG_SYNC)).s.state = states.SYNC ∧
    (feed cfg (fresh cfg) (present cfg POCSAG_SYNC)).s.numnibbles = 0 :=
  feed_acquire cfg (fresh cfg) (present cfg POCSAG_SYNC) rfl (present_length cfg POCSAG_SYNC)
    (sync_prefix_quiet cfg) (present_window cfg 0 POCSAG_SYNC (by decide))

theorem handed_handed (cfg : Config) (w : Nat) (hw : w < 2 ^ 32) :
    handed cfg (handed cfg w) = w := by
  rw [handed_eq cfg _ (handed_lt cfg w hw), handed_eq cfg w hw]
  split <;> omega

theorem present_raw_window (cfg : Config) (w0 w : Nat) (hw : w < 2 ^ 32) :
    window_after w0 (present cfg w) = handed cfg w := by
  have hlt : window_after w0 (present cfg w) < 2 ^ 32 := by
    obtain ⟨pre, b, e, -⟩ := split_last (present cfg w) 31 (present_length cfg w)
    rw [e, window_after_snoc]
    exact shift_in_lt _ _
  rw [← handed_handed cfg _ hlt, present_window cfg w0 w hw]

theorem is_sync_false_of_ne (v : Nat) (h : v ≠ POCSAG_SYNC) : is_sync v = false := by
  unfold is_sync
  exact decide_eq_false h

/-- C15, counterexample: two lists of sixteen words, each word with MSB 1 and
none of them SYNC, IDLE or IDLE_ALT. After SYNC and the first list the
receiver is in state MESSAGE with `received_words` 15: the sync word showed
one bit before the first word was complete and restarted the batch. After
SYNC and the second list a message has been emitted: the repair turned two
words into address words, and the second one flushed the pending message. -/
theorem msb_words_restart_or_emit :
    shifted_sync_words.length = 16 ∧ flipped_address_words.length = 16 ∧
    (∀ w ∈ shifted_sync_words ++ flipped_address_words,
      w &&& POCSAG_MESSAGE_DETECTION ≠ 0 ∧ w ≠ POCSAG_SYNC ∧ w ≠ POCSAG_IDLE ∧
        w ≠ POCSAG_IDLEOP) ∧
    (feed test_config (fresh test_config) (batch_stream shifted_sync_words)).s.state =
      states.MESSAGE ∧
    (feed test_config (fresh test_config) (batch_stream shifted_sync_words)).received_words =
      15 ∧
    (feed test_config (fresh test_config) (batch_stream flipped_address_words)).out.length =
      1 := by
  decide!

/-- C15, amended: starting from a freshly initialised receiver, after the 32
bits of SYNC followed by the 512 bits of any 16 words, each of which has MSB
1 before and after `pocsag_brute_repair`, and provided `do_one_bit` is not
handed the sync word during those 512 bits, the receiver is in state NO_SYNC
with `received_words` 0, no message has been emitted, address and function
are unset, and the 80 nibbles are pending when the buffer holds them. -/
theorem sixteen_message_words (cfg : Config) (ws : List Nat) (hlen : ws.length = 16)
    (hws : ∀ w ∈ ws, w < 2 ^ 32 ∧ w &&& POCSAG_MESSAGE_DETECTION ≠ 0 ∧
      repaired cfg w &&& POCSAG_MESSAGE_DETECTION ≠ 0)
    (hq : ∀ v ∈ seen cfg (handed cfg POCSAG_SYNC) (ws.flatMap (present cfg)),
      v ≠ POCSAG_SYNC) :
    (feed cfg (fresh cfg) (present cfg POCSAG_SYNC ++ ws.flatMap (present cfg))).s.state =
      states.NO_SYNC ∧
    (feed cfg (fresh cfg)
      (present cfg POCSAG_SYNC ++ ws.flatMap (present cfg))).received_words = 0 ∧
    (feed cfg (fresh cfg) (present cfg POCSAG_SYNC ++ ws.flatMap (present cfg))).out = [] ∧
    (feed cfg (fresh cfg) (present cfg POCSAG_SYNC ++ ws.flatMap (present cfg))).s.address =
      -1 ∧
    (feed cfg (fresh cfg) (present cfg POCSAG_SYNC ++ ws.flatMap (present cfg))).s.function =
      -1 ∧
    (75 ≤ nibble_limit cfg →
      (feed cfg (fresh cfg)
        (present cfg POCSAG_SYNC ++ ws.flatMap (present cfg))).s.numnibbles = 80) := by
  obtain ⟨a1, a2, a3, a4, a5, a6, a7⟩ := fresh_acquire cfg
  have hwin : (feed cfg (fresh cfg) (present cfg POCSAG_SYNC)).s.rx_data =
      handed cfg POCSAG_SYNC := by
    rw [feed_rx_data]
    exact present_raw_window cfg _ _ (by decide)
  have hne : ws ≠ [] := by
    intro h
    rw [h] at hlen
    exact absurd hlen (by decide)
  obtain ⟨m1, m2, m3, -, m5, m6⟩ := feed_message_words cfg ws
    (feed cfg (fresh cfg) (present cfg POCSAG_SYNC))
    (by rw [a6]; exact fun h => states.noConfusion h) a4 a2 a3 (by rw [a5, hlen])
    (by
      intro v hv
      rw [hwin] at hv
      exact is_sync_false_of_ne v (hq v hv))
    hws
  obtain ⟨m51, m52⟩ := m5 hne
  rw [a5, hlen] at m51 m52
  rw [a7, hlen] at m6
  rw [feed_append]
  exact ⟨m52, m51, m1.trans a1, m2, m3, fun h => m6 (by omega)⟩

theorem sixteen_message_words_witness :
    (feed test_config (fresh test_config)
      (present test_config POCSAG_SYNC ++
        (List.replicate 16 scenario_message_word).flatMap (present test_config))).s.state =
      states.NO_SYNC ∧
    (feed test_config (fresh test_config)
      (present test_config POCSAG_SYNC ++
        (List.replicate 16 scenario_message_word).flatMap
          (present test_config))).s.numnibbles = 80 :=
  ⟨(sixteen_message_words test_config (List.replicate 16 scenario_message_word) rfl
      (by decide!) (by decide!)).1,
   (sixteen_message_words test_config (List.replicate 16 scenario_message_word) rfl
      (by decide!) (by decide!)).2.2.2.2.2 (by decide)⟩

/-- The sync word received at a word boundary, in sync or not, with no
earlier showing: a batch starts, the receiver is in sync, and the pending
message is left alone. -/
theorem feed_sync (cfg : Config) (r : Receiver) (bits : List Int)
    (h0 : r.s.rx_bit = 0) (hlen : bits.length = 32)
    (hq : ∀ v ∈ seen cfg r.s.rx_data (bits.take 31), is_sync v = false)
    (hv : handed cfg (window_after r.s.rx_data bits) = POCSAG_SYNC) :
    (feed cfg r bits).out = r.out ∧
    (feed cfg r bits).s.address = r.s.address ∧
    (feed cfg r bits).s.function = r.s.function ∧
    (feed cfg r bits).s.rx_bit = 0 ∧
    (feed cfg r bits).received_words = 0 ∧
    (feed cfg r bits).s.state ≠ states.NO_SYNC ∧
    (feed cfg r bits).s.numnibbles = r.s.numnibbles := by
  by_cases hs : r.s.state = states.NO_SYNC
  · obtain ⟨a1, a2, a3, a4, a5, a6, a7⟩ := feed_acquire cfg r bits hs hlen hq hv
    exact ⟨a1, a2, a3, a4, a5, by rw [a6]; exact fun h => states.noConfusion h, a7⟩
  · obtain ⟨pre, b, rfl, hpre⟩ := split_last bits 31 hlen
    have htake : (pre ++ [b]).take 31 = pre := by
      rw [← hpre, List.take_left]
    rw [htake] at hq
    obtain ⟨⟨p1, p2, p3, p4, p5, p6, p7⟩, -⟩ := feed_inside cfg pre r hs (by omega) hq
    have hsync : is_sync (handed cfg (shift_in (feed cfg r pre).s.rx_data b)) = true := by
      rw [feed_rx_data, ← window_after_snoc, hv]
      exact is_sync_SYNC
    rw [feed_snoc, rxbit_eq,
      do_one_bit_restart cfg
        (with_window (feed cfg r pre) (shift_in (feed cfg r pre).s.rx_data b))
        _ (by show (feed cfg r pre).s.state ≠ _; rw [p1]; exact hs) hsync]
    exact ⟨p3, p4, p5, rfl, rfl, by show (feed cfg r pre).s.state ≠ _; rw [p1]; exact hs, p7⟩

/-- A batch of message words behind its sync word, received at a word
boundary while no address is pending. -/
theorem feed_batch (cfg : Config) (ws : List Nat) (r : Receiver)
    (h0 : r.s.rx_bit = 0) (ha : r.s.address = -1) (hf : r.s.function = -1)
    (hne : ws ≠ []) (hlen : ws.length ≤ 16)
    (hq1 : ∀ v ∈ seen cfg r.s.rx_data ((present cfg POCSAG_SYNC).take 31), is_sync v = false)
    (hq2 : ∀ v ∈ seen cfg (handed cfg POCSAG_SYNC) (ws.flatMap (present cfg)),
      is_sync v = false)
    (hws : ∀ w ∈ ws, w < 2 ^ 32 ∧ w &&& POCSAG_MESSAGE_DETECTION ≠ 0 ∧
      repaired cfg w &&& POCSAG_MESSAGE_DETECTION ≠ 0) :
    (feed cfg r (present cfg POCSAG_SYNC ++ ws.flatMap (present cfg))).out = r.out ∧
    (feed cfg r (present cfg POCSAG_SYNC ++ ws.flatMap (present cfg))).s.address = -1 ∧
    (feed cfg r (present cfg POCSAG_SYNC ++ ws.flatMap (present cfg))).s.function = -1 ∧
    (feed cfg r (present cfg POCSAG_SYNC ++ ws.flatMap (present cfg))).s.rx_bit = 0 ∧
    (feed cfg r (present cfg POCSAG_SYNC ++ ws.flatMap (present cfg))).received_words =
      (if ws.length = 16 then 0 else ws.length) ∧
    (feed cfg r (present cfg POCSAG_SYNC ++ ws.flatMap (present cfg))).s.state =
      (if ws.length = 16 then states.NO_SYNC else states.MESSAGE) ∧
    (r.s.numnibbles + 5 * ws.length ≤ nibble_limit cfg + 5 →
      (feed cfg r (present cfg POCSAG_SYNC ++ ws.flatMap (present cfg))).s.numnibbles =
        r.s.numnibbles + 5 * ws.length) := by
  obtain ⟨a1, a2, a3, a4, a5, a6, a7⟩ := feed_sync cfg r (present cfg POCSAG_SYNC) h0
    (present_length cfg _) hq1 (present_window cfg _ _ (by decide))
  have hwin : (feed cfg r (present cfg POCSAG_SYNC)).s.rx_data = handed cfg POCSAG_SYNC := by
    rw [feed_rx_data]
    exact present_raw_window cfg _ _ (by decide)
  obtain ⟨m1, m2, m3, m4, m5, m6⟩ := feed_message_words cfg ws
    (feed cfg r (present cfg POCSAG_SYNC)) a6 a4 (a2.trans ha) (a3.trans hf)
    (by rw [a5]; omega) (by rw [hwin]; exact hq2) hws
  obtain ⟨m51, m52⟩ := m5 hne
  rw [a5, Nat.zero_add] at m51 m52
  rw [a7] at m6
  rw [feed_append]
  exact ⟨m1.trans a1, m2, m3, m4, m51, m52, m6⟩

theorem present_bits_of_word (cfg : Config) (h : cfg.pocsag_invert_input = 0) (w : Nat) :
    present cfg w = bits_of_word w := by
  unfold present bits_of_word
  apply List.map_congr_left
  intro i _
  rw [h]
  cases w.testBit (31 - i) <;> rfl

theorem batch_stream_present (cfg : Config) (h : cfg.pocsag_invert_input = 0) (ws : List Nat) :
    batch_stream ws = present cfg POCSAG_SYNC ++ ws.flatMap (present cfg) := by
  unfold batch_stream
  rw [present_bits_of_word cfg h, show present cfg = bits_of_word from
    funext (present_bits_of_word cfg h)]
  rfl

theorem message_word_ok : ∀ w ∈ List.replicate 16 scenario_message_word,
    w < 2 ^ 32 ∧ w &&& POCSAG_MESSAGE_DETECTION ≠ 0 ∧
      repaired config_256 w &&& POCSAG_MESSAGE_DETECTION ≠ 0 := by
  decide!

theorem message_batch_quiet :
    (∀ v ∈ seen config_256 0 ((present config_256 POCSAG_SYNC).take 31), is_sync v = false) ∧
    (∀ v ∈ seen config_256 scenario_message_word ((present config_256 POCSAG_SYNC).take 31),
      is_sync v = false) ∧
    (∀ v ∈ seen config_256 (handed config_256 POCSAG_SYNC)
      ((List.replicate 16 scenario_message_word).flatMap (present config_256)),
      is_sync v = false) := by
  decide!

/-- One batch of `k` message codewords behind its sync word, received with a
256-byte buffer at a word boundary while no address is pending and the
nibbles fit: nothing is printed and `5 * k` nibbles are added. -/
theorem message_batch_step (k : Nat) (hk1 : 1 ≤ k) (hk : k ≤ 16) (r : Receiver)
    (hw : r.s.rx_data = 0 ∨ r.s.rx_data = scenario_message_word) (h0 : r.s.rx_bit = 0)
    (ha : r.s.address = -1) (hf : r.s.function = -1)
    (hn : r.s.numnibbles + 5 * k ≤ 512) :
    (feed config_256 r (message_batch k)).out = r.out ∧
    (feed config_256 r (message_batch k)).s.address = -1 ∧
    (feed config_256 r (message_batch k)).s.function = -1 ∧
    (feed config_256 r (message_batch k)).s.rx_bit = 0 ∧
    (feed config_256 r (message_batch k)).received_words = (if k = 16 then 0 else k) ∧
    (feed config_256 r (message_batch k)).s.state =
      (if k = 16 then states.NO_SYNC else states.MESSAGE) ∧
    (feed config_256 r (message_batch k)).s.numnibbles = r.s.numnibbles + 5 * k ∧
    (feed config_256 r (message_batch k)).s.rx_data = scenario_message_word := by
  have hstream : message_batch k = present config_256 POCSAG_SYNC ++
      (List.replicate k scenario_message_word).flatMap (present config_256) :=
    batch_stream_present config_256 rfl _
  have hsplit : List.replicate 16 scenario_message_word =
      List.replicate k scenario_message_word ++
        List.replicate (16 - k) scenario_message_word := by
    rw [← List.replicate_add]
    congr 1
    omega
  have hq1 : ∀ v ∈ seen config_256 r.s.rx_data ((present config_256 POCSAG_SYNC).take 31),
      is_sync v = false := by
    rcases hw with e | e <;> rw [e]
    · exact message_batch_quiet.1
    · exact message_batch_quiet.2.1
  have hq2 : ∀ v ∈ seen config_256 (handed config_256 POCSAG_SYNC)
      ((List.replicate k scenario_message_word).flatMap (present config_256)),
      is_sync v = false := by
    intro v hv
    apply message_batch_quiet.2.2 v
    rw [hsplit, List.flatMap_append]
    exact seen_prefix_mem _ _ _ _ v hv
  have hws : ∀ w ∈ List.replicate k scenario_message_word,
      w < 2 ^ 32 ∧ w &&& POCSAG_MESSAGE_DETECTION ≠ 0 ∧
        repaired config_256 w &&& POCSAG_MESSAGE_DETECTION ≠ 0 := by
    intro w hmem
    apply message_word_ok w
    rw [hsplit]
    exact List.mem_append_left _ hmem
  have hlen : (List.replicate k scenario_message_word).length = k := List.length_replicate _ _
  obtain ⟨b1, b2, b3, b4, b5, b6, b7⟩ := feed_batch config_256
    (List.replicate k scenario_message_word) r h0 ha hf
    (by
      intro h
      have := congrArg List.length h
      rw [hlen] at this
      simp at this
      omega)
    (by rw [hlen]; exact hk) hq1 hq2 hws
  rw [hlen] at b5 b6 b7
  have hlim : nibble_limit config_256 = 507 := by decide
  rw [hstream]
  refine ⟨b1, b2, b3, b4, b5, b6, b7 (by rw [hlim]; omega), ?_⟩
  obtain ⟨j, rfl⟩ : ∃ j, k = j + 1 := ⟨k - 1, by omega⟩
  rw [feed_rx_data, List.replicate_succ', List.flatMap_append, ← List.append_assoc,
    window_after_append]
  show window_after _ (present config_256 scenario_message_word ++ []) = _
  rw [List.append_nil, present_raw_window config_256 _ _ (by decide)]
  decide

/-- The receiver with a 256-byte buffer after `overflow_stream`: fifteen words
of the last batch are done, 510 nibbles are pending, no address is pending
and nothing has been printed. -/
theorem overflow_stream_fields :
    (feed config_256 (fresh config_256) overflow_stream).out = [] ∧
    (feed config_256 (fresh config_256) overflow_stream).s.address = -1 ∧
    (feed config_256 (fresh config_256) overflow_stream).s.function = -1 ∧
    (feed config_256 (fresh config_256) overflow_stream).s.rx_bit = 0 ∧
    (feed config_256 (fresh config_256) overflow_stream).received_words = 15 ∧
    (feed config_256 (fresh config_256) overflow_stream).s.state = states.MESSAGE ∧
    (feed config_256 (fresh config_256) overflow_stream).s.numnibbles = 510 ∧
    (feed config_256 (fresh config_256) overflow_stream).s.rx_data = scenario_message_word := by
  unfold overflow_stream
  rw [feed_append, feed_append, feed_append, feed_append, feed_append, feed_append]
  obtain ⟨o1, a1, f1, b1, -, -, n1, w1⟩ := message_batch_step 7 (by decide) (by decide)
    (fresh config_256) (Or.inl rfl) rfl rfl rfl (by decide)
  obtain ⟨o2, a2, f2, b2, -, -, n2, w2⟩ := message_batch_step 16 (by decide) (by decide)
    _ (Or.inr w1) b1 a1 f1 (by rw [n1]; decide)
  rw [n1] at n2
  rw [o1] at o2
  obtain ⟨o3, a3, f3, b3, -, -, n3, w3⟩ := message_batch_step 16 (by decide) (by decide)
    _ (Or.inr w2) b2 a2 f2 (by rw [n2]; decide)
  rw [n2] at n3
  rw [o2] at o3
  obtain ⟨o4, a4, f4, b4, -, -, n4, w4⟩ := message_batch_step 16 (by decide) (by decide)
    _ (Or.inr w3) b3 a3 f3 (by rw [n3]; decide)
  rw [n3] at n4
  rw [o3] at o4
  obtain ⟨o5, a5, f5, b5, -, -, n5, w5⟩ := message_batch_step 16 (by decide) (by decide)
    _ (Or.inr w4) b4 a4 f4 (by rw [n4]; decide)
  rw [n4] at n5
  rw [o4] at o5
  obtain ⟨o6, a6, f6, b6, -, -, n6, w6⟩ := message_batch_step 16 (by decide) (by decide)
    _ (Or.inr w5) b5 a5 f5 (by rw [n5]; decide)
  rw [n5] at n6
  rw [o5] at o6
  obtain ⟨o7, a7, f7, b7, c7, s7, n7, w7⟩ := message_batch_step 15 (by decide) (by decide)
    _ (Or.inr w6) b6 a6 f6 (by rw [n6]; decide)
  rw [n6] at n7
  rw [o6] at o7
  exact ⟨o7, a7, f7, b7, c7, s7, n7, w7⟩

/-- C18, counterexample: with a 256-byte buffer, after 102 message codewords
received behind their sync words `numnibbles` is 510, above
`2 * sizeof(buffer) - 4 = 508`. -/
theorem numnibbles_exceeds_claimed_bound :
    Reachable config_256 (feed config_256 (fresh config_256) overflow_stream) ∧
    (feed config_256 (fresh config_256) overflow_stream).s.numnibbles = 510 ∧
    2 * config_256.buffer_size - 4 = 508 :=
  ⟨⟨_, rfl⟩, overflow_stream_fields.2.2.2.2.2.2.1, by decide⟩

theorem overflow_word_quiet :
    (∀ v ∈ seen config_256 scenario_message_word (bits_of_word scenario_message_word),
      is_sync v = false) ∧
    is_idle (handed config_256
      (window_after scenario_message_word (bits_of_word scenario_message_word))) = false ∧
    repaired config_256 (handed config_256
      (window_after scenario_message_word (bits_of_word scenario_message_word))) &&&
        POCSAG_MESSAGE_DETECTION ≠ 0 := by
  decide!

/-- C17, counterexample: with a 256-byte buffer, after `overflow_stream` 510
nibbles are pending, above `2 * sizeof(buffer) - 5 = 507`, and fifteen words
of the batch are done; the message codeword that follows completes as the
sixteenth word, the pending nibbles are dropped, and the state afterwards is
NO_SYNC, not MESSAGE. -/
theorem overflow_on_sixteenth_word :
    (feed config_256 (fresh config_256) overflow_stream).s.numnibbles = 510 ∧
    2 * config_256.buffer_size - 5 = 507 ∧
    (feed config_256 (fresh config_256) overflow_stream).s.state = states.MESSAGE ∧
    (feed config_256 (fresh config_256) overflow_stream).received_words = 15 ∧
    (feed config_256 (fresh config_256)
      (overflow_stream ++ bits_of_word scenario_message_word)).s.numnibbles = 0 ∧
    (feed config_256 (fresh config_256)
      (overflow_stream ++ bits_of_word scenario_message_word)).s.state = states.NO_SYNC := by
  obtain ⟨o, a, f, b, c, s, n, w⟩ := overflow_stream_fields
  obtain ⟨q1, q2, q3⟩ := overflow_word_quiet
  obtain ⟨-, -, -, -, -, m6, m7⟩ := feed_message_word config_256
    (feed config_256 (fresh config_256) overflow_stream) (bits_of_word scenario_message_word)
    (by rw [s]; exact fun h => states.noConfusion h) b (by decide)
    (by rw [w]; exact q1) (by rw [w]; exact q2) (by rw [w]; exact q3) a f
  rw [c] at m6
  rw [n] at m7
  rw [feed_append]
  exact ⟨n, by decide, s, c, m7, m6⟩

theorem overflow_pending_fields :
    overflow_pending_state.s.state = states.MESSAGE ∧
    overflow_pending_state.s.rx_bit = 31 ∧
    overflow_pending_state.s.numnibbles = 510 ∧
    overflow_pending_state.received_words = 15 := by
  obtain ⟨o, a, f, b, c, s, n, w⟩ := overflow_stream_fields
  have hsplit : bits_of_word scenario_message_word =
      (bits_of_word scenario_message_word).take 31 ++
        (bits_of_word scenario_message_word).drop 31 := (List.take_append_drop _ _).symm
  obtain ⟨⟨p1, p2, -, -, -, -, p7⟩, hb⟩ := feed_inside config_256
    ((bits_of_word scenario_message_word).take 31)
    (feed config_256 (fresh config_256) overflow_stream)
    (by rw [s]; exact fun h => states.noConfusion h) (by rw [b]; decide)
    (by
      intro v hv
      rw [w] at hv
      apply overflow_word_quiet.1 v
      rw [hsplit]
      exact seen_prefix_mem _ _ _ _ v hv)
  unfold overflow_pending_state
  rw [feed_append]
  exact ⟨p1.trans s, by rw [hb, b]; decide, p7.trans n, p2.trans c⟩

theorem overflow_flushes_witness :
    (do_one_bit config_256 overflow_pending_state scenario_message_word).s.numnibbles = 0 ∧
    (do_one_bit config_256 overflow_pending_state scenario_message_word).s.state =
      (if overflow_pending_state.received_words + 1 = 16 then states.NO_SYNC
       else states.MESSAGE) :=
  ⟨(overflow_flushes config_256 overflow_pending_state scenario_message_word (by decide)
      (by decide) (Or.inr overflow_pending_fields.1)
      (by rw [overflow_pending_fields.2.1]) (by decide) (by decide) (by decide!)
      (by rw [overflow_pending_fields.2.2.1]; decide)).2.1,
   (overflow_flushes config_256 overflow_pending_state scenario_message_word (by decide)
      (by decide) (Or.inr overflow_pending_fields.1)
      (by rw [overflow_pending_fields.2.1]) (by decide) (by decide) (by decide!)
      (by rw [overflow_pending_fields.2.2.1]; decide)).2.2.2.2.2.2.2⟩

/-- C20: a second receiver changes what the first one prints. Driven alone
with the scenario stream, the first receiver prints address 0x12343 (frame
3). When the second receiver is given SYNC and two IDLE words between the
first receiver's sync word and the rest of its stream, the shared
`received_words` is 2 when the first receiver's batch goes on, its address
word is taken as word 8 (frame 4), and the first receiver prints address
0x12344. -/
theorem second_receiver_shifts_frame :
    (feed test_config (fresh test_config) (scenario scenario_message_word)).out =
      [scenario_emission] ∧
    (interleaved_calls.filter (fun c => !c.1)).map (fun c => c.2) =
      scenario scenario_message_word ∧
    (run_pair test_config (fresh_pair test_config) interleaved_calls).out_first =
      [{ scenario_emission with address := 0x12344 }] := by
  decide!

/-- C21: after `DE` has been selected, a call with the unknown name `XX`
returns false and leaves the table as it was: the table in effect is still
the German one, not the US table. This holds in each of the three build
flavours. -/
theorem unknown_charset_keeps_table (build : Charset_build) :
    (pocsag_init_charset build trtab_US "DE").1 = true ∧
    (pocsag_init_charset build (trtab_DE build) "XX").1 = false ∧
    (pocsag_init_charset build (trtab_DE build) "XX").2 = trtab_DE build ∧
    trtab_DE build ≠ trtab_US := by
  cases build <;> decide

/-- C24: for fourteen nibbles the extraction loop produces seven characters,
not `floor(4 * 14 / 7) = 8`: the eighth complete 7-bit group of the stream
(the character `H` of `alpha_sample`) is discarded. For twenty-eight nibbles
it produces fifteen characters, not sixteen. -/
theorem extraction_drops_complete_group :
    alpha_chars alpha_sample 14 = some ((List.range 7).map (stream_char alpha_sample)) ∧
    4 * 14 / 7 = 8 ∧ stream_char alpha_sample 7 = 72 ∧
    (alpha_chars (alpha_sample ++ alpha_sample) 28).map List.length = some 15 ∧
    4 * 28 / 7 = 16 := by
  decide!

theorem lane_bits_lt (columns : List Nat) (k : Nat) : ∀ n, lane_bits columns k n < 2 ^ n := by
  intro n
  induction n with
  | zero => exact Nat.one_pos
  | succ n ih =>
    show lane_bits columns k n + _ < 2 ^ (n + 1)
    have : (if (rd columns n).testBit k then 2 ^ n else 0) ≤ 2 ^ n := by
      split
      · exact le_refl _
      · exact Nat.zero_le _
    rw [Nat.pow_succ]
    omega

theorem lane_bits_testBit (columns : List Nat) (k : Nat) : ∀ n i,
    (lane_bits columns k n).testBit i = (decide (i < n) && (rd columns i).testBit k) := by
  intro n
  induction n with
  | zero => intro i; simp [lane_bits]
  | succ n ih =>
    intro i
    show (lane_bits columns k n + _).testBit i = _
    have hlt := lane_bits_lt columns k n
    by_cases hb : (rd columns n).testBit k = true
    · rw [if_pos hb, Nat.add_comm]
      rcases Nat.lt_trichotomy i n with h | h | h
      · rw [Nat.testBit_two_pow_add_gt h, ih]
        simp [h, Nat.lt_succ_of_lt h]
      · subst h
        rw [Nat.testBit_two_pow_add_eq, ih]
        simp [hb]
      · have h2 : 2 ^ n + lane_bits columns k n < 2 ^ i := by
          have : 2 ^ (n + 1) ≤ 2 ^ i := Nat.pow_le_pow_right (by decide) h
          rw [Nat.pow_succ] at this
          omega
        rw [Nat.testBit_lt_two_pow h2]
        have : ¬ i < n + 1 := by omega
        simp [this]
    · rw [if_neg hb, Nat.add_zero, ih]
      rcases Nat.lt_trichotomy i n with h | h | h
      · simp [h, Nat.lt_succ_of_lt h]
      · subst h
        simp at hb
        simp [hb]
      · have h1 : ¬ i < n := by omega
        have h2 : ¬ i < n + 1 := by omega
        simp [h1, h2]

theorem lane_value_eq (columns : List Nat) (k : Nat) (hk : k < 32) :
    lane_value columns k = transpose_n k columns := by
  apply Nat.eq_of_testBit_eq
  intro i
  unfold lane_value
  rw [lane_bits_testBit, transpose_n_testBit k hk]

/-- C23: for every array of 32 column words and every lane `k < 32`, the
value read from lane `k` after `bitslice_syndrome` is `pocsag_syndrome` of
the value read from lane `k` before; `transpose_n` reads these values; and
lane `k` is all-zero after the call exactly when the scalar syndrome of the
value in lane `k` of the input is zero. -/
theorem bitslice_syndrome_lanes (s : List Nat) (hs : s.length = 32) (k : Nat) (hk : k < 32) :
    lane_value (bitslice_syndrome s) k = pocsag_syndrome (lane_value s k) ∧
    transpose_n k s = lane_value s k ∧
    ((∀ j, j < 32 → (rd (bitslice_syndrome s) j).testBit k = false) ↔
      pocsag_syndrome (lane_value s k) = 0) := by
  refine ⟨?_, (lane_value_eq s k hk).symm, ?_⟩
  · rw [lane_value_eq _ k hk, lane_value_eq _ k hk]
    exact bitslice_lane s hs k hk
  · rw [lane_value_eq _ k hk, ← lane_zero_iff s hs k hk, zero_lanes_testBit]
    exact ⟨fun h => ⟨hk, h⟩, fun h => h.2⟩

theorem bitslice_syndrome_lanes_witness :
    lane_value (bitslice_syndrome (transpose_clone scenario_message_word)) 5 =
      pocsag_syndrome (lane_value (transpose_clone scenario_message_word) 5) :=
  (bitslice_syndrome_lanes (transpose_clone scenario_message_word) (by decide) 5
    (by decide)).1

/-- Four units whose syndromes cancel come in two equal pairs, so three
distinct units and a fourth never cancel. -/
theorem four_distinct_ne_zero (i j k n : Nat) (hi : i < 32) (hj : j < 32) (hk : k < 32)
    (hn : n < 32) (hij : i ≠ j) (hik : i ≠ k) (hjk : j ≠ k) :
    unit_syndrome i ^^^ unit_syndrome j ^^^ unit_syndrome k ^^^ unit_syndrome n ≠ 0 := by
  intro h
  rcases Nat.lt_or_gt_of_ne hij with hlt | hlt
  · rcases four_units_zero i j k n hlt hj hk hn h with ⟨e, -⟩ | ⟨e, -⟩
    · exact hik e.symm
    · exact hjk e.symm
  · have h2 : unit_syndrome j ^^^ unit_syndrome i ^^^ unit_syndrome k ^^^ unit_syndrome n = 0 := by
      rw [Nat.xor_comm (unit_syndrome j) (unit_syndrome i)]
      exact h
    rcases four_units_zero j i k n hlt hi hk hn h2 with ⟨e, -⟩ | ⟨e, -⟩
    · exact hjk e.symm
    · exact hik e.symm

theorem five_units_ne_zero (i j k a b : Nat) (hi : i < 32) (hj : j < 32) (hk : k < 32)
    (ha : a < 32) (hb : b < 32) :
    unit_syndrome i ^^^ unit_syndrome j ^^^ unit_syndrome k ^^^ unit_syndrome a ^^^
      unit_syndrome b ≠ 0 := by
  intro h
  have hbit := congrArg (fun x => Nat.testBit x 10) h
  simp only [Nat.testBit_xor, unit_syndrome_parity i hi, unit_syndrome_parity j hj,
    unit_syndrome_parity k hk, unit_syndrome_parity a ha, unit_syndrome_parity b hb,
    Nat.zero_testBit] at hbit
  exact absurd hbit (by decide)

theorem syndrome_three_flips (c i j k : Nat) (hc : c < 2 ^ 32) (hs : pocsag_syndrome c = 0)
    (hi : i < 32) (hj : j < 32) (hk : k < 32) :
    pocsag_syndrome (c ^^^ 2 ^ i ^^^ 2 ^ j ^^^ 2 ^ k) =
      unit_syndrome i ^^^ unit_syndrome j ^^^ unit_syndrome k := by
  rw [syndrome_flip _ k (flip_lt _ j (flip_lt c i hc hi) hj) hk,
    syndrome_flip _ j (flip_lt c i hc hi) hj, syndrome_flip_code c i hc hs hi]

/-- C22: with `error_correction = 2`, a word of syndrome zero with three
distinct bits flipped is not repaired: `pocsag_brute_repair` returns 1 and
leaves the word as it is, the total-error counter and the uncorrected counter
each become the old value plus 1 (modulo `2 ^ counter_bits`, the width of the
counters, so exactly the old value plus 1 unless the counter was at its
maximum), and the three corrected counters are left as they were. -/
theorem three_errors_uncorrected (cfg : Config) (rx : l2_state_pocsag) (c i j k : Nat)
    (he : cfg.pocsag_error_correction = 2) (hc : c < 2 ^ 32) (hs : pocsag_syndrome c = 0)
    (hi : i < 32) (hj : j < 32) (hk : k < 32) (hij : i ≠ j) (hik : i ≠ k) (hjk : j ≠ k) :
    (pocsag_brute_repair cfg rx (c ^^^ 2 ^ i ^^^ 2 ^ j ^^^ 2 ^ k)).1 = 1 ∧
    (pocsag_brute_repair cfg rx (c ^^^ 2 ^ i ^^^ 2 ^ j ^^^ 2 ^ k)).2.2 =
      c ^^^ 2 ^ i ^^^ 2 ^ j ^^^ 2 ^ k ∧
    (pocsag_brute_repair cfg rx (c ^^^ 2 ^ i ^^^ 2 ^ j ^^^ 2 ^ k)).2.1.pocsag_total_error_count =
      (rx.pocsag_total_error_count + 1) % 2 ^ cfg.counter_bits ∧
    (pocsag_brute_repair cfg rx
      (c ^^^ 2 ^ i ^^^ 2 ^ j ^^^ 2 ^ k)).2.1.pocsag_uncorrected_error_count =
      (rx.pocsag_uncorrected_error_count + 1) % 2 ^ cfg.counter_bits ∧
    (rx.pocsag_total_error_count + 1 < 2 ^ cfg.counter_bits →
      (pocsag_brute_repair cfg rx
        (c ^^^ 2 ^ i ^^^ 2 ^ j ^^^ 2 ^ k)).2.1.pocsag_total_error_count =
        rx.pocsag_total_error_count + 1) ∧
    (rx.pocsag_uncorrected_error_count + 1 < 2 ^ cfg.counter_bits →
      (pocsag_brute_repair cfg rx
        (c ^^^ 2 ^ i ^^^ 2 ^ j ^^^ 2 ^ k)).2.1.pocsag_uncorrected_error_count =
        rx.pocsag_uncorrected_error_count + 1) ∧
    (pocsag_brute_repair cfg rx
      (c ^^^ 2 ^ i ^^^ 2 ^ j ^^^ 2 ^ k)).2.1.pocsag_corrected_error_count =
      rx.pocsag_corrected_error_count ∧
    (pocsag_brute_repair cfg rx
      (c ^^^ 2 ^ i ^^^ 2 ^ j ^^^ 2 ^ k)).2.1.pocsag_corrected_1bit_error_count =
      rx.pocsag_corrected_1bit_error_count ∧
    (pocsag_brute_repair cfg rx
      (c ^^^ 2 ^ i ^^^ 2 ^ j ^^^ 2 ^ k)).2.1.pocsag_corrected_2bit_error_count =
      rx.pocsag_corrected_2bit_error_count := by
  have hw : c ^^^ 2 ^ i ^^^ 2 ^ j ^^^ 2 ^ k < 2 ^ 32 :=
    flip_lt _ k (flip_lt _ j (flip_lt c i hc hi) hj) hk
  have hsyn := syndrome_three_flips c i j k hc hs hi hj hk
  have hne : pocsag_syndrome (c ^^^ 2 ^ i ^^^ 2 ^ j ^^^ 2 ^ k) ≠ 0 := by
    rw [hsyn]
    exact three_units_ne_zero i j k hi hj hk
  have hfail : pocsag_brute_repair cfg rx (c ^^^ 2 ^ i ^^^ 2 ^ j ^^^ 2 ^ k) =
      (1, rx_failed cfg rx, c ^^^ 2 ^ i ^^^ 2 ^ j ^^^ 2 ^ k) := by
    rcases repair_cases cfg rx _ hw hne (by rw [he]; decide) with
      ⟨n, hn, h0, -⟩ | ⟨-, ⟨h1, -⟩ | ⟨-, ⟨b1, b2, hb1, hb2, h0, -⟩ | ⟨-, h⟩⟩⟩
    · exfalso
      rw [syndrome_flip _ n hw hn, hsyn] at h0
      exact four_distinct_ne_zero i j k n hi hj hk hn hij hik hjk h0
    · exfalso
      rw [he] at h1
      exact absurd h1 (by decide)
    · exfalso
      rw [syndrome_cand _ b1 b2 hw hb1 hb2, hsyn] at h0
      exact five_units_ne_zero i j k b1 b2 hi hj hk hb1 hb2 h0
    · exact h
  have htot : (rx_failed cfg rx).pocsag_total_error_count =
      (rx.pocsag_total_error_count + 1) % 2 ^ cfg.counter_bits := rfl
  have hunc : (rx_failed cfg rx).pocsag_uncorrected_error_count =
      (rx.pocsag_uncorrected_error_count + 1) % 2 ^ cfg.counter_bits := rfl
  rw [hfail]
  exact ⟨rfl, rfl, htot, hunc, fun h => htot.trans (Nat.mod_eq_of_lt h),
    fun h => hunc.trans (Nat.mod_eq_of_lt h), rfl, rfl, rfl⟩

theorem three_errors_uncorrected_witness :
    (pocsag_brute_repair test_config (pocsag_init test_config)
      (scenario_message_word ^^^ 2 ^ 0 ^^^ 2 ^ 7 ^^^ 2 ^ 19)).1 = 1 ∧
    (pocsag_brute_repair test_config (pocsag_init test_config)
      (scenario_message_word ^^^ 2 ^ 0 ^^^ 2 ^ 7 ^^^ 2 ^ 19)).2.2 =
      scenario_message_word ^^^ 2 ^ 0 ^^^ 2 ^ 7 ^^^ 2 ^ 19 ∧
    (pocsag_brute_repair test_config (pocsag_init test_config)
      (scenario_message_word ^^^ 2 ^ 0 ^^^ 2 ^ 7 ^^^ 2 ^ 19)).2.1.pocsag_total_error_count =
      (pocsag_init test_config).pocsag_total_error_count + 1 ∧
    (pocsag_brute_repair test_config (pocsag_init test_config)
      (scenario_message_word ^^^ 2 ^ 0 ^^^ 2 ^ 7 ^^^ 2 ^ 19)).2.1.pocsag_uncorrected_error_count =
      (pocsag_init test_config).pocsag_uncorrected_error_count + 1 :=
  ⟨(three_errors_uncorrected test_config (pocsag_init test_config) scenario_message_word
      0 7 19 rfl (by decide) (by decide!) (by decide) (by decide) (by decide) (by decide)
      (by decide) (by decide)).1,
   (three_errors_uncorrected test_config (pocsag_init test_config) scenario_message_word
      0 7 19 rfl (by decide) (by decide!) (by decide) (by decide) (by decide) (by decide)
      (by decide) (by decide)).2.1,
   (three_errors_uncorrected test_config (pocsag_init test_config) scenario_message_word
      0 7 19 rfl (by decide) (by decide!) (by decide) (by decide) (by decide) (by decide)
      (by decide) (by decide)).2.2.2.2.1 (by decide),
   (three_errors_uncorrected test_config (pocsag_init test_config) scenario_message_word
      0 7 19 rfl (by decide) (by decide!) (by decide) (by decide) (by decide) (by decide)
      (by decide) (by decide)).2.2.2.2.2.1 (by decide)⟩

theorem handleNextWord_length (buffer : List Nat) (n word : Nat) :
    (handleNextWord buffer n word).1.length = buffer.length := by
  unfold handleNextWord
  split <;> simp only [length_wr]

theorem process_word_buffer_length (cfg : Config) (s : l2_state_pocsag) (f v : Nat) :
    (process_word cfg s f v).1.buffer.length = s.buffer.length := by
  obtain ⟨-, -, -, -, -, f6, -⟩ := repair_frame cfg s v
  cases hi : is_idle v with
  | true =>
    by_cases hn : s.numnibbles > 0
    · rw [process_word_idle_flush cfg s f v hi hn]
    · rw [process_word_idle_keep cfg s f v hi (by omega)]
  | false =>
    by_cases hm : (pocsag_brute_repair cfg s v).2.2 &&& POCSAG_MESSAGE_DETECTION = 0
    · rw [process_word_address cfg s f v hi hm]
      exact congrArg List.length f6
    · by_cases hn : s.numnibbles > nibble_limit cfg
      · rw [process_word_message_flush cfg s f v hi hm hn]
        exact congrArg List.length f6
      · rw [process_word_message_store cfg s f v hi hm (by omega)]
        exact handleNextWord_length _ _ _

theorem reachable_buffer_length (cfg : Config) (r : Receiver) (h : Reachable cfg r) :
    r.s.buffer.length = cfg.buffer_size := by
  refine reachable_induction cfg (fun r => r.s.buffer.length = cfg.buffer_size)
    (List.length_replicate _ _) ?_ r h
  intro r b _ ih
  show (pocsag_rxbit cfg r b).s.buffer.length = _
  rw [rxbit_eq]
  rcases do_one_bit_pending cfg (with_window r (shift_in r.s.rx_data b))
      (handed cfg (shift_in r.s.rx_data b)) with e | e
  · rw [e.2.2.2.1]
    exact ih
  · rw [e.2.2.2.2.2.2.1, process_word_buffer_length]
    exact ih

theorem reachable_numnibbles_le (cfg : Config) (r : Receiver) (h : Reachable cfg r)
    (h3 : 3 ≤ cfg.buffer_size) (hB : cfg.buffer_size < 2 ^ 63) :
    r.s.numnibbles ≤ 2 * cfg.buffer_size := by
  refine reachable_induction cfg (fun r => r.s.numnibbles ≤ 2 * cfg.buffer_size)
    (Nat.zero_le _) ?_ r h
  intro r b _ ih
  have hl := nibble_limit_eq cfg h3 hB
  show (pocsag_rxbit cfg r b).s.numnibbles ≤ _
  rcases rxbit_numnibbles cfg r b with e | e | e
  · rw [e]; exact ih
  · rw [e.1]
    have := e.2
    omega
  · rw [e]; exact Nat.zero_le _

theorem process_word_store_buffer (cfg : Config) (s : l2_state_pocsag) (f v : Nat)
    (h5 : (process_word cfg s f v).1.numnibbles = s.numnibbles + 5) :
    (process_word cfg s f v).1.buffer =
      (handleNextWord s.buffer s.numnibbles (repaired cfg v)).1 := by
  cases hi : is_idle v with
  | true =>
    by_cases hn : s.numnibbles > 0
    · rw [process_word_idle_flush cfg s f v hi hn] at h5
      have h0 : (0 : Nat) = s.numnibbles + 5 := h5
      omega
    · rw [process_word_idle_keep cfg s f v hi (by omega)] at h5
      have h0 : s.numnibbles = s.numnibbles + 5 := h5
      omega
  | false =>
    by_cases hm : (pocsag_brute_repair cfg s v).2.2 &&& POCSAG_MESSAGE_DETECTION = 0
    · rw [process_word_address cfg s f v hi hm] at h5
      have h0 : (0 : Nat) = s.numnibbles + 5 := h5
      omega
    · by_cases hn : s.numnibbles > nibble_limit cfg
      · rw [process_word_message_flush cfg s f v hi hm hn] at h5
        have h0 : (0 : Nat) = s.numnibbles + 5 := h5
        omega
      · rw [process_word_message_store cfg s f v hi hm (by omega), repaired_eq]

/-- C28: for every buffer capacity `B >= 3` and every reachable state,
`numnibbles` is at most `2 * B` and the buffer has `B` bytes, so the byte of
every nibble below `numnibbles` lies inside the buffer; and whenever a call
of `pocsag_rxbit` appends a message word (`numnibbles` grows by 5), the
three byte indices written, `numnibbles / 2`, `numnibbles / 2 + 1` and
`numnibbles / 2 + 2`, are below `B`. -/
theorem stores_stay_in_buffer (cfg : Config) (r : Receiver) (bit : Int)
    (h : Reachable cfg r) (h3 : 3 ≤ cfg.buffer_size) (hB : cfg.buffer_size < 2 ^ 63) :
    r.s.numnibbles ≤ 2 * cfg.buffer_size ∧
    r.s.buffer.length = cfg.buffer_size ∧
    (∀ i, i < r.s.numnibbles → i / 2 < r.s.buffer.length) ∧
    ((pocsag_rxbit cfg r bit).s.numnibbles = r.s.numnibbles + 5 →
      r.s.numnibbles / 2 < cfg.buffer_size ∧ r.s.numnibbles / 2 + 1 < cfg.buffer_size ∧
      r.s.numnibbles / 2 + 2 < cfg.buffer_size ∧
      (pocsag_rxbit cfg r bit).s.buffer =
        (handleNextWord r.s.buffer r.s.numnibbles
          (repaired cfg (handed cfg (shift_in r.s.rx_data bit)))).1) := by
  have hn := reachable_numnibbles_le cfg r h h3 hB
  have hlen := reachable_buffer_length cfg r h
  refine ⟨hn, hlen, fun i hi => by rw [hlen]; omega, fun h5 => ?_⟩
  have hl := nibble_limit_eq cfg h3 hB
  have hle : r.s.numnibbles ≤ nibble_limit cfg := by
    rcases rxbit_numnibbles cfg r bit with e | e | e
    · omega
    · exact e.2
    · omega
  refine ⟨by omega, by omega, by omega, ?_⟩
  rw [rxbit_eq] at h5 ⊢
  rcases do_one_bit_pending cfg (with_window r (shift_in r.s.rx_data bit))
      (handed cfg (shift_in r.s.rx_data bit)) with e | e
  · rw [e.1] at h5
    have h0 : r.s.numnibbles = r.s.numnibbles + 5 := h5
    omega
  · rw [e.2.2.2.1] at h5
    rw [e.2.2.2.2.2.2.1]
    exact process_word_store_buffer cfg _ _ _ h5

theorem stores_stay_in_buffer_witness :
    (pocsag_rxbit test_config
      (feed test_config (fresh test_config)
        (bits_of_word POCSAG_SYNC ++ (bits_of_word scenario_message_word).take 31))
      0).s.numnibbles =
      (feed test_config (fresh test_config)
        (bits_of_word POCSAG_SYNC ++
          (bits_of_word scenario_message_word).take 31)).s.numnibbles + 5 ∧
    (feed test_config (fresh test_config)
      (bits_of_word POCSAG_SYNC ++
        (bits_of_word scenario_message_word).take 31)).s.numnibbles / 2 + 2 <
      test_config.buffer_size :=
  ⟨by decide!,
   ((stores_stay_in_buffer test_config
      (feed test_config (fresh test_config)
        (bits_of_word POCSAG_SYNC ++ (bits_of_word scenario_message_word).take 31))
      0 ⟨_, rfl⟩ (by decide) (by decide)).2.2.2 (by decide!)).2.2.1⟩

theorem incr_flags (cfg : Config) (p q : Int) (c : Nat) :
    incr (with_flags cfg p q) c = incr cfg c := rfl

theorem repair_flags (cfg : Config) (p q : Int) (rx : l2_state_pocsag) (d : Nat) :
    pocsag_brute_repair (with_flags cfg p q) rx d = pocsag_brute_repair cfg rx d := rfl

theorem nibble_limit_flags (cfg : Config) (p q : Int) :
    nibble_limit (with_flags cfg p q) = nibble_limit cfg := rfl

theorem fresh_flags (cfg : Config) (p q : Int) : fresh (with_flags cfg p q) = fresh cfg := rfl

theorem word_start_flags (cfg : Config) (p q : Int) (s : l2_state_pocsag) :
    word_start (with_flags cfg p q) s = word_start cfg s := rfl

theorem render_payload_flags (cfg : Config) (p q : Int) (s : l2_state_pocsag) :
    render_payload (with_flags cfg p q) s = render_payload cfg s := rfl

theorem render_payload_ne_nil (cfg : Config) (s : l2_state_pocsag) :
    render_payload cfg s ≠ [] := by
  unfold render_payload
  simp only
  split
  · exact List.cons_ne_nil _ _
  · split
    · exact List.cons_ne_nil _ _
    · split
      · exact List.cons_ne_nil _ _
      · exact List.cons_ne_nil _ _

/-- What `pocsag_printmessage` prints for a message with nibbles pending and
`sync = true`, whatever the two output options are. -/
theorem printmessage_in_sync (cfg : Config) (s : l2_state_pocsag)
    (ha : -1 ≤ s.address) (hf : -1 ≤ s.function) (hn : 0 < s.numnibbles) :
    pocsag_printmessage cfg s true =
      if s.address ≠ -1 ∨ s.function ≠ -1 then
        [{ address := s.address, function := s.function, header_known := true,
           parts := render_payload cfg s, lost_sync := false }]
      else [] := by
  unfold pocsag_printmessage
  have h1 : ¬ (cfg.pocsag_show_partial_decodes = 0 ∧
      (s.address = -2 ∨ s.function = -2 ∨ true = false)) := by
    rintro ⟨-, h | h | h⟩
    · omega
    · omega
    · exact Bool.noConfusion h
  have h2 : ¬ (cfg.pocsag_prune_empty ≠ 0 ∧ s.numnibbles = 0) := by
    rintro ⟨-, h⟩
    omega
  have h3 : decide (s.address ≠ -2 ∨ s.function ≠ -2) = true :=
    decide_eq_true (Or.inl (by omega))
  rw [if_neg h1, if_neg h2, if_neg (by omega : ¬ s.numnibbles = 0), h3]
  rfl

theorem printmessage_flags (cfg : Config) (p q : Int) (s : l2_state_pocsag)
    (ha : -1 ≤ s.address) (hf : -1 ≤ s.function) (hn : 0 < s.numnibbles) :
    pocsag_printmessage (with_flags cfg p q) s true = pocsag_printmessage cfg s true := by
  rw [printmessage_in_sync _ s ha hf hn, printmessage_in_sync _ s ha hf hn,
    render_payload_flags]

theorem process_word_flags (cfg : Config) (p q : Int) (s : l2_state_pocsag) (f v : Nat)
    (ha : -1 ≤ s.address) (hf : -1 ≤ s.function) :
    process_word (with_flags cfg p q) s f v = process_word cfg s f v := by
  obtain ⟨-, -, -, f4, f5, -, f7, -⟩ := repair_frame cfg s v
  cases hi : is_idle v with
  | true =>
    by_cases hn : s.numnibbles > 0
    · rw [process_word_idle_flush _ s f v hi hn, process_word_idle_flush _ s f v hi hn,
        printmessage_flags cfg p q s ha hf hn]
    · rw [process_word_idle_keep _ s f v hi (by omega),
        process_word_idle_keep _ s f v hi (by omega)]
  | false =>
    by_cases hm : (pocsag_brute_repair cfg s v).2.2 &&& POCSAG_MESSAGE_DETECTION = 0
    · rw [process_word_address (with_flags cfg p q) s f v hi hm,
        process_word_address cfg s f v hi hm]
      simp only [repair_flags]
      by_cases hn : s.numnibbles > 0
      · rw [if_pos hn, if_pos hn,
          printmessage_flags cfg p q (pocsag_brute_repair cfg s v).2.1 (by rw [f4]; exact ha)
            (by rw [f5]; exact hf) (by rw [f7]; exact hn)]
      · rw [if_neg hn, if_neg hn]
    · by_cases hn : s.numnibbles > nibble_limit cfg
      · rw [process_word_message_flush (with_flags cfg p q) s f v hi hm hn,
          process_word_message_flush cfg s f v hi hm hn]
        have hpr : pocsag_printmessage (with_flags cfg p q)
            { (pocsag_brute_repair cfg s v).2.1 with state := states.MESSAGE } true =
            pocsag_printmessage cfg
              { (pocsag_brute_repair cfg s v).2.1 with state := states.MESSAGE } true :=
          printmessage_flags cfg p q _ (by show -1 ≤ (pocsag_brute_repair cfg s v).2.1.address
                                           rw [f4]; exact ha)
            (by show -1 ≤ (pocsag_brute_repair cfg s v).2.1.function
                rw [f5]; exact hf)
            (by show 0 < (pocsag_brute_repair cfg s v).2.1.numnibbles
                rw [f7]; omega)
        exact congrArg (Prod.mk _) hpr
      · rw [process_word_message_store (with_flags cfg p q) s f v hi hm (by
            show s.numnibbles ≤ nibble_limit cfg
            omega),
          process_word_message_store cfg s f v hi hm (by omega)]
        rfl

theorem do_one_bit_flags (cfg : Config) (p q : Int) (r : Receiver) (v : Nat)
    (ha : -1 ≤ r.s.address) (hf : -1 ≤ r.s.function) :
    do_one_bit (with_flags cfg p q) r v = do_one_bit cfg r v := by
  by_cases h1 : r.s.state = states.NO_SYNC
  · cases h2 : is_sync v with
    | true => rw [do_one_bit_acquire _ r v h1 h2, do_one_bit_acquire _ r v h1 h2]; rfl
    | false => rw [do_one_bit_unsynced _ r v h1 h2, do_one_bit_unsynced _ r v h1 h2]; rfl
  · cases h2 : is_sync v with
    | true => rw [do_one_bit_restart _ r v h1 h2, do_one_bit_restart _ r v h1 h2]; rfl
    | false =>
      by_cases h3 : (r.s.rx_bit + 1) % 32 = 0
      · rw [do_one_bit_word _ r v h1 h2 h3, do_one_bit_word _ r v h1 h2 h3,
          word_start_flags, process_word_flags cfg p q (word_start cfg r.s) _ v ha hf]
      · rw [do_one_bit_inside _ r v h1 h2 h3, do_one_bit_inside _ r v h1 h2 h3]; rfl

theorem rxbit_flags (cfg : Config) (p q : Int) (r : Receiver) (bit : Int)
    (ha : -1 ≤ r.s.address) (hf : -1 ≤ r.s.function) :
    pocsag_rxbit (with_flags cfg p q) r bit = pocsag_rxbit cfg r bit := by
  rw [rxbit_eq, rxbit_eq]
  exact do_one_bit_flags cfg p q _ _ ha hf

theorem feed_flags (cfg : Config) (p q : Int) (bits : List Int) :
    feed (with_flags cfg p q) (fresh (with_flags cfg p q)) bits = feed cfg (fresh cfg) bits := by
  induction bits using List.reverseRecOn with
  | nil => rfl
  | append_singleton bs b ih =>
    rw [feed_snoc, feed_snoc, ih]
    obtain ⟨ha, hf⟩ := reachable_header cfg (feed cfg (fresh cfg) bs) ⟨bs, rfl⟩
    exact rxbit_flags cfg p q _ b ha hf

theorem header_paired_bounds (s : l2_state_pocsag) (h : header_paired s) :
    -1 ≤ s.address ∧ -1 ≤ s.function := by
  rcases h with ⟨a, f⟩ | ⟨a, f⟩
  · rw [a, f]
    exact ⟨le_refl _, le_refl _⟩
  · exact ⟨by omega, by omega⟩

/-- What the handling of a completed word prints is nothing or the pending
message, printed with `sync = true` while nibbles are pending; and the header
stays paired. -/
theorem process_word_paired (cfg : Config) (s : l2_state_pocsag) (f v : Nat)
    (hp : header_paired s) :
    header_paired (process_word cfg s f v).1 ∧
    ((process_word cfg s f v).2 = [] ∨
      ∃ t, header_paired t ∧ 0 < t.numnibbles ∧
        (process_word cfg s f v).2 = pocsag_printmessage cfg t true) := by
  obtain ⟨-, -, -, f4, f5, -, f7, -⟩ := repair_frame cfg s v
  have hrep : header_paired (pocsag_brute_repair cfg s v).2.1 := by
    unfold header_paired
    rw [f4, f5]
    exact hp
  cases hi : is_idle v with
  | true =>
    by_cases hn : s.numnibbles > 0
    · rw [process_word_idle_flush cfg s f v hi hn]
      exact ⟨Or.inl ⟨rfl, rfl⟩, Or.inr ⟨s, hp, hn, rfl⟩⟩
    · rw [process_word_idle_keep cfg s f v hi (by omega)]
      exact ⟨hp, Or.inl rfl⟩
  | false =>
    by_cases hm : (pocsag_brute_repair cfg s v).2.2 &&& POCSAG_MESSAGE_DETECTION = 0
    · rw [process_word_address cfg s f v hi hm]
      refine ⟨Or.inr ⟨?_, ?_⟩, ?_⟩
      · show (0 : Int) ≤ ((pocsag_getAddress (pocsag_brute_repair cfg s v).2.2 f : Nat) : Int)
        omega
      · show (0 : Int) ≤ ((pocsag_getFunction (pocsag_brute_repair cfg s v).2.2 : Nat) : Int)
        omega
      · by_cases hn : s.numnibbles > 0
        · exact Or.inr ⟨_, hrep, by rw [f7]; exact hn, if_pos hn⟩
        · exact Or.inl (if_neg hn)
    · by_cases hn : s.numnibbles > nibble_limit cfg
      · rw [process_word_message_flush cfg s f v hi hm hn]
        exact ⟨Or.inl ⟨rfl, rfl⟩,
          Or.inr ⟨{ (pocsag_brute_repair cfg s v).2.1 with state := states.MESSAGE }, hrep,
            by show 0 < (pocsag_brute_repair cfg s v).2.1.numnibbles
               rw [f7]; omega,
            rfl⟩⟩
      · rw [process_word_message_store cfg s f v hi hm (by omega)]
        exact ⟨hrep, Or.inl rfl⟩

/-- A call of `do_one_bit` prints nothing or one pending message, with
`sync = true` and nibbles pending, and keeps the header paired. -/
theorem do_one_bit_paired (cfg : Config) (r : Receiver) (v : Nat) (hp : header_paired r.s) :
    header_paired (do_one_bit cfg r v).s ∧
    ((do_one_bit cfg r v).out = r.out ∨
      ∃ t, header_paired t ∧ 0 < t.numnibbles ∧
        (do_one_bit cfg r v).out = r.out ++ pocsag_printmessage cfg t true) := by
  rcases do_one_bit_pending cfg r v with e | e
  · refine ⟨?_, Or.inl e.2.2.2.2⟩
    unfold header_paired
    rw [e.2.1, e.2.2.1]
    exact hp
  · obtain ⟨-, -, -, -, e2, e3, -, e5⟩ := e
    have hw : header_paired (word_start cfg r.s) := hp
    obtain ⟨c1, c2⟩ := process_word_paired cfg (word_start cfg r.s) (r.received_words / 2) v hw
    refine ⟨?_, ?_⟩
    · unfold header_paired
      rw [e2, e3]
      exact c1
    · rcases c2 with c | ⟨t, t1, t2, t3⟩
      · left
        rw [e5, c, List.append_nil]
      · right
        exact ⟨t, t1, t2, by rw [e5, t3]⟩

theorem printmessage_lines (cfg : Config) (t : l2_state_pocsag) (hp : header_paired t)
    (hn : 0 < t.numnibbles) : ∀ e ∈ pocsag_printmessage cfg t true, in_sync_line e := by
  obtain ⟨ha, hf⟩ := header_paired_bounds t hp
  rw [printmessage_in_sync cfg t ha hf hn]
  intro e he
  by_cases hset : t.address ≠ -1 ∨ t.function ≠ -1
  · rw [if_pos hset] at he
    rw [List.mem_singleton] at he
    subst he
    rcases hp with ⟨a, f⟩ | ⟨a, f⟩
    · rcases hset with h | h
      · exact absurd a h
      · exact absurd f h
    · exact ⟨a, f, rfl, render_payload_ne_nil cfg t, rfl⟩
  · rw [if_neg hset] at he
    exact absurd he (List.not_mem_nil _)

theorem reachable_paired (cfg : Config) (r : Receiver) (h : Reachable cfg r) :
    header_paired r.s ∧ ∀ e ∈ r.out, in_sync_line e := by
  refine reachable_induction cfg (fun r => header_paired r.s ∧ ∀ e ∈ r.out, in_sync_line e)
    ⟨Or.inl ⟨rfl, rfl⟩, fun e he => absurd he (List.not_mem_nil _)⟩ ?_ r h
  intro r b _ ih
  show header_paired (pocsag_rxbit cfg r b).s ∧ ∀ e ∈ (pocsag_rxbit cfg r b).out, in_sync_line e
  rw [rxbit_eq]
  obtain ⟨c1, c2⟩ := do_one_bit_paired cfg (with_window r (shift_in r.s.rx_data b))
    (handed cfg (shift_in r.s.rx_data b)) ih.1
  refine ⟨c1, ?_⟩
  rcases c2 with c | ⟨t, t1, t2, t3⟩
  · rw [c]
    exact ih.2
  · rw [t3]
    intro e he
    rcases List.mem_append.mp he with h1 | h1
    · exact ih.2 e h1
    · exact printmessage_lines cfg t t1 t2 e h1

/-- C26: for every input bit stream the receiver, and with it the sequence
of emitted messages, is the same under all settings of
`show_partial_decodes` and `prune_empty`. A call of `do_one_bit` in a
reachable state prints nothing or calls `pocsag_printmessage` once, with
`sync = true` and `numnibbles > 0`; address and function of a reachable
state are never -2; and every emitted line has its address and function set
(not -1), a rendered payload and no `<LOST SYNC>` marker. -/
theorem output_options_irrelevant (cfg : Config) (p q p2 q2 : Int) (bits : List Int) (v : Nat) :
    feed (with_flags cfg p q) (fresh (with_flags cfg p q)) bits =
      feed (with_flags cfg p2 q2) (fresh (with_flags cfg p2 q2)) bits ∧
    (feed (with_flags cfg p q) (fresh (with_flags cfg p q)) bits).out =
      (feed cfg (fresh cfg) bits).out ∧
    ((do_one_bit cfg (feed cfg (fresh cfg) bits) v).out = (feed cfg (fresh cfg) bits).out ∨
      ∃ t, 0 < t.numnibbles ∧
        (do_one_bit cfg (feed cfg (fresh cfg) bits) v).out =
          (feed cfg (fresh cfg) bits).out ++ pocsag_printmessage cfg t true) ∧
    (feed cfg (fresh cfg) bits).s.address ≠ -2 ∧
    (feed cfg (fresh cfg) bits).s.function ≠ -2 ∧
    (∀ e ∈ (feed cfg (fresh cfg) bits).out,
      0 ≤ e.address ∧ 0 ≤ e.function ∧ e.header_known = true ∧ e.parts ≠ [] ∧
        e.lost_sync = false) := by
  obtain ⟨hp, hout⟩ := reachable_paired cfg (feed cfg (fresh cfg) bits) ⟨bits, rfl⟩
  obtain ⟨ha, hf⟩ := header_paired_bounds _ hp
  refine ⟨by rw [feed_flags, feed_flags], by rw [feed_flags], ?_, by omega, by omega, hout⟩
  rcases (do_one_bit_paired cfg (feed cfg (fresh cfg) bits) v hp).2 with c | ⟨t, -, t2, t3⟩
  · exact Or.inl c
  · exact Or.inr ⟨t, t2, t3⟩

theorem crc_loop_eq (n : Nat) : ∀ msg mask d, crc_loop n msg mask d = syndrome_loop n msg mask d := by
  induction n with
  | zero => intro _ _ _; rfl
  | succ n ih =>
    intro msg mask d
    show crc_loop n _ _ _ = syndrome_loop n _ _ _
    exact ih _ _ _

theorem crc_loop_rem (m : Nat) :
    crc_loop 21 m (u32 (1 <<< 30)) (u32 (0x0769 <<< 20)) = rem_after 21 m := by
  rw [crc_loop_eq]
  exact syndrome_loop_eq 21 0 m (by decide)

theorem div_step_small (sh n : Nat) (h : sh < 2 ^ 10) (hn : n ≤ 20) : div_step sh n = sh := by
  unfold div_step
  rw [if_neg]
  rw [Nat.testBit_lt_two_pow (lt_of_lt_of_le h (Nat.pow_le_pow_right (by decide) (by omega)))]
  exact Bool.false_ne_true

theorem rem_after_small (sh : Nat) (h : sh < 2 ^ 10) : ∀ k, k ≤ 21 → rem_after k sh = sh := by
  intro k
  induction k with
  | zero => intro _; rfl
  | succ k ih =>
    intro hk
    show div_step (rem_after k sh) k = sh
    rw [ih (by omega)]
    exact div_step_small sh k h (by omega)

theorem and_3ff_lt (x : Nat) : x &&& 0x3FF < 2 ^ 10 := by
  rw [show (0x3FF : Nat) = 2 ^ 10 - 1 from rfl, Nat.and_pow_two_sub_one_eq_mod]
  exact Nat.mod_lt _ (by decide)

theorem and_3ff_of_lt (x : Nat) (h : x < 2 ^ 10) : x &&& 0x3FF = x := by
  rw [show (0x3FF : Nat) = 2 ^ 10 - 1 from rfl, Nat.and_pow_two_sub_one_eq_mod]
  exact Nat.mod_eq_of_lt h

theorem data_mask_testBit (i : Nat) : Nat.testBit 0xfffff800 i = (decide (11 ≤ i) && decide (i < 32)) := by
  have e : (0xfffff800 : Nat) = (2 ^ 21 - 1) <<< 11 := by decide
  rw [e, Nat.testBit_shiftLeft, Nat.testBit_two_pow_sub_one]
  by_cases h1 : 11 ≤ i
  · by_cases h2 : i < 32
    · simp [h1, h2]
      omega
    · simp [h1, h2]
      omega
  · simp [h1]

/-- The code bits `w >> 1` are the data bits, as `check_crc` shifts them, and
the ten check bits. -/
theorem code_bits_split (w : Nat) (hw : w < 2 ^ 32) :
    w >>> 1 = ((w &&& 0xfffff800) >>> 1) ^^^ ((w >>> 1) &&& 0x3FF) := by
  apply Nat.eq_of_testBit_eq
  intro i
  rw [Nat.testBit_xor, Nat.testBit_shiftRight, Nat.testBit_shiftRight, Nat.testBit_and,
    Nat.testBit_and, Nat.testBit_shiftRight, data_mask_testBit,
    show (0x3FF : Nat) = 2 ^ 10 - 1 from rfl, Nat.testBit_two_pow_sub_one]
  by_cases h1 : i < 10
  · have h2 : ¬ 11 ≤ 1 + i := by omega
    simp [h1, h2]
  · by_cases h3 : 1 + i < 32
    · have h2 : 11 ≤ 1 + i := by omega
      simp [h1, h2, h3]
    · have h4 : w.testBit (1 + i) = false :=
        Nat.testBit_lt_two_pow (lt_of_lt_of_le hw (Nat.pow_le_pow_right (by decide) (by omega)))
      simp [h1, h4]

theorem data_bits_lt (w : Nat) : w &&& 0xfffff800 < 2 ^ 32 :=
  lt_of_le_of_lt Nat.and_le_right (by decide)

/-- The remainder of the code bits is the remainder `check_crc` computes from
the data bits, XORed with the check bits. -/
theorem rem_code_bits (w : Nat) (hw : w < 2 ^ 32) :
    rem_after 21 (w >>> 1) =
      rem_after 21 ((w &&& 0xfffff800) >>> 1) ^^^ ((w >>> 1) &&& 0x3FF) := by
  conv_lhs => rw [code_bits_split w hw]
  rw [rem_after_xor, rem_after_small _ (and_3ff_lt _) 21 (le_refl _)]

theorem tools_check_crc_iff (w : Nat) (hw : w < 2 ^ 32) :
    pocsag_crc.check_crc w = 1 ↔ rem_after 21 (w >>> 1) = 0 := by
  have hR := rem_lt (w &&& 0xfffff800) (data_bits_lt w)
  unfold pocsag_crc.check_crc
  simp only
  rw [show (11 : Nat) - 10 = 1 from rfl, crc_loop_rem, and_3ff_of_lt _ hR, rem_code_bits w hw,
    xor_eq_zero_iff]
  constructor
  · intro h
    by_contra hne
    rw [if_neg (fun e => hne e.symm)] at h
    exact absurd h (by decide)
  · intro h
    rw [if_pos h.symm]

theorem check_crc_agree (w : Nat) : pocsag_crc.check_crc w = check_crc w := by
  by_cases h : w = POCSAG_IDLE
  · subst h
    decide!
  · unfold check_crc pocsag_crc.check_crc
    rw [if_neg h]

theorem table_lookup : ∀ p, p < 16 →
    ((((0x6996 >>> p) &&& 1) ^^^ 1 = 1) ↔
      xor (xor (p.testBit 0) (p.testBit 2)) (xor (p.testBit 1) (p.testBit 3)) = false) := by
  decide

theorem and_f_testBit (t i : Nat) (hi : i < 4) : (t &&& 0x0f).testBit i = t.testBit i := by
  rw [Nat.testBit_and, show (0x0f : Nat) = 2 ^ 4 - 1 from rfl, Nat.testBit_two_pow_sub_one,
    decide_eq_true hi, Bool.and_true]

theorem and_f_lt (t : Nat) : t &&& 0x0f < 16 := by
  rw [show (0x0f : Nat) = 2 ^ 4 - 1 from rfl, Nat.and_pow_two_sub_one_eq_mod]
  exact Nat.mod_lt _ (by decide)

/-- The last two folding steps of `even_parity` XOR the four low bits of the
value that `check_parity` looks up in its table. -/
theorem parity_fold (t : Nat) :
    (((t ^^^ (t >>> 2)) ^^^ ((t ^^^ (t >>> 2)) >>> 1)) &&& 1).testBit 0 =
      xor (xor (t.testBit 0) (t.testBit 2)) (xor (t.testBit 1) (t.testBit 3)) := by
  rw [Nat.testBit_and, Nat.testBit_xor, Nat.testBit_xor, Nat.testBit_shiftRight,
    Nat.testBit_shiftRight, Nat.testBit_xor, Nat.testBit_shiftRight]
  simp

theorem check_parity_iff (w : Nat) : check_parity w = 1 ↔ parity_bit w = false := by
  unfold check_parity parity_bit even_parity
  simp only
  rw [parity_fold, table_lookup _ (and_f_lt _), and_f_testBit _ 0 (by decide),
    and_f_testBit _ 1 (by decide), and_f_testBit _ 2 (by decide), and_f_testBit _ 3 (by decide)]

theorem syndrome_zero_iff (w : Nat) :
    pocsag_syndrome w = 0 ↔ (rem_after 21 (w >>> 1) = 0 ∧ parity_bit w = false) := by
  rw [syndrome_eq]
  cases parity_bit w with
  | true =>
    rw [if_pos rfl]
    constructor
    · intro h
      exfalso
      have h10 : (rem_after 21 (w >>> 1) ||| 2 ^ 10).testBit 10 = true := by
        rw [Nat.testBit_or, Nat.testBit_two_pow_self, Bool.or_true]
      rw [h] at h10
      exact absurd h10 (by decide)
    · rintro ⟨-, h⟩
      exact absurd h (by decide)
  | false =>
    rw [if_neg Bool.false_ne_true]
    exact ⟨fun h => ⟨h, rfl⟩, fun h => h.1⟩

/-- C25: for every 32-bit word, `check_crc` and `check_parity` both return 1
exactly when `pocsag_syndrome` is 0 (the idle word, which `check_crc` answers
without dividing, included), and `check_crc` of `tools/pocsag_crc.c` returns
the same value as `check_crc` of `pocsag.c`. -/
theorem crc_and_parity_iff_syndrome (w : Nat) (hw : w < 2 ^ 32) :
    ((check_crc w = 1 ∧ check_parity w = 1) ↔ pocsag_syndrome w = 0) ∧
    pocsag_crc.check_crc w = check_crc w := by
  refine ⟨?_, check_crc_agree w⟩
  rw [← check_crc_agree w, tools_check_crc_iff w hw, check_parity_iff, syndrome_zero_iff]

theorem crc_and_parity_iff_syndrome_witness :
    ((check_crc POCSAG_IDLE = 1 ∧ check_parity POCSAG_IDLE = 1) ↔
      pocsag_syndrome POCSAG_IDLE = 0) ∧
    pocsag_crc.check_crc POCSAG_IDLE = check_crc POCSAG_IDLE :=
  crc_and_parity_iff_syndrome POCSAG_IDLE (by decide)

end Pocsag
